import Mathlib

/-!
Verification of tiny-torrent: wire codec, piece downloader, assembler and dispatcher.

A shallow embedding of `message/message.go` and `p2p/p2p.go`.

Conventions of the embedding:
* a Go `[]byte` is a `List Byte`, with `Byte = Fin 256`;
* a Go `int` is an `Int` (64-bit platform); `calculateBoundsForPiece` and
  `calculatePieceSize` compute in wrapping 64-bit arithmetic as the source does,
  while the buffer sizes and offsets of the codec, the downloader, the assembler
  and the dispatcher are taken in exact arithmetic, which agrees with the
  wrapping one as long as `Length + PieceLength < 2^63`
  (`calculateBoundsForPiece_eq_exact`); every `uint32` conversion and every
  `uint32` addition of the source is taken modulo `2^32`;
* a nil `*Message` (keep-alive) is `none`;
* a run-time panic (slice or index out of range) is `none` in an `Option` result;
* a Go `(value, error)` result keeps both components.
-/

namespace TinyTorrent

/-! ## Bytes, slices and big-endian words -/

abbrev Byte := Fin 256

/-- Go conversion `byte(v)`: the low eight bits. -/
def toByte (v : Nat) : Byte := ⟨v % 256, Nat.mod_lt _ (by decide)⟩

/-- Go conversion `uint32(x)` of an `int`. -/
def toUint32 (x : Int) : Nat := (x % 4294967296).toNat

/-- Go addition of two `uint32` values. -/
def addUint32 (a b : Nat) : Nat := (a + b) % 4294967296

/-- Go `make([]byte, n)`: a zeroed buffer. -/
def makeBytes (n : Nat) : List Byte := List.replicate n 0

/-- Go builtin `copy(dst, src)`: overwrites the first `min (len dst) (len src)`
bytes of `dst`; the result is the new content of `dst`. -/
def goCopy (dst src : List Byte) : List Byte :=
  src.take dst.length ++ dst.drop src.length

/-- Stdlib `binary.BigEndian.PutUint32(b[0:4], v)`: the four bytes written,
`byte(v >> 24)`, `byte(v >> 16)`, `byte(v >> 8)`, `byte(v)`. -/
def putUint32 (v : Nat) : List Byte :=
  [toByte (v / 16777216), toByte (v / 65536), toByte (v / 256), toByte v]

/-- Stdlib `binary.BigEndian.Uint32(b)`, for `b` of at least four bytes (every
call site of the source checks the length first). -/
def Uint32 (b : List Byte) : Nat :=
  (b.getD 0 0).val * 16777216 + (b.getD 1 0).val * 65536 + (b.getD 2 0).val * 256
    + (b.getD 3 0).val

/-! ## message/message.go -/

abbrev messageID := Byte

def MsgChoke : messageID := 0
def MsgUnchoke : messageID := 1
def MsgInterested : messageID := 2
def MsgNotInterested : messageID := 3
def MsgHave : messageID := 4
def MsgBitfield : messageID := 5
def MsgRequest : messageID := 6
def MsgPiece : messageID := 7
def MsgCancel : messageID := 8
def MsgPort : messageID := 9
def MsgExtended : messageID := 20

structure Message where
  ID : messageID
  Payload : List Byte
deriving DecidableEq, Repr

/-- Function `FormatRequest(index, begin, length)`. -/
def FormatRequest (index begin length : Int) : Message :=
  { ID := MsgRequest
    Payload := putUint32 (toUint32 index) ++ putUint32 (toUint32 begin)
      ++ putUint32 (toUint32 length) }

/-- Function `FormatHave(index)`. -/
def FormatHave (index : Int) : Message :=
  { ID := MsgHave, Payload := putUint32 (toUint32 index) }

/-- Errors of the parsing functions (the `fmt.Errorf` values of the source). -/
inductive ParseError where
  | unexpectedID
  | payloadTooShort
  | wrongIndex
  | beginTooHigh
  | dataTooLong
  | badHaveLength
deriving DecidableEq, Repr

/-- Result of `ParsePiece`: the new content of the caller's `buf`, the `int`
returned and the `error` returned. -/
structure PieceParse where
  buf : List Byte
  n : Int
  err : Option ParseError
deriving DecidableEq, Repr

/-- Function `ParsePiece(index, buf, msg)`. -/
def ParsePiece (index : Int) (buf : List Byte) (msg : Message) : PieceParse :=
  if msg.ID ≠ MsgPiece then ⟨buf, 0, some .unexpectedID⟩
  else if msg.Payload.length < 8 then ⟨buf, 0, some .payloadTooShort⟩
  else
    let parsedIndex : Int := Uint32 (msg.Payload.take 4)
    if parsedIndex ≠ index then ⟨buf, 0, some .wrongIndex⟩
    else
      let begin : Nat := Uint32 ((msg.Payload.drop 4).take 4)
      if begin ≥ buf.length then ⟨buf, 0, some .beginTooHigh⟩
      else
        let data := msg.Payload.drop 8
        if begin + data.length > buf.length then ⟨buf, 0, some .dataTooLong⟩
        else ⟨buf.take begin ++ goCopy (buf.drop begin) data, data.length, none⟩

/-- Function `ParseHave(msg)`: the `int` and the `error` returned. -/
def ParseHave (msg : Message) : Int × Option ParseError :=
  if msg.ID ≠ MsgHave then (0, some .unexpectedID)
  else if msg.Payload.length ≠ 4 then (0, some .badHaveLength)
  else ((Uint32 msg.Payload : Nat), none)

/-- Method `(*Message).Serialize()`; `none` is a run-time panic. The buffer size
`4+length` is a `uint32` sum in the source. -/
def Serialize : Option Message → Option (List Byte)
  | none => some (makeBytes 4)
  | some m =>
    let length := toUint32 ((m.Payload.length : Int) + 1)
    let buf := makeBytes (addUint32 4 length)
    -- binary.BigEndian.PutUint32(buf[0:4], length)
    if buf.length < 4 then none
    else
      let buf := putUint32 length ++ buf.drop 4
      -- buf[4] = byte(m.ID)
      if buf.length ≤ 4 then none
      else
        let buf := buf.set 4 m.ID
        -- copy(buf[5:], m.Payload)
        some (buf.take 5 ++ goCopy (buf.drop 5) m.Payload)

/-- Errors of a read from the connection. -/
inductive IOError where
  | eof
  | unexpectedEOF
  | timeout
  | other
deriving DecidableEq, Repr

/-- Stdlib `io.ReadFull(r, buf)` with `len(buf) = n`, on a reader that holds
exactly the bytes `r`: the bytes read and the rest of the stream. -/
def ReadFull (r : List Byte) (n : Nat) : Except IOError (List Byte × List Byte) :=
  if n ≤ r.length then .ok (r.take n, r.drop n)
  else if r.length = 0 then .error .eof
  else .error .unexpectedEOF

/-- Function `Read(r)`: the message (`none` for a keep-alive) and the unread rest of the
stream, or the error. -/
def Read (r : List Byte) : Except IOError (Option Message × List Byte) :=
  match ReadFull r 4 with
  | .error e => .error e
  | .ok (lengthBuf, r1) =>
    let length := Uint32 lengthBuf
    if length = 0 then .ok (none, r1)
    else
      match ReadFull r1 length with
      | .error e => .error e
      | .ok (messageBuf, r2) =>
        .ok (some { ID := messageBuf.getD 0 0, Payload := messageBuf.drop 1 }, r2)

/-- The embedded `begin` offset of a Piece payload. -/
def pieceBegin (msg : Message) : Nat := Uint32 ((msg.Payload.drop 4).take 4)

/-- The embedded piece index of a Piece payload. -/
def pieceIndex (msg : Message) : Nat := Uint32 (msg.Payload.take 4)

/-- The condition under which `ParsePiece` rejects the message. -/
def pieceRejected (index : Int) (bufLen : Nat) (msg : Message) : Prop :=
  msg.ID ≠ MsgPiece ∨ msg.Payload.length < 8 ∨ (pieceIndex msg : Int) ≠ index
    ∨ pieceBegin msg ≥ bufLen ∨ pieceBegin msg + (msg.Payload.drop 8).length > bufLen

/-! ## p2p/p2p.go: torrent descriptor and piece bounds -/

def MaxBlockSize : Int := 16384
def MaxBacklog : Int := 5

/-- A `[20]byte` SHA-1 digest. -/
abbrev Hash := { l : List Byte // l.length = 20 }

/-- The `Torrent` descriptor; the fields `Peers`, `PeerID`, `InfoHash` and `Name`
play no part in the functions embedded here. -/
structure Torrent where
  PieceHashes : List Hash
  PieceLength : Int
  Length : Int

structure pieceWork where
  index : Int
  hash : Hash
  length : Int
deriving DecidableEq

structure pieceResult where
  index : Int
  buf : List Byte
deriving DecidableEq

/-- Go `int` arithmetic: the exact result of an operation brought back into the
64-bit two's complement range. -/
def wrapInt (x : Int) : Int := (x + 9223372036854775808) % 18446744073709551616
  - 9223372036854775808

/-- Method `(*Torrent).calculateBoundsForPiece(index)`; the product and the sum
are Go `int` operations and wrap. -/
def calculateBoundsForPiece (t : Torrent) (index : Int) : Int × Int :=
  let begin := wrapInt (index * t.PieceLength)
  let end_ := wrapInt (begin + t.PieceLength)
  if end_ > t.Length then (begin, t.Length) else (begin, end_)

/-- Method `(*Torrent).calculatePieceSize(index)`; the difference is a Go `int`
operation and wraps. -/
def calculatePieceSize (t : Torrent) (index : Int) : Int :=
  wrapInt ((calculateBoundsForPiece t index).2 - (calculateBoundsForPiece t index).1)

/-- The bounds of piece `index` in exact arithmetic: what `calculateBoundsForPiece`
computes when none of its `int` operations overflows. -/
def exactBoundsForPiece (t : Torrent) (index : Int) : Int × Int :=
  let begin := index * t.PieceLength
  let end_ := begin + t.PieceLength
  if end_ > t.Length then (begin, t.Length) else (begin, end_)

/-- The size of piece `index` in exact arithmetic. -/
def exactPieceSize (t : Torrent) (index : Int) : Int :=
  (exactBoundsForPiece t index).2 - (exactBoundsForPiece t index).1

/-- The sum `Length + PieceLength` fits in a Go `int`, so that no operation of
`calculateBoundsForPiece` on a piece of the torrent overflows. -/
def FitsInt (t : Torrent) : Prop := t.Length + t.PieceLength < 9223372036854775808

/-- The descriptor invariant of the specification: positive piece length and
total length, and `(total_length + piece_length - 1) / piece_length` (Go integer
division) equal to the number of piece hashes. -/
def DescriptorInvariant (t : Torrent) : Prop :=
  0 < t.PieceLength ∧ 0 < t.Length
    ∧ Int.tdiv (t.Length + t.PieceLength - 1) t.PieceLength = t.PieceHashes.length

/-! ## p2p/p2p.go: the assembler loop of `Download` -/

/-- How a call ends: it returns a value, it panics, or it blocks for ever on a
channel or connection from which nothing more arrives. -/
inductive Outcome (α : Type) where
  | returned (a : α)
  | panicked
  | blocked
deriving DecidableEq

/-- Go `copy(buf[begin:end], src)`: `none` when the slice expression panics,
otherwise the new content of `buf`. -/
def copyIntoSlice (buf : List Byte) (begin end_ : Int) (src : List Byte) :
    Option (List Byte) :=
  if 0 ≤ begin ∧ begin ≤ end_ ∧ end_ ≤ buf.length then
    some (buf.take begin.toNat
      ++ goCopy ((buf.take end_.toNat).drop begin.toNat) src ++ buf.drop end_.toNat)
  else none

/-- Body of the assembler loop of `Download` for one received result: the new
content of the output buffer. The bounds of the slice are taken in exact
arithmetic; they are those of `calculateBoundsForPiece` as long as
`Length + PieceLength < 2^63` (`calculateBoundsForPiece_eq_exact`). -/
def assembleStep (t : Torrent) (buf : List Byte) (res : pieceResult) : Option (List Byte) :=
  copyIntoSlice buf (exactBoundsForPiece t res.index).1
    (exactBoundsForPiece t res.index).2 res.buf

/-- The loop `for donePieces < len(t.PieceHashes)` of `Download`, fed with the
results that arrive on the `results` channel, in their order of arrival. -/
def assembleLoop (t : Torrent) : List pieceResult → Nat → List Byte → Outcome (List Byte)
  | results, donePieces, buf =>
    if donePieces < t.PieceHashes.length then
      match results with
      | [] => .blocked
      | res :: rest =>
        match assembleStep t buf res with
        | none => .panicked
        | some buf1 => assembleLoop t rest (donePieces + 1) buf1
    else .returned buf

/-- The assembler part of `Download`: `buf := make([]byte, t.Length)` and the
loop over the received results. -/
def assemble (t : Torrent) (results : List pieceResult) : Outcome (List Byte) :=
  if t.Length < 0 then .panicked
  else assembleLoop t results 0 (makeBytes t.Length.toNat)

/-- The loop `for index, hash := range t.PieceHashes` of `Download`: the work
items put on the work queue, in index order, with
`length := t.calculatePieceSize(index)`. -/
def queuedWork (t : Torrent) : List pieceWork :=
  t.PieceHashes.enum.map (fun ih => ⟨(ih.1 : Nat), ih.2, calculatePieceSize t (ih.1 : Nat)⟩)

/-- The same work items with the piece sizes taken in exact arithmetic, as the
dispatcher below takes them; they are the items of `queuedWork` as long as
`Length + PieceLength < 2^63` (`queuedWork_eq_initialWork`). -/
def initialWork (t : Torrent) : List pieceWork :=
  t.PieceHashes.enum.map (fun ih => ⟨(ih.1 : Nat), ih.2, exactPieceSize t (ih.1 : Nat)⟩)

/-- A digest used in the example descriptors. -/
def zeroHash : Hash := ⟨List.replicate 20 0, rfl⟩

/-- An example descriptor: three bytes in two pieces of length 2. -/
def smallTorrent : Torrent := ⟨[zeroHash, zeroHash], 2, 3⟩

/-! ## The peer session and p2p/p2p.go: the piece downloader -/

/-- Modelled from the spec: the `bitfield` package is not among the sources.
`set(i)` is a no-op if `i/8` is out of range; otherwise it sets bit `7 - (i mod 8)`
of byte `i/8` (most significant bit first). -/
def SetPiece (bf : List Byte) (index : Int) : List Byte :=
  if index < 0 ∨ index / 8 ≥ bf.length then bf
  else
    bf.set (index / 8).toNat
      (toByte ((bf.getD (index / 8).toNat 0).val ||| 2 ^ (7 - (index % 8).toNat)))

/-- A Request message handed to the connection, by the arguments of the
`SendRequest` call; on the wire it is `Serialize (FormatRequest index begin length)`. -/
structure Request where
  index : Int
  begin : Int
  length : Int
deriving DecidableEq, Repr

/-- The write side of `net.Conn`: the Request messages written so far, and the
number of writes after which a write fails (`none`: no write fails). -/
structure Connection where
  written : List Request
  writeFailsAt : Option Nat
deriving DecidableEq

/-- The peer session `client.Client`: connection, choke flag and bitfield. -/
structure Client where
  Conn : Connection
  Choked : Bool
  Bitfield : List Byte
deriving DecidableEq

/-- What one call of `(*Client).Read` delivers: an error (a time-out among them),
a keep-alive (`none`) or a message. -/
abbrev ReadResult := Except IOError (Option Message)

/-- The errors a piece attempt ends with. -/
inductive Failure where
  | io (e : IOError)
  | parse (e : ParseError)
  | integrity
deriving DecidableEq, Repr

/-- Method `(*Client).SendRequest(index, begin, length)`: the session afterwards and the
error returned. -/
def SendRequest (c : Client) (index begin length : Int) : Client × Option Failure :=
  if c.Conn.writeFailsAt = some c.Conn.written.length then (c, some (.io .other))
  else
    ({ c with Conn := { c.Conn with written := c.Conn.written ++ [⟨index, begin, length⟩] } },
      none)

structure pieceProgress where
  index : Int
  client : Client
  buf : List Byte
  downloaded : Int
  requested : Int
  backlog : Int
deriving DecidableEq

/-- Method `(*pieceProgress).readMessage()`, given what `state.client.Read()` delivers:
the state afterwards and the error returned. -/
def readMessage (state : pieceProgress) (r : ReadResult) : pieceProgress × Option Failure :=
  match r with
  | .error e => if e = .timeout then (state, none) else (state, some (.io e))
  | .ok none => (state, none)
  | .ok (some msg) =>
    if msg.ID = MsgUnchoke then
      ({ state with client := { state.client with Choked := false } }, none)
    else if msg.ID = MsgChoke then
      ({ state with client := { state.client with Choked := true } }, none)
    else if msg.ID = MsgHave then
      match ParseHave msg with
      | (_, some e) => (state, some (.parse e))
      | (index, none) =>
        ({ state with
            client := { state.client with Bitfield := SetPiece state.client.Bitfield index } },
          none)
    else if msg.ID = MsgPiece then
      let r := ParsePiece state.index state.buf msg
      match r.err with
      | some e => ({ state with buf := r.buf }, some (.parse e))
      | none =>
        ({ state with
            buf := r.buf, downloaded := state.downloaded + r.n, backlog := state.backlog - 1 },
          none)
    else if msg.ID = 20 then (state, none)
    else (state, none)

/-- The block size computed in the request loop of `attemptDownloadPiece`. -/
def blockSizeFor (pw : pieceWork) (state : pieceProgress) : Int :=
  if pw.length - state.requested < MaxBlockSize then pw.length - state.requested
  else MaxBlockSize

/-- A run of the inner request loop: the states passed through (after
`state.backlog++` and after `state.requested += blockSize` of every iteration),
the state at its end and the error of a failed `SendRequest`. -/
structure RequestRun where
  visited : List pieceProgress
  state : pieceProgress
  err : Option Failure

/-- The loop `for state.backlog < MaxBacklog && state.requested < pw.length` of
`attemptDownloadPiece`. Every iteration raises `backlog` by one, so the loop is
run with `MaxBacklog - backlog` as the bound on its iterations. -/
def requestLoop (pw : pieceWork) : Nat → pieceProgress → RequestRun
  | 0, state => ⟨[], state, none⟩
  | fuel + 1, state =>
    if state.backlog < MaxBacklog ∧ state.requested < pw.length then
      let blockSize := blockSizeFor pw state
      match SendRequest state.client pw.index state.requested blockSize with
      | (c, some e) => ⟨[], { state with client := c }, some e⟩
      | (c, none) =>
        let s1 := { state with client := c, backlog := state.backlog + 1 }
        let s2 := { s1 with requested := s1.requested + blockSize }
        let r := requestLoop pw fuel s2
        ⟨s1 :: s2 :: r.visited, r.state, r.err⟩
    else ⟨[], state, none⟩

/-- The request phase of one iteration of the outer loop: nothing while choked. -/
def requestPhase (pw : pieceWork) (state : pieceProgress) : RequestRun :=
  if !state.client.Choked then requestLoop pw (MaxBacklog - state.backlog).toNat state
  else ⟨[], state, none⟩

/-- A state of the piece attempt together with the reads consumed before it. -/
structure Snapshot where
  consumed : List ReadResult
  state : pieceProgress

/-- A run of `attemptDownloadPiece`: the states passed through, the last state,
and how the call ends: the Go result pair `([]byte, error)`, a panic, or a read
that blocks for ever because the peer sends nothing more. -/
structure Run where
  visited : List Snapshot
  final : pieceProgress
  result : Outcome (Option (List Byte) × Option Failure)

/-- The loop `for state.downloaded < pw.length` of `attemptDownloadPiece`, fed with
what the successive reads deliver. -/
def downloadLoop (pw : pieceWork) :
    List ReadResult → List ReadResult → pieceProgress → Run
  | reads, consumed, state =>
    if state.downloaded < pw.length then
      let inner := requestPhase pw state
      let seen := inner.visited.map (fun s => Snapshot.mk consumed s)
      match inner.err with
      | some e => ⟨seen, inner.state, .returned (none, some e)⟩
      | none =>
        match reads with
        | [] => ⟨seen, inner.state, .blocked⟩
        | r :: rest =>
          match readMessage inner.state r with
          | (s, some e) => ⟨seen ++ [⟨consumed ++ [r], s⟩], s, .returned (none, some e)⟩
          | (s, none) =>
            let run := downloadLoop pw rest (consumed ++ [r]) s
            ⟨seen ++ ⟨consumed ++ [r], s⟩ :: run.visited, run.final, run.result⟩
    else ⟨[], state, .returned (some state.buf, none)⟩

/-- The initial `pieceProgress` of `attemptDownloadPiece`. -/
def initialProgress (c : Client) (pw : pieceWork) : pieceProgress :=
  { index := pw.index, client := c, buf := makeBytes pw.length.toNat,
    downloaded := 0, requested := 0, backlog := 0 }

/-- Function `attemptDownloadPiece(c, pw)`, given what the reads on the connection deliver.
`make([]byte, pw.length)` panics on a negative length. -/
def attemptDownloadPiece (c : Client) (pw : pieceWork) (reads : List ReadResult) : Run :=
  if pw.length < 0 then ⟨[], initialProgress c pw, .panicked⟩
  else
    let run := downloadLoop pw reads [] (initialProgress c pw)
    ⟨⟨[], initialProgress c pw⟩ :: run.visited, run.final, run.result⟩

/-- The Request messages written to the connection during a run that started
from session `c`. -/
def issuedRequests (c : Client) (final : pieceProgress) : List Request :=
  final.client.Conn.written.drop c.Conn.written.length

/-- Whether a read delivers a Piece message that `ParsePiece` accepts for this
piece (acceptance depends on the buffer only through its length). -/
def acceptedPiece (pw : pieceWork) (r : ReadResult) : Bool :=
  match r with
  | .ok (some msg) =>
    decide ((ParsePiece pw.index (makeBytes pw.length.toNat) msg).err = none)
  | _ => false

/-- Number of Piece blocks accepted among the reads consumed. -/
def acceptedBlocks (pw : pieceWork) (consumed : List ReadResult) : Nat :=
  (consumed.filter (acceptedPiece pw)).length

/-- An example session: unchoked, nothing written yet, no write failure. -/
def unchokedClient : Client := ⟨⟨[], none⟩, false, []⟩

/-- An example session that is still choked. -/
def chokedClient : Client := ⟨⟨[], none⟩, true, []⟩

/-- An example work item: piece 0 with four bytes. -/
def smallWork : pieceWork := ⟨0, zeroHash, 4⟩

/-- A Piece message for piece 0 carrying the four bytes of `smallWork` at offset 0. -/
def wholePiece : Message := ⟨MsgPiece, [0, 0, 0, 0, 0, 0, 0, 0, 1, 2, 3, 4]⟩

/-! ## p2p/p2p.go: the peer workers and the dispatcher -/

/-- Modelled from the spec: the `bitfield` package is not among the sources.
`has(i)` is false if `i/8` is out of range; otherwise it is bit `7 - (i mod 8)` of
byte `i/8`. -/
def HasPiece (bf : List Byte) (index : Int) : Bool :=
  if index < 0 ∨ index / 8 ≥ bf.length then false
  else decide ((bf.getD (index / 8).toNat 0).val / 2 ^ (7 - (index % 8).toNat) % 2 = 1)

/-- Function `checkIntegrity(pw, buf)`: the error returned, with SHA-1 taken as a fixed
function `sha1`. -/
def checkIntegrity (sha1 : List Byte → Hash) (pw : pieceWork) (buf : List Byte) :
    Option Failure :=
  if sha1 buf ≠ pw.hash then some .integrity else none

/-- What a worker does with a work item it has taken from the queue. -/
inductive WorkerAction where
  | requeueContinue
  | requeueExit
  | publish (res : pieceResult)
  | halted
deriving DecidableEq

/-- Body of the work loop of `startDownloadWorker` for the item `pw`, in a
session `c` with bitfield flag `gotBF` and reads `reads`: the item is put back
(and the worker goes on or exits), or one result is published; `halted` when the
piece attempt never returns. -/
def workerStep (sha1 : List Byte → Hash) (gotBF : Bool) (c : Client) (pw : pieceWork)
    (reads : List ReadResult) : WorkerAction :=
  if gotBF && !HasPiece c.Bitfield pw.index then .requeueContinue
  else
    match (attemptDownloadPiece c pw reads).result with
    | .panicked => .halted
    | .blocked => .halted
    | .returned (_, some _) => .requeueExit
    | .returned (b, none) =>
      if (checkIntegrity sha1 pw (b.getD [])).isSome then .requeueContinue
      else .publish ⟨pw.index, b.getD []⟩

/-- State of a download: the buffered work queue and whether it is closed, the
items taken by workers and neither put back nor published, the assembler's
output buffer and counter, and the results the assembler has received. -/
structure Swarm where
  workQueue : List pieceWork
  closed : Bool
  inFlight : List pieceWork
  buf : List Byte
  donePieces : Nat
  received : List pieceResult

/-- The state of `Download` once the queue is filled and the output buffer made. -/
def initialSwarm (t : Torrent) : Swarm :=
  { workQueue := initialWork t, closed := false, inFlight := [],
    buf := makeBytes t.Length.toNat, donePieces := 0, received := [] }

/-- One atomic step of the download: a worker takes an item from the queue; a
worker puts its item back (the queue has capacity `len(t.PieceHashes)`); a worker
hands a verified piece to the assembler over the unbuffered `results` channel and
the assembler copies it; the assembler closes the queue after its loop. -/
inductive Step (sha1 : List Byte → Hash) (t : Torrent) : Swarm → Swarm → Prop where
  | take (s : Swarm) (pw : pieceWork) (q : List pieceWork) :
      s.workQueue = pw :: q →
      Step sha1 t s { s with workQueue := q, inFlight := pw :: s.inFlight }
  | requeue (s : Swarm) (pw : pieceWork) (gotBF : Bool) (c : Client)
      (reads : List ReadResult) :
      pw ∈ s.inFlight →
      (workerStep sha1 gotBF c pw reads = .requeueContinue
        ∨ workerStep sha1 gotBF c pw reads = .requeueExit) →
      s.closed = false → s.workQueue.length < t.PieceHashes.length →
      Step sha1 t s
        { s with workQueue := s.workQueue ++ [pw], inFlight := s.inFlight.erase pw }
  | publish (s : Swarm) (pw : pieceWork) (gotBF : Bool) (c : Client)
      (reads : List ReadResult) (res : pieceResult) (buf1 : List Byte) :
      pw ∈ s.inFlight →
      workerStep sha1 gotBF c pw reads = .publish res →
      s.donePieces < t.PieceHashes.length →
      assembleStep t s.buf res = some buf1 →
      Step sha1 t s
        { s with
          inFlight := s.inFlight.erase pw, buf := buf1,
          donePieces := s.donePieces + 1, received := s.received ++ [res] }
  | close (s : Swarm) :
      ¬ s.donePieces < t.PieceHashes.length → s.closed = false →
      Step sha1 t s { s with closed := true }

/-- The states a download passes through. -/
inductive Reachable (sha1 : List Byte → Hash) (t : Torrent) : Swarm → Prop where
  | init : 0 ≤ t.Length → Reachable sha1 t (initialSwarm t)
  | step (s s1 : Swarm) : Reachable sha1 t s → Step sha1 t s s1 → Reachable sha1 t s1

/-- An example descriptor: one piece of four bytes. -/
def onePieceTorrent : Torrent := ⟨[zeroHash], 4, 4⟩

/-- A stand-in for SHA-1 in the examples: every digest is `zeroHash`. -/
def constHash : List Byte → Hash := fun _ => zeroHash

/-- The results are one per piece: the indices are exactly `0 .. num_pieces - 1`,
each once, and every buffer has the size of its piece. -/
def OnePerPiece (t : Torrent) (results : List pieceResult) : Prop :=
  (results.map (fun r => r.index)).Perm ((List.range t.PieceHashes.length).map Int.ofNat)
    ∧ ∀ r ∈ results, (r.buf.length : Int) = exactPieceSize t r.index

/-- The slice `out[begin:end]` of a buffer, for in-range bounds. -/
def sliceOf (out : List Byte) (begin end_ : Int) : List Byte :=
  (out.take end_.toNat).drop begin.toNat

/-- Validity of a batch of results: distinct in-range indices, buffers of piece size. -/
def ValidResults (t : Torrent) (l : List pieceResult) : Prop :=
  (l.map (fun r => r.index)).Nodup
    ∧ ∀ r ∈ l, (0 ≤ r.index ∧ r.index < t.PieceHashes.length)
        ∧ (r.buf.length : Int) = exactPieceSize t r.index

/-- The output buffer holds every listed result at the offset of its piece. -/
def Assembled (t : Torrent) (l : List pieceResult) (out : List Byte) : Prop :=
  (out.length : Int) = t.Length
    ∧ ∀ r ∈ l, ∀ k, k < r.buf.length →
        out[(r.index * t.PieceLength).toNat + k]? = r.buf[k]?

/-- What holds in every state of a download: the items queued or in flight are
items of the initial queue; their indices and the indices of the results received
are `0 .. num_pieces - 1`, each once; every result received has the size and the
hash of its piece and lies in the output buffer at the offset of its piece. -/
def SwarmInvariant (sha1 : List Byte → Hash) (t : Torrent) (s : Swarm) : Prop :=
  (∀ pw ∈ s.workQueue ++ s.inFlight, pw ∈ initialWork t)
    ∧ (((s.workQueue ++ s.inFlight).map (fun w => w.index)
          ++ s.received.map (fun r => r.index)).Perm
        ((List.range t.PieceHashes.length).map Int.ofNat))
    ∧ (∀ r ∈ s.received, (r.buf.length : Int) = exactPieceSize t r.index
        ∧ ∃ i : Nat, r.index = i ∧ t.PieceHashes[i]? = some (sha1 r.buf))
    ∧ Assembled t s.received s.buf
    ∧ s.donePieces = s.received.length

/-- Sum of the `length` arguments of a list of Request messages. -/
def requestedBytes (l : List Request) : Int := (l.map (fun q => q.length)).sum

/-- What holds in every state of a piece attempt started from session `c`: the
counters `downloaded` and `requested` are not negative, `requested` does not pass
the piece length, `backlog` does not pass `MaxBacklog` and is the number of
Request messages sent minus the number of Piece blocks accepted. -/
def ProgressInvariant (c : Client) (pw : pieceWork) (consumed : List ReadResult)
    (s : pieceProgress) : Prop :=
  0 ≤ s.downloaded ∧ 0 ≤ s.requested ∧ s.requested ≤ pw.length ∧ s.backlog ≤ MaxBacklog
    ∧ s.backlog = ((issuedRequests c s).length : Int) - (acceptedBlocks pw consumed : Int)
    ∧ s.index = pw.index ∧ s.buf.length = pw.length.toNat
    ∧ s.client.Conn.written = c.Conn.written ++ issuedRequests c s

/-- At the head of the loops the Request lengths sent so far add up to `requested`. -/
def RequestedInvariant (c : Client) (pw : pieceWork) (consumed : List ReadResult)
    (s : pieceProgress) : Prop :=
  ProgressInvariant c pw consumed s ∧ requestedBytes (issuedRequests c s) = s.requested

/-! ## torrentfile/tracker.go: `dedupPeers` -/

/-- Modelled from the spec: the `peers` package is not among the sources. A peer
endpoint is an IP address (its bytes) and a port. -/
structure Peer where
  IP : List Byte
  Port : Nat
deriving DecidableEq, Repr

/-- The loop of `dedupPeers` over the rest of the list, with the keys in the map
`seen` and the slice `unique` built so far. The key `p.IP.String()` of the source
is the parameter `ipString`, into any type with decidable equality. -/
def dedupLoop {κ : Type} [DecidableEq κ] (ipString : List Byte → κ) :
    List Peer → List κ → List Peer → List Peer
  | [], _, unique => unique
  | p :: rest, seen, unique =>
    if ipString p.IP ∈ seen then dedupLoop ipString rest seen unique
    else dedupLoop ipString rest (ipString p.IP :: seen) (unique ++ [p])

/-- Function `dedupPeers(list)`. -/
def dedupPeers {κ : Type} [DecidableEq κ] (ipString : List Byte → κ) (list : List Peer) :
    List Peer :=
  dedupLoop ipString list [] []

/-- The peers of `l` that the loop of `dedupPeers` appends when the keys `seen` are
already in the map. -/
def keptFrom {κ : Type} [DecidableEq κ] (ipString : List Byte → κ) :
    List Peer → List κ → List Peer
  | [], _ => []
  | p :: rest, seen =>
    if ipString p.IP ∈ seen then keptFrom ipString rest seen
    else p :: keptFrom ipString rest (ipString p.IP :: seen)

/-- The read does not deliver an Unchoke message. -/
def NotUnchoke (r : ReadResult) : Prop :=
  ∀ msg, r = .ok (some msg) → msg.ID ≠ MsgUnchoke

/-- The Request messages of an attempt on `pw`, in the order sent: the `i`-th asks
for the block at offset `MaxBlockSize * i`, which lies before the end of the
piece, with length `min(MaxBlockSize, length - offset)`. -/
def RequestShape (pw : pieceWork) (issued : List Request) : Prop :=
  ∀ (i : Nat) (q : Request), issued[i]? = some q →
    MaxBlockSize * i < pw.length
      ∧ q = ⟨pw.index, MaxBlockSize * i, min MaxBlockSize (pw.length - MaxBlockSize * i)⟩

/-- The invariant of the request loop at the loop heads: the requests sent have
the shape above, and while `requested` is short of the piece length it is
`MaxBlockSize` times their number. -/
def ShapeInvariant (c : Client) (pw : pieceWork) (consumed : List ReadResult)
    (s : pieceProgress) : Prop :=
  RequestedInvariant c pw consumed s ∧ RequestShape pw (issuedRequests c s)
    ∧ (s.requested < pw.length →
        s.requested = MaxBlockSize * ((issuedRequests c s).length : Int))

/-- The same between `backlog++` and `requested += blockSize`. -/
def ShapeMid (c : Client) (pw : pieceWork) (consumed : List ReadResult)
    (s : pieceProgress) : Prop :=
  ProgressInvariant c pw consumed s ∧ RequestShape pw (issuedRequests c s)

/-- The range `(begin, length)` written by a read, when it delivers a Piece
message that `ParsePiece` accepts for this piece. -/
def acceptedRange (pw : pieceWork) (r : ReadResult) : Option (Nat × Nat) :=
  match r with
  | .ok (some msg) =>
    if acceptedPiece pw (.ok (some msg)) = true then
      some (pieceBegin msg, (msg.Payload.drop 8).length)
    else none
  | _ => none

/-- The ranges written by the Piece blocks accepted among the reads consumed. -/
def acceptedRanges (pw : pieceWork) (consumed : List ReadResult) : List (Nat × Nat) :=
  consumed.filterMap (acceptedRange pw)

/-- Total length of a list of ranges. -/
def blockBytes (ranges : List (Nat × Nat)) : Nat := (ranges.map (fun r => r.2)).sum

/-- Offset `j` lies in one of the ranges. -/
def coveredBy (ranges : List (Nat × Nat)) (j : Nat) : Prop :=
  ∃ r ∈ ranges, r.1 ≤ j ∧ j < r.1 + r.2

/-- No two of the ranges overlap. -/
def RangesDisjoint (ranges : List (Nat × Nat)) : Prop :=
  ranges.Pairwise (fun a b => a.1 + a.2 ≤ b.1 ∨ b.1 + b.2 ≤ a.1)

/-- The set of offsets covered by a list of ranges. -/
def coverSet : List (Nat × Nat) → Finset Nat
  | [] => ∅
  | r :: l => Finset.Ico r.1 (r.1 + r.2) ∪ coverSet l

/-- A Piece message for piece 0 carrying two bytes at offset 0. -/
def halfPiece : Message := ⟨MsgPiece, [0, 0, 0, 0, 0, 0, 0, 0, 1, 2]⟩

/-- The invariant behind the returned buffer: `downloaded` is the total length of
the accepted blocks, and every accepted block lies within the piece. -/
def CoverInvariant (c : Client) (pw : pieceWork) (consumed : List ReadResult)
    (s : pieceProgress) : Prop :=
  RequestedInvariant c pw consumed s
    ∧ s.downloaded = (blockBytes (acceptedRanges pw consumed) : Int)
    ∧ ∀ r ∈ acceptedRanges pw consumed, r.1 + r.2 ≤ pw.length.toNat

/-! ## client/client.go and the start of a worker -/

/-- Function `recvBitfield(conn)`, given what its one read delivers: the bitfield
returned (`none` for nil) and the error returned. -/
def recvBitfield (r : ReadResult) : Option (List Byte) × Option Failure :=
  match r with
  | .error e => if e = .timeout then (none, none) else (none, some (.io e))
  | .ok none => (none, none)
  | .ok (some msg) =>
    if msg.ID = MsgBitfield then (some msg.Payload, none)
    else if msg.ID = MsgHave then (none, none)
    else if msg.ID = 20 then (none, none)
    else (none, none)

/-- Function `New(peer, peerID, infoHash, _)` of the client package, from the point
where the dial, the handshake and the writes of Interested and of the Extended
handshake have succeeded: `recvBitfield` reads one frame, its error is dropped, and
the session starts choked with the bitfield read (a nil bitfield is empty). -/
def New (conn : Connection) (first : ReadResult) : Client :=
  { Conn := conn, Choked := true, Bitfield := (recvBitfield first).1.getD [] }

/-- What a worker enters its work loop with: the session, the flag `gotBF` and the
reads still to come. -/
structure WorkerReady where
  c : Client
  gotBF : Bool
  rest : List ReadResult

/-- The readiness loop of `startDownloadWorker` (the `for` before `READY`):
`returned none` when the worker returns on a read error, `returned (some _)` at
`goto READY`, `blocked` when the peer sends nothing more. -/
def readinessLoop : List ReadResult → Client → Bool → Outcome (Option WorkerReady)
  | [], _, _ => .blocked
  | r :: rest, c, gotBF =>
    match r with
    | .error _ => .returned none
    | .ok none => readinessLoop rest c gotBF
    | .ok (some msg) =>
      if msg.ID = MsgUnchoke then
        .returned (some ⟨{ c with Choked := false }, gotBF, rest⟩)
      else if msg.ID = MsgBitfield then
        readinessLoop rest { c with Bitfield := msg.Payload } true
      else if msg.ID = MsgHave then
        match ParseHave msg with
        | (i, none) => readinessLoop rest { c with Bitfield := SetPiece c.Bitfield i } true
        | (_, some _) => readinessLoop rest c gotBF
      else readinessLoop rest c gotBF

/-- The start of `startDownloadWorker`, up to `READY`: the session from `New`, then
`gotBF := false`, `c.Bitfield = make([]byte, (len(t.PieceHashes)+7)/8)` and the
readiness loop. -/
def workerReadiness (t : Torrent) (conn : Connection) (first : ReadResult)
    (reads : List ReadResult) : Outcome (Option WorkerReady) :=
  let c := New conn first
  let c := { c with Bitfield := makeBytes ((t.PieceHashes.length + 7) / 8) }
  readinessLoop reads c false

/-- Body of the work loop of `startDownloadWorker` as `workerStep`, together with
the session afterwards (whose connection holds the Request messages written). -/
def workerIteration (sha1 : List Byte → Hash) (gotBF : Bool) (c : Client) (pw : pieceWork)
    (reads : List ReadResult) : WorkerAction × Client :=
  if gotBF && !HasPiece c.Bitfield pw.index then (.requeueContinue, c)
  else
    match (attemptDownloadPiece c pw reads).result with
    | .panicked => (.halted, (attemptDownloadPiece c pw reads).final.client)
    | .blocked => (.halted, (attemptDownloadPiece c pw reads).final.client)
    | .returned (_, some _) => (.requeueExit, (attemptDownloadPiece c pw reads).final.client)
    | .returned (b, none) =>
      if (checkIntegrity sha1 pw (b.getD [])).isSome then
        (.requeueContinue, (attemptDownloadPiece c pw reads).final.client)
      else (.publish ⟨pw.index, b.getD []⟩, (attemptDownloadPiece c pw reads).final.client)

/-- A descriptor at the edge of the `int` range: two pieces of `2^62` bytes for a
content of `2^63 - 1` bytes. -/
def hugeTorrent : Torrent := ⟨[zeroHash, zeroHash], 4611686018427387904, 9223372036854775807⟩

/-- The descriptor of the specification's scenario S4: three pieces of 32768 bytes
for a content of 81920 bytes. -/
def scenarioTorrent : Torrent := ⟨[zeroHash, zeroHash, zeroHash], 32768, 81920⟩

/-- The block `(begin, data)` carried by a read, when it delivers a Piece message
that `ParsePiece` accepts for this piece: `begin` is the offset field and `data`
the payload after the two four-byte fields. -/
def acceptedBlock (pw : pieceWork) (r : ReadResult) : Option (Nat × List Byte) :=
  match r with
  | .ok (some msg) =>
    if acceptedPiece pw (.ok (some msg)) = true then
      some (pieceBegin msg, msg.Payload.drop 8)
    else none
  | _ => none

/-- The Piece blocks accepted among the reads consumed, in the order received. -/
def acceptedBlockList (pw : pieceWork) (consumed : List ReadResult) :
    List (Nat × List Byte) :=
  consumed.filterMap (acceptedBlock pw)

/-- Buffer `buf` with the bytes of block `b` put at offsets
`[b.1, b.1 + b.2.length)`. -/
def writeBlock (buf : List Byte) (b : Nat × List Byte) : List Byte :=
  buf.take b.1 ++ b.2 ++ buf.drop (b.1 + b.2.length)

/-- Buffer `buf` overwritten by the blocks one after the other. -/
def replayBlocks (blocks : List (Nat × List Byte)) (buf : List Byte) : List Byte :=
  blocks.foldl writeBlock buf

/-- What holds of the buffer in every state of a piece attempt: `downloaded` is the
total length of the accepted blocks, every accepted block lies within the piece,
and the buffer is the zeroed buffer overwritten by the accepted blocks in order. -/
def BufferInvariant (c : Client) (pw : pieceWork) (consumed : List ReadResult)
    (s : pieceProgress) : Prop :=
  ProgressInvariant c pw consumed s
    ∧ s.downloaded = (blockBytes (acceptedRanges pw consumed) : Int)
    ∧ (∀ r ∈ acceptedRanges pw consumed, r.1 + r.2 ≤ pw.length.toNat)
    ∧ s.buf = replayBlocks (acceptedBlockList pw consumed) (makeBytes pw.length.toNat)

/-- The same at the head of the loops, where the Request lengths sent add up to
`requested`. -/
def BufferHead (c : Client) (pw : pieceWork) (consumed : List ReadResult)
    (s : pieceProgress) : Prop :=
  CoverInvariant c pw consumed s
    ∧ s.buf = replayBlocks (acceptedBlockList pw consumed) (makeBytes pw.length.toNat)

/-! ## Lemmas on bytes and big-endian words -/

theorem toByte_val (v : Nat) : (toByte v).val = v % 256 := rfl

theorem length_putUint32 (v : Nat) : (putUint32 v).length = 4 := rfl

theorem Uint32_putUint32 (v : Nat) (h : v < 4294967296) : Uint32 (putUint32 v) = v := by
  simp only [Uint32, putUint32, List.getD_cons_zero, List.getD_cons_succ, toByte_val]
  omega

theorem Uint32_putUint32_append (v : Nat) (h : v < 4294967296) (l : List Byte) :
    Uint32 (putUint32 v ++ l) = v := by
  simp only [Uint32, putUint32, List.cons_append, List.getD_cons_zero, List.getD_cons_succ,
    toByte_val]
  omega

theorem Uint32_lt (b : List Byte) : Uint32 b < 4294967296 := by
  simp only [Uint32]
  have h0 := (b.getD 0 0).isLt
  have h1 := (b.getD 1 0).isLt
  have h2 := (b.getD 2 0).isLt
  have h3 := (b.getD 3 0).isLt
  omega

theorem putUint32_Uint32 (a b c d : Byte) : putUint32 (Uint32 [a, b, c, d]) = [a, b, c, d] := by
  have ha := a.isLt
  have hb := b.isLt
  have hc := c.isLt
  have hd := d.isLt
  simp only [Uint32, putUint32, List.getD_cons_zero, List.getD_cons_succ, List.cons.injEq,
    and_true]
  refine ⟨?_, ?_, ?_, ?_⟩ <;> apply Fin.ext <;> simp only [toByte_val] <;> omega

theorem length_goCopy (dst src : List Byte) : (goCopy dst src).length = dst.length := by
  simp only [goCopy, List.length_append, List.length_take, List.length_drop]
  omega

theorem goCopy_of_length_eq (dst src : List Byte) (h : dst.length = src.length) :
    goCopy dst src = src := by
  simp [goCopy, h]

theorem getD_replicate_succ (n : Nat) (a d : Byte) :
    (List.replicate (n + 1) a).getD 0 d = a := rfl

theorem toUint32_of_lt (x : Nat) (h : x < 4294967296) : toUint32 (x : Int) = x := by
  unfold toUint32
  omega

/-! ## Framing: `Read` and `Serialize` -/

theorem Serialize_some (m : Message) (h : m.Payload.length + 5 < 4294967296) :
    Serialize (some m)
      = some (putUint32 (m.Payload.length + 1) ++ m.ID :: m.Payload) := by
  have h1 : toUint32 ((m.Payload.length : Int) + 1) = m.Payload.length + 1 := by
    unfold toUint32
    omega
  have h2 : addUint32 4 (m.Payload.length + 1) = m.Payload.length + 5 := by
    unfold addUint32
    omega
  have h3 : makeBytes (m.Payload.length + 5)
      = 0 :: 0 :: 0 :: 0 :: 0 :: makeBytes m.Payload.length := by
    simp [makeBytes, List.replicate_succ]
  simp only [Serialize, h1, h2, h3]
  simp [putUint32, goCopy, makeBytes]

theorem Serialize_panics (m : Message) (h1 : 4294967291 ≤ m.Payload.length)
    (h2 : m.Payload.length < 4294967296) : Serialize (some m) = none := by
  have h3 : addUint32 4 (toUint32 ((m.Payload.length : Int) + 1)) ≤ 4 := by
    unfold addUint32 toUint32
    omega
  simp only [Serialize, makeBytes, List.length_replicate, List.length_append,
    length_putUint32, List.length_drop]
  split
  · rfl
  · rw [if_pos (by omega)]

theorem Read_frame (L : Nat) (body rest : List Byte) (h1 : 1 ≤ L) (h2 : L < 4294967296)
    (hb : body.length = L) :
    Read (putUint32 L ++ body ++ rest)
      = .ok (some { ID := body.getD 0 0, Payload := body.drop 1 }, rest) := by
  have e1 : ReadFull (putUint32 L ++ body ++ rest) 4 = .ok (putUint32 L, body ++ rest) := by
    simp [ReadFull, putUint32]
  have e2 : ReadFull (body ++ rest) L = .ok (body, rest) := by
    subst hb
    simp [ReadFull]
  have e3 : Uint32 (putUint32 L) = L := Uint32_putUint32 L h2
  simp only [Read, e1, e3, e2]
  rw [if_neg (by omega)]

/-- Round trip of a framed message whose length prefix is below `2^32 - 4`:
`Read` succeeds, consumes the whole frame and `Serialize` gives the frame back. -/
theorem Read_Serialize_frame (L : Nat) (body : List Byte) (h1 : 1 ≤ L)
    (h2 : L + 4 < 4294967296) (hb : body.length = L) :
    ∃ m, Read (putUint32 L ++ body) = .ok (some m, [])
      ∧ Serialize (some m) = some (putUint32 L ++ body) := by
  refine ⟨{ ID := body.getD 0 0, Payload := body.drop 1 }, ?_, ?_⟩
  · have h := Read_frame L body [] h1 (by omega) hb
    simpa using h
  · cases body with
    | nil => simp at hb; omega
    | cons b bs =>
      have hl : bs.length + 1 = L := by simpa using hb
      rw [Serialize_some _ (by simp only [List.drop_succ_cons, List.drop_zero]; omega)]
      simp only [List.drop_succ_cons, List.drop_zero, hl]
      rfl

/-- C1, evaluated at a frame whose length prefix is `2^32 - 4`: `Read` accepts the
frame and returns its message, and `Serialize` of that message panics (the
`uint32` buffer size `4+length` wraps to 0), so the frame is not given back. -/
theorem C1_Serialize_panics_after_Read :
    Read ([255, 255, 255, 252] ++ List.replicate 4294967292 0)
        = .ok (some { ID := 0, Payload := List.replicate 4294967291 0 }, [])
      ∧ Serialize (some { ID := 0, Payload := List.replicate 4294967291 0 }) = none := by
  constructor
  · have h := Read_frame 4294967292 (List.replicate 4294967292 0) [] (by omega) (by omega)
      (List.length_replicate _ _)
    have e : putUint32 4294967292 = [255, 255, 255, 252] := by decide
    have d : (List.replicate 4294967292 (0 : Byte)).drop 1 = List.replicate 4294967291 0 := by
      rw [List.drop_replicate]
    have g : (List.replicate 4294967292 (0 : Byte)).getD 0 0 = 0 :=
      getD_replicate_succ 4294967291 0 0
    rw [e, d, g, List.append_nil] at h
    exact h
  · apply Serialize_panics
    · rw [List.length_replicate]
    · rw [List.length_replicate]; omega

/-- C2: for `index`, `begin`, `length` in `[0, 2^32)` the serialized Request is
the 17 bytes `00 00 00 0D 06` followed by the three arguments, each as the four
bytes of its big-endian representation. -/
theorem C2_Request_serialization (index begin length : Int)
    (hi : 0 ≤ index ∧ index < 4294967296) (hb : 0 ≤ begin ∧ begin < 4294967296)
    (hl : 0 ≤ length ∧ length < 4294967296) :
    Serialize (some (FormatRequest index begin length))
        = some ([0, 0, 0, 0x0D, 6] ++ putUint32 index.toNat ++ putUint32 begin.toNat
            ++ putUint32 length.toNat)
      ∧ ([0, 0, 0, 0x0D, 6] ++ putUint32 index.toNat ++ putUint32 begin.toNat
            ++ putUint32 length.toNat).length = 17
      ∧ (Uint32 (putUint32 index.toNat) : Int) = index
      ∧ (Uint32 (putUint32 begin.toNat) : Int) = begin
      ∧ (Uint32 (putUint32 length.toNat) : Int) = length := by
  have e1 : toUint32 index = index.toNat := by unfold toUint32; omega
  have e2 : toUint32 begin = begin.toNat := by unfold toUint32; omega
  have e3 : toUint32 length = length.toNat := by unfold toUint32; omega
  refine ⟨?_, by simp [length_putUint32], ?_, ?_, ?_⟩
  · rw [Serialize_some _ (by simp [FormatRequest, length_putUint32])]
    simp only [FormatRequest, e1, e2, e3, List.length_append, length_putUint32]
    have : putUint32 (4 + 4 + 4 + 1) = [0, 0, 0, 0x0D] := by decide
    rw [this]
    simp [MsgRequest]
  · rw [Uint32_putUint32 _ (by omega)]; omega
  · rw [Uint32_putUint32 _ (by omega)]; omega
  · rw [Uint32_putUint32 _ (by omega)]; omega

/-- C2 at `Request(37, 0, 16384)`: the 17 bytes of the specification's scenario. -/
theorem C2_Request_serialization_witness :
    ((0 : Int) ≤ 37 ∧ (37 : Int) < 4294967296) ∧ ((0 : Int) ≤ 0 ∧ (0 : Int) < 4294967296)
      ∧ ((0 : Int) ≤ 16384 ∧ (16384 : Int) < 4294967296)
      ∧ Serialize (some (FormatRequest 37 0 16384))
        = some [0, 0, 0, 0x0D, 6, 0, 0, 0, 0x25, 0, 0, 0, 0, 0, 0, 0x40, 0] :=
  ⟨by decide, by decide, by decide,
    (C2_Request_serialization 37 0 16384 (by decide) (by decide) (by decide)).1.trans
      (by decide)⟩

/-! ## `ParsePiece` -/

theorem goCopy_short_src (dst src : List Byte) (h : src.length ≤ dst.length) :
    goCopy dst src = src ++ dst.drop src.length := by
  simp [goCopy, List.take_of_length_le h]

theorem ParsePiece_ok (index : Int) (buf : List Byte) (msg : Message)
    (h : ¬ pieceRejected index buf.length msg) :
    ParsePiece index buf msg
      = ⟨buf.take (pieceBegin msg) ++ msg.Payload.drop 8
          ++ buf.drop (pieceBegin msg + (msg.Payload.drop 8).length),
         ((msg.Payload.drop 8).length : Nat), none⟩ := by
  simp only [pieceRejected, not_or, not_not, not_lt, ge_iff_le, gt_iff_lt, not_le] at h
  obtain ⟨h1, h2, h3, h4, h5⟩ := h
  unfold pieceIndex at h3
  unfold pieceBegin at h4 h5
  unfold ParsePiece
  simp only [pieceBegin]
  rw [if_neg (by simpa using h1), if_neg (by omega), if_neg (by simpa using h3),
    if_neg (by omega), if_neg (by omega)]
  rw [goCopy_short_src _ _ (by simp only [List.length_drop] at h5 ⊢; omega)]
  simp [List.drop_drop, List.append_assoc, Nat.add_comm]

theorem ParsePiece_err (index : Int) (buf : List Byte) (msg : Message)
    (h : pieceRejected index buf.length msg) :
    (ParsePiece index buf msg).err ≠ none ∧ (ParsePiece index buf msg).n = 0
      ∧ (ParsePiece index buf msg).buf = buf := by
  unfold pieceRejected pieceIndex pieceBegin at h
  unfold ParsePiece
  by_cases h1 : msg.ID ≠ MsgPiece
  · simp [h1]
  · rw [if_neg h1]
    by_cases h2 : msg.Payload.length < 8
    · simp [h2]
    · rw [if_neg h2]
      by_cases h3 : (Uint32 (msg.Payload.take 4) : Int) ≠ index
      · simp only []
        rw [if_pos h3]
        simp
      · simp only []
        rw [if_neg h3]
        by_cases h4 : Uint32 ((msg.Payload.drop 4).take 4) ≥ buf.length
        · rw [if_pos h4]
          simp
        · rw [if_neg h4]
          by_cases h5 : Uint32 ((msg.Payload.drop 4).take 4) + (msg.Payload.drop 8).length
              > buf.length
          · rw [if_pos h5]
            simp
          · exfalso
            rcases h with h | h | h | h | h
            · exact h1 h
            · exact h2 h
            · exact h3 h
            · exact h4 h
            · exact h5 h

theorem getElem?_splice_inside (a b c : List Byte) (j : Nat) (hj : j < b.length) :
    (a ++ b ++ c)[a.length + j]? = b[j]? := by
  rw [List.append_assoc, List.getElem?_append_right (by omega)]
  rw [List.getElem?_append_left (by omega)]
  congr 1
  omega

theorem getElem?_splice_outside (buf block : List Byte) (begin j : Nat)
    (hfit : begin + block.length ≤ buf.length) (hj : j < begin ∨ begin + block.length ≤ j) :
    (buf.take begin ++ block ++ buf.drop (begin + block.length))[j]? = buf[j]? := by
  have hl : (buf.take begin).length = begin := by
    rw [List.length_take]; omega
  rcases hj with hj | hj
  · rw [List.append_assoc, List.getElem?_append_left (by omega), List.getElem?_take_of_lt hj]
  · rw [List.getElem?_append_right (by simp only [List.length_append, hl]; omega)]
    rw [List.getElem?_drop]
    congr 1
    simp only [List.length_append, hl]
    omega

theorem pieceFields (index begin : Nat) (block : List Byte) (hi : index < 4294967296)
    (hb : begin < 4294967296) :
    pieceIndex ⟨MsgPiece, putUint32 index ++ putUint32 begin ++ block⟩ = index
      ∧ pieceBegin ⟨MsgPiece, putUint32 index ++ putUint32 begin ++ block⟩ = begin
      ∧ (putUint32 index ++ putUint32 begin ++ block).drop 8 = block := by
  refine ⟨?_, ?_, ?_⟩
  · simp only [pieceIndex, List.append_assoc]
    rw [List.take_left' (length_putUint32 index)]
    exact Uint32_putUint32 index hi
  · simp only [pieceBegin, List.append_assoc]
    rw [List.drop_left' (length_putUint32 index), List.take_left' (length_putUint32 begin)]
    exact Uint32_putUint32 begin hb
  · rw [List.drop_left' (by simp [length_putUint32])]

/-- C3: a Piece message carrying the expected index and a block that fits in
`buf` at `begin` is accepted: `ParsePiece` returns the block length and no error,
`buf` keeps its length, holds the block at `[begin, begin + len block)` and is
unchanged everywhere else. -/
theorem C3_ParsePiece_copies_block (index begin : Nat) (block buf : List Byte)
    (hi : index < 4294967296) (hb : begin < 4294967296)
    (hlt : begin < buf.length) (hfit : begin + block.length ≤ buf.length) :
    (ParsePiece index buf ⟨MsgPiece, putUint32 index ++ putUint32 begin ++ block⟩).n
        = block.length
      ∧ (ParsePiece index buf ⟨MsgPiece, putUint32 index ++ putUint32 begin ++ block⟩).err
        = none
      ∧ (ParsePiece index buf
          ⟨MsgPiece, putUint32 index ++ putUint32 begin ++ block⟩).buf.length = buf.length
      ∧ (∀ j, j < block.length →
          (ParsePiece index buf
            ⟨MsgPiece, putUint32 index ++ putUint32 begin ++ block⟩).buf[begin + j]?
            = block[j]?)
      ∧ (∀ j, j < begin ∨ begin + block.length ≤ j →
          (ParsePiece index buf
            ⟨MsgPiece, putUint32 index ++ putUint32 begin ++ block⟩).buf[j]? = buf[j]?) := by
  obtain ⟨f1, f2, f3⟩ := pieceFields index begin block hi hb
  have hacc : ¬ pieceRejected index buf.length
      ⟨MsgPiece, putUint32 index ++ putUint32 begin ++ block⟩ := by
    simp only [pieceRejected, f1, f2, f3, not_or]
    refine ⟨by simp, ?_, by simp, by omega, by omega⟩
    simp only [List.length_append, length_putUint32]
    omega
  rw [ParsePiece_ok _ _ _ hacc]
  simp only [f2, f3]
  have hl : (buf.take begin).length = begin := by
    rw [List.length_take]; omega
  refine ⟨trivial, trivial, ?_, ?_, ?_⟩
  · simp only [List.length_append, List.length_take, List.length_drop]
    omega
  · intro j hj
    have h := getElem?_splice_inside (buf.take begin) block
      (buf.drop (begin + block.length)) j hj
    rw [hl] at h
    exact h
  · intro j hj
    exact getElem?_splice_outside buf block begin j hfit hj

/-- C3 at index 4, a four-byte buffer, `begin = 1` and a two-byte block. -/
theorem C3_ParsePiece_copies_block_witness :
    (ParsePiece 4 [1, 2, 3, 4] ⟨MsgPiece, [0, 0, 0, 4, 0, 0, 0, 1, 9, 8]⟩).n = 2
      ∧ (ParsePiece 4 [1, 2, 3, 4] ⟨MsgPiece, [0, 0, 0, 4, 0, 0, 0, 1, 9, 8]⟩).err = none
      ∧ (ParsePiece 4 [1, 2, 3, 4]
          ⟨MsgPiece, [0, 0, 0, 4, 0, 0, 0, 1, 9, 8]⟩).buf.length = 4
      ∧ (ParsePiece 4 [1, 2, 3, 4] ⟨MsgPiece, [0, 0, 0, 4, 0, 0, 0, 1, 9, 8]⟩).buf
          = [1, 9, 8, 4] := by
  have h := C3_ParsePiece_copies_block 4 1 [9, 8] [1, 2, 3, 4] (by decide) (by decide)
    (by decide) (by decide)
  exact ⟨h.1, h.2.1, h.2.2.1, by decide⟩

/-- C4: `ParsePiece` returns an error exactly when the id is not Piece, or the
payload has fewer than 8 bytes, or the embedded index differs from the expected
one, or `begin >= len(buf)`, or `begin + len(block) > len(buf)`; on an error it
returns 0 and leaves `buf` as it was. An empty payload, index 5 against expected
index 4, and `begin = len(buf)` are rejected. -/
theorem C4_ParsePiece_error_iff (index : Int) (buf : List Byte) (msg : Message) :
    ((ParsePiece index buf msg).err ≠ none ↔
        (msg.ID ≠ MsgPiece ∨ msg.Payload.length < 8
          ∨ (Uint32 (msg.Payload.take 4) : Int) ≠ index
          ∨ Uint32 ((msg.Payload.drop 4).take 4) ≥ buf.length
          ∨ Uint32 ((msg.Payload.drop 4).take 4) + (msg.Payload.drop 8).length > buf.length))
      ∧ ((ParsePiece index buf msg).err ≠ none →
          (ParsePiece index buf msg).n = 0 ∧ (ParsePiece index buf msg).buf = buf)
      ∧ (ParsePiece index buf ⟨MsgPiece, []⟩).err = some .payloadTooShort
      ∧ (∀ rest, (ParsePiece 4 buf ⟨MsgPiece, [0, 0, 0, 5, 0, 0, 0, 0] ++ rest⟩).err
          = some .wrongIndex)
      ∧ (∀ (i : Nat) (block : List Byte), i < 4294967296 → buf.length < 4294967296 →
          (ParsePiece i buf ⟨MsgPiece, putUint32 i ++ putUint32 buf.length ++ block⟩).err
            = some .beginTooHigh) := by
  have hiff : (ParsePiece index buf msg).err ≠ none ↔ pieceRejected index buf.length msg := by
    constructor
    · intro h
      by_contra hn
      rw [ParsePiece_ok _ _ _ hn] at h
      exact h rfl
    · intro h
      exact (ParsePiece_err _ _ _ h).1
  refine ⟨hiff, ?_, ?_, ?_, ?_⟩
  · intro h
    have h2 := ParsePiece_err _ _ _ (hiff.mp h)
    exact ⟨h2.2.1, h2.2.2⟩
  · simp [ParsePiece]
  · intro rest
    have e : Uint32 (List.take 4 ([0, 0, 0, 5, 0, 0, 0, 0] ++ rest)) = 5 := by
      have t : List.take 4 (([0, 0, 0, 5, 0, 0, 0, 0] : List Byte) ++ rest) = [0, 0, 0, 5] := rfl
      rw [t]
      decide
    unfold ParsePiece
    simp only [e]
    rw [if_neg (by simp), if_neg (by simp), if_pos (by decide)]
  · intro i block hi hlen
    obtain ⟨f1, f2, f3⟩ := pieceFields i buf.length block hi hlen
    unfold pieceIndex at f1
    unfold pieceBegin at f2
    unfold ParsePiece
    simp only [f1, f2]
    simp only [length_putUint32, List.length_append, ne_eq, not_true_eq_false, if_false,
      ge_iff_le, le_refl, if_true]
    rw [if_neg (by omega)]

/-- C4 at expected index 4, buffer `[1, 2, 3]` and a Piece message for index 5. -/
theorem C4_ParsePiece_error_iff_witness :
    (ParsePiece 4 [1, 2, 3] ⟨MsgPiece, [0, 0, 0, 5, 0, 0, 0, 0, 7]⟩).err ≠ none
      ∧ (ParsePiece 4 [1, 2, 3] ⟨MsgPiece, [0, 0, 0, 5, 0, 0, 0, 0, 7]⟩).n = 0
      ∧ (ParsePiece 4 [1, 2, 3] ⟨MsgPiece, [0, 0, 0, 5, 0, 0, 0, 0, 7]⟩).buf = [1, 2, 3] := by
  have h := C4_ParsePiece_error_iff 4 [1, 2, 3] ⟨MsgPiece, [0, 0, 0, 5, 0, 0, 0, 0, 7]⟩
  have e : (ParsePiece 4 [1, 2, 3] ⟨MsgPiece, [0, 0, 0, 5, 0, 0, 0, 0, 7]⟩).err ≠ none :=
    h.1.mpr (Or.inr (Or.inr (Or.inl (by decide))))
  exact ⟨e, (h.2.1 e).1, (h.2.1 e).2⟩

/-! ## Piece bounds -/

/-- With a positive piece length, Go's `(total + piece - 1) / piece = n` and
`0 ≤ i < n` put the start of piece `i` strictly before the end of the content. -/
theorem piece_begin_lt_length (L pl n i : Int) (hpl : 0 < pl)
    (hdiv : Int.tdiv (L + pl - 1) pl = n) (hi0 : 0 ≤ i) (hin : i < n) : i * pl < L := by
  have hnum : 0 ≤ L + pl - 1 := by
    by_contra hneg
    have h1 : 0 ≤ Int.tdiv (-(L + pl - 1)) pl := Int.tdiv_nonneg (by omega) (by omega)
    rw [Int.neg_tdiv] at h1
    omega
  rw [Int.tdiv_eq_ediv hnum (by omega)] at hdiv
  have h2 : (L + pl - 1) / pl * pl ≤ L + pl - 1 := Int.ediv_mul_le _ (by omega)
  rw [hdiv] at h2
  have h3 : (i + 1) * pl ≤ n * pl := Int.mul_le_mul_of_nonneg_right (by omega) (by omega)
  have h4 : (i + 1) * pl = i * pl + pl := by ring
  omega

/-- Under the same hypotheses the bounds never pass the end of the last piece. -/
theorem length_le_pieces (L pl n : Int) (hpl : 0 < pl) (hnum : 0 ≤ L + pl - 1)
    (hdiv : Int.tdiv (L + pl - 1) pl = n) : L ≤ n * pl := by
  rw [Int.tdiv_eq_ediv hnum (by omega)] at hdiv
  have h2 := Int.lt_ediv_add_one_mul_self (L + pl - 1) hpl
  rw [hdiv] at h2
  have h4 : (n + 1) * pl = n * pl + pl := by ring
  omega

theorem pieceSize_formula (t : Torrent) (i : Int) (hpl : 0 < t.PieceLength)
    (hdiv : Int.tdiv (t.Length + t.PieceLength - 1) t.PieceLength = t.PieceHashes.length)
    (hi0 : 0 ≤ i) (hin : i < t.PieceHashes.length) :
    exactPieceSize t i = min t.PieceLength (t.Length - i * t.PieceLength)
      ∧ 0 < exactPieceSize t i := by
  have hlt := piece_begin_lt_length t.Length t.PieceLength _ i hpl hdiv hi0 hin
  unfold exactPieceSize exactBoundsForPiece
  simp only []
  split <;> simp only [] <;> omega

theorem bounds_facts (t : Torrent) (hinv : DescriptorInvariant t) (i : Int) (hi0 : 0 ≤ i)
    (hin : i < t.PieceHashes.length) :
    (exactBoundsForPiece t i).1 = i * t.PieceLength
      ∧ (exactBoundsForPiece t i).2 = i * t.PieceLength + exactPieceSize t i
      ∧ 0 ≤ i * t.PieceLength
      ∧ 0 < exactPieceSize t i
      ∧ exactPieceSize t i ≤ t.PieceLength
      ∧ i * t.PieceLength + exactPieceSize t i ≤ t.Length := by
  obtain ⟨hpl, _, hdiv⟩ := hinv
  have hlt := piece_begin_lt_length t.Length t.PieceLength _ i hpl hdiv hi0 hin
  have hnn : 0 ≤ i * t.PieceLength := Int.mul_nonneg hi0 (by omega)
  unfold exactPieceSize exactBoundsForPiece
  simp only []
  split <;> simp only [true_and] <;> omega

theorem assembleStep_eq (t : Torrent) (hinv : DescriptorInvariant t) (buf : List Byte)
    (hlen : (buf.length : Int) = t.Length) (res : pieceResult)
    (hidx : 0 ≤ res.index ∧ res.index < t.PieceHashes.length)
    (hsz : (res.buf.length : Int) = exactPieceSize t res.index) :
    assembleStep t buf res
      = some (buf.take (res.index * t.PieceLength).toNat ++ res.buf
          ++ buf.drop ((res.index * t.PieceLength).toNat + res.buf.length)) := by
  obtain ⟨f1, f2, f3, f4, f5, f6⟩ := bounds_facts t hinv res.index hidx.1 hidx.2
  unfold assembleStep copyIntoSlice
  rw [f1, f2, if_pos (by omega)]
  have e : (res.index * t.PieceLength + exactPieceSize t res.index).toNat
      = (res.index * t.PieceLength).toNat + res.buf.length := by omega
  rw [e, goCopy_of_length_eq]
  simp only [List.length_drop, List.length_take]
  omega

theorem pieces_disjoint (pl i j : Int) (li lj : Nat) (hpl : 0 < pl) (hi0 : 0 ≤ i)
    (hj0 : 0 ≤ j) (hne : i ≠ j) (hli : (li : Int) ≤ pl) (hlj : (lj : Int) ≤ pl) :
    (i * pl).toNat + li ≤ (j * pl).toNat ∨ (j * pl).toNat + lj ≤ (i * pl).toNat := by
  have hi : 0 ≤ i * pl := Int.mul_nonneg hi0 (by omega)
  have hj : 0 ≤ j * pl := Int.mul_nonneg hj0 (by omega)
  rcases Int.lt_or_gt_of_ne hne with h | h
  · left
    have h3 : (i + 1) * pl ≤ j * pl := Int.mul_le_mul_of_nonneg_right (by omega) (by omega)
    have h4 : (i + 1) * pl = i * pl + pl := by ring
    omega
  · right
    have h3 : (j + 1) * pl ≤ i * pl := Int.mul_le_mul_of_nonneg_right (by omega) (by omega)
    have h4 : (j + 1) * pl = j * pl + pl := by ring
    omega

theorem Assembled_step (t : Torrent) (hinv : DescriptorInvariant t)
    (processed : List pieceResult) (res : pieceResult) (buf : List Byte)
    (hv : ValidResults t (processed ++ [res])) (ha : Assembled t processed buf) :
    Assembled t (processed ++ [res])
      (buf.take (res.index * t.PieceLength).toNat ++ res.buf
          ++ buf.drop ((res.index * t.PieceLength).toNat + res.buf.length)) := by
  obtain ⟨hnd, hval⟩ := hv
  obtain ⟨hlen, hpts⟩ := ha
  have hres := hval res (by simp)
  obtain ⟨_, _, f3, f4, f5, f6⟩ := bounds_facts t hinv res.index hres.1.1 hres.1.2
  have hfit : (res.index * t.PieceLength).toNat + res.buf.length ≤ buf.length := by omega
  have hl : (buf.take (res.index * t.PieceLength).toNat).length
      = (res.index * t.PieceLength).toNat := by
    rw [List.length_take]; omega
  constructor
  · simp only [List.length_append, List.length_take, List.length_drop]
    omega
  · intro r hr k hk
    rcases List.mem_append.mp hr with hr | hr
    · have hrv := hval r (List.mem_append_left _ hr)
      obtain ⟨_, _, g3, g4, g5, g6⟩ := bounds_facts t hinv r.index hrv.1.1 hrv.1.2
      have hne : r.index ≠ res.index := by
        intro heq
        rw [List.map_append, List.nodup_append] at hnd
        exact hnd.2.2 (List.mem_map_of_mem (fun r => r.index) hr)
          (by simp [heq])
      have hd := pieces_disjoint t.PieceLength r.index res.index r.buf.length res.buf.length
        hinv.1 hrv.1.1 hres.1.1 hne (by omega) (by omega)
      rw [getElem?_splice_outside buf res.buf _ _ hfit (by omega)]
      exact hpts r hr k hk
    · have hr2 : r = res := by simpa using hr
      subst hr2
      have h := getElem?_splice_inside (buf.take (r.index * t.PieceLength).toNat) r.buf
        (buf.drop ((r.index * t.PieceLength).toNat + r.buf.length)) k hk
      rw [hl] at h
      exact h

theorem ValidResults_left (t : Torrent) (a b : List pieceResult)
    (h : ValidResults t (a ++ b)) : ValidResults t a := by
  obtain ⟨hnd, hval⟩ := h
  rw [List.map_append] at hnd
  exact ⟨(List.nodup_append.mp hnd).1, fun r hr => hval r (List.mem_append_left _ hr)⟩

theorem assembleLoop_spec (t : Torrent) (hinv : DescriptorInvariant t) :
    ∀ (results processed : List pieceResult) (donePieces : Nat) (buf : List Byte),
      donePieces + results.length = t.PieceHashes.length →
      ValidResults t (processed ++ results) → Assembled t processed buf →
      ∃ out, assembleLoop t results donePieces buf = .returned out
        ∧ Assembled t (processed ++ results) out := by
  intro results
  induction results with
  | nil =>
    intro processed donePieces buf hd _ ha
    refine ⟨buf, ?_, by simpa using ha⟩
    unfold assembleLoop
    rw [if_neg (by simp at hd; omega)]
  | cons res rest ih =>
    intro processed donePieces buf hd hv ha
    have hsplit : processed ++ res :: rest = (processed ++ [res]) ++ rest := by simp
    rw [hsplit] at hv
    have hv1 := ValidResults_left t _ _ hv
    have hres := hv1.2 res (by simp)
    have hstep := assembleStep_eq t hinv buf ha.1 res hres.1 hres.2
    have ha1 := Assembled_step t hinv processed res buf hv1 ha
    obtain ⟨out, ho, hao⟩ := ih (processed ++ [res]) (donePieces + 1) _
      (by simp at hd; omega) hv ha1
    refine ⟨out, ?_, by rw [hsplit]; exact hao⟩
    unfold assembleLoop
    rw [if_pos (by simp at hd; omega)]
    simp only [hstep]
    exact ho

theorem OnePerPiece_valid (t : Torrent) (results : List pieceResult)
    (h : OnePerPiece t results) :
    ValidResults t results ∧ results.length = t.PieceHashes.length := by
  obtain ⟨hperm, hsz⟩ := h
  have hnd : ((List.range t.PieceHashes.length).map Int.ofNat).Nodup :=
    (List.nodup_range _).map Int.ofNat_injective
  refine ⟨⟨hperm.nodup_iff.mpr hnd, ?_⟩, ?_⟩
  · intro r hr
    refine ⟨?_, hsz r hr⟩
    have hm : r.index ∈ (List.range t.PieceHashes.length).map Int.ofNat :=
      hperm.mem_iff.mp (List.mem_map_of_mem (fun r => r.index) hr)
    obtain ⟨k, hk, hke⟩ := List.mem_map.mp hm
    rw [List.mem_range] at hk
    rw [← hke]
    exact ⟨Int.ofNat_nonneg k, Int.ofNat_lt.mpr hk⟩
  · have := hperm.length_eq
    simpa using this

theorem Assembled_unique (t : Torrent) (hinv : DescriptorInvariant t)
    (results : List pieceResult) (h : OnePerPiece t results) (out out1 : List Byte)
    (ha : Assembled t results out) (hb : Assembled t results out1) : out = out1 := by
  obtain ⟨hpl, hL, hdiv⟩ := hinv
  apply List.ext_getElem?
  intro j
  by_cases hj : (j : Int) < t.Length
  · obtain ⟨P, hP⟩ : ∃ P : Nat, (P : Int) = t.PieceLength := ⟨t.PieceLength.toNat, by omega⟩
    have hP0 : 0 < P := by omega
    obtain ⟨B, hB⟩ : ∃ B : Nat, B = j / P * P := ⟨_, rfl⟩
    obtain ⟨N, hN⟩ : ∃ N : Nat, N = t.PieceHashes.length * P := ⟨_, rfl⟩
    have hq1 : B ≤ j := by rw [hB]; exact Nat.div_mul_le_self j P
    have hq2 : j < B + P := by
      have := Nat.div_add_mod j P
      have := Nat.mod_lt j hP0
      have : P * (j / P) = j / P * P := Nat.mul_comm _ _
      omega
    have hcast : ((j / P : Nat) : Int) * t.PieceLength = (B : Int) := by
      rw [← hP, hB]; push_cast; ring
    have hLn := length_le_pieces t.Length t.PieceLength _ hpl (by omega) hdiv
    have h2 : (N : Int) = (t.PieceHashes.length : Int) * t.PieceLength := by
      rw [← hP, hN]; push_cast; ring
    rw [← h2] at hLn
    have hqn : j / P < t.PieceHashes.length := by
      by_contra hge
      have h1 : N ≤ B := by
        rw [hN, hB]
        exact Nat.mul_le_mul_right P (by omega)
      omega
    have hm : ((j / P : Nat) : Int) ∈ results.map (fun r => r.index) :=
      h.1.mem_iff.mpr (List.mem_map.mpr ⟨j / P, List.mem_range.mpr hqn, rfl⟩)
    obtain ⟨r, hr, hri⟩ := List.mem_map.mp hm
    have hri : r.index = ((j / P : Nat) : Int) := hri
    have hsz := h.2 r hr
    have hsize := (pieceSize_formula t r.index hpl hdiv
      (by rw [hri]; exact Int.ofNat_nonneg _)
      (by rw [hri]; exact_mod_cast hqn)).1
    rw [hri, hcast] at hsize
    rw [hri] at hsz
    rw [hsize] at hsz
    have hk : j - B < r.buf.length := by omega
    have e1 := ha.2 r hr _ hk
    have e2 := hb.2 r hr _ hk
    rw [hri, hcast] at e1 e2
    have e3 : (B : Int).toNat + (j - B) = j := by omega
    rw [e3] at e1 e2
    rw [e1, e2]
  · have h1 := ha.1
    have h2 := hb.1
    rw [List.getElem?_eq_none (by omega), List.getElem?_eq_none (by omega)]

theorem slice_of_pointwise (out buf : List Byte) (b : Nat)
    (h : ∀ k, k < buf.length → out[b + k]? = buf[k]?) :
    (out.take (b + buf.length)).drop b = buf := by
  apply List.ext_getElem?
  intro k
  rw [List.getElem?_drop]
  by_cases hk : k < buf.length
  · rw [List.getElem?_take_of_lt (by omega)]
    exact h k hk
  · rw [List.getElem?_eq_none (by simp only [List.length_take]; omega),
      List.getElem?_eq_none (by omega)]

theorem OnePerPiece_perm (t : Torrent) (results results1 : List pieceResult)
    (hp : results1.Perm results) (h : OnePerPiece t results) : OnePerPiece t results1 :=
  ⟨(hp.map _).trans h.1, fun r hr => h.2 r (hp.mem_iff.mp hr)⟩

theorem assemble_spec (t : Torrent) (hinv : DescriptorInvariant t)
    (results : List pieceResult) (h : OnePerPiece t results) :
    ∃ out, assemble t results = .returned out ∧ Assembled t results out := by
  obtain ⟨hv, hlen⟩ := OnePerPiece_valid t results h
  have h0 : Assembled t [] (makeBytes t.Length.toNat) := by
    refine ⟨?_, by simp⟩
    have := hinv.2.1
    simp only [makeBytes, List.length_replicate]
    omega
  obtain ⟨out, ho, ha⟩ := assembleLoop_spec t hinv results [] 0 _ (by omega)
    (by simpa using hv) h0
  refine ⟨out, ?_, by simpa using ha⟩
  unfold assemble
  rw [if_neg (by have := hinv.2.1; omega)]
  exact ho

/-- C7: under the descriptor invariant, when the results hold every index
`0 .. num_pieces - 1` exactly once, each with a buffer of its piece size, the
assembler loop returns a buffer of `total_length` bytes whose slice
`[index*piece_length, min((index+1)*piece_length, total_length))` is that index's
buffer, and every other arrival order of the same results gives the same buffer. -/
theorem C7_assembler_reassembles (t : Torrent) (hinv : DescriptorInvariant t)
    (results : List pieceResult) (h : OnePerPiece t results) :
    ∃ out, assemble t results = .returned out
      ∧ (out.length : Int) = t.Length
      ∧ (∀ r ∈ results,
          sliceOf out (r.index * t.PieceLength)
            (min ((r.index + 1) * t.PieceLength) t.Length) = r.buf)
      ∧ (∀ results1 : List pieceResult, results1.Perm results →
          assemble t results1 = .returned out) := by
  obtain ⟨out, ho, ha⟩ := assemble_spec t hinv results h
  obtain ⟨hv, _⟩ := OnePerPiece_valid t results h
  refine ⟨out, ho, ha.1, ?_, ?_⟩
  · intro r hr
    have hrv := hv.2 r hr
    obtain ⟨_, _, f3, f4, f5, f6⟩ := bounds_facts t hinv r.index hrv.1.1 hrv.1.2
    have hsize := (pieceSize_formula t r.index hinv.1 hinv.2.2 hrv.1.1 hrv.1.2).1
    have hmul : (r.index + 1) * t.PieceLength = r.index * t.PieceLength + t.PieceLength := by
      ring
    have he : (min ((r.index + 1) * t.PieceLength) t.Length).toNat
        = (r.index * t.PieceLength).toNat + r.buf.length := by
      have := hrv.2
      omega
    unfold sliceOf
    rw [he]
    exact slice_of_pointwise out r.buf _ (ha.2 r hr)
  · intro results1 hp
    have h1 := OnePerPiece_perm t results results1 hp h
    obtain ⟨out1, ho1, ha1⟩ := assemble_spec t hinv results1 h1
    have ha1r : Assembled t results out1 :=
      ⟨ha1.1, fun r hr => ha1.2 r (hp.mem_iff.mpr hr)⟩
    rw [ho1, Assembled_unique t hinv results h out out1 ha ha1r]

/-- C7 on a three-byte content in two pieces, the second piece arriving first. -/
theorem C7_assembler_reassembles_witness :
    DescriptorInvariant smallTorrent
      ∧ OnePerPiece smallTorrent [⟨1, [9]⟩, ⟨0, [7, 8]⟩]
      ∧ ∃ out, assemble smallTorrent [⟨1, [9]⟩, ⟨0, [7, 8]⟩] = .returned out
        ∧ (out.length : Int) = smallTorrent.Length
        ∧ (∀ r ∈ ([⟨1, [9]⟩, ⟨0, [7, 8]⟩] : List pieceResult),
            sliceOf out (r.index * smallTorrent.PieceLength)
              (min ((r.index + 1) * smallTorrent.PieceLength) smallTorrent.Length) = r.buf)
        ∧ (∀ results1 : List pieceResult, results1.Perm [⟨1, [9]⟩, ⟨0, [7, 8]⟩] →
            assemble smallTorrent results1 = .returned out) := by
  have hinv : DescriptorInvariant smallTorrent := ⟨by decide, by decide, by decide⟩
  have hone : OnePerPiece smallTorrent [⟨1, [9]⟩, ⟨0, [7, 8]⟩] := by
    refine ⟨List.Perm.swap _ _ _, ?_⟩
    intro r hr
    simp only [List.mem_cons, List.mem_singleton, List.not_mem_nil, or_false] at hr
    rcases hr with hr | hr <;> subst hr <;> decide
  exact ⟨hinv, hone, C7_assembler_reassembles smallTorrent hinv _ hone⟩

/-! ## The piece downloader: an induction principle over the states of a run -/

theorem SendRequest_cases (c : Client) (index begin length : Int) :
    (SendRequest c index begin length = (c, some (.io .other)))
      ∨ (SendRequest c index begin length
          = ({ c with Conn := { c.Conn with
                written := c.Conn.written ++ [⟨index, begin, length⟩] } }, none)) := by
  unfold SendRequest
  split
  · exact Or.inl rfl
  · exact Or.inr rfl

theorem requestLoop_invariant (pw : pieceWork) (P P1 : pieceProgress → Prop)
    (hsend : ∀ s c, P s → s.client.Choked = false → s.backlog < MaxBacklog →
      s.requested < pw.length →
      SendRequest s.client pw.index s.requested (blockSizeFor pw s) = (c, none) →
      P1 { s with client := c, backlog := s.backlog + 1 }
        ∧ P { s with
              client := c, backlog := s.backlog + 1,
              requested := s.requested + blockSizeFor pw s }) :
    ∀ (fuel : Nat) (s : pieceProgress), P s → s.client.Choked = false →
      (∀ x ∈ (requestLoop pw fuel s).visited, P x ∨ P1 x)
        ∧ P (requestLoop pw fuel s).state
        ∧ (requestLoop pw fuel s).state.downloaded = s.downloaded := by
  intro fuel
  induction fuel with
  | zero =>
    intro s hP _
    simp [requestLoop, hP]
  | succ n ih =>
    intro s hP hch
    unfold requestLoop
    by_cases hg : s.backlog < MaxBacklog ∧ s.requested < pw.length
    · rw [if_pos hg]
      rcases SendRequest_cases s.client pw.index s.requested (blockSizeFor pw s) with he | he
      · simp only [he]
        exact ⟨by simp, hP, trivial⟩
      · simp only [he]
        obtain ⟨h1, h2⟩ := hsend s _ hP hch hg.1 hg.2 he
        obtain ⟨i1, i2, i3⟩ := ih _ h2 hch
        refine ⟨?_, i2, i3⟩
        intro x hx
        simp only [List.mem_cons] at hx
        rcases hx with hx | hx | hx
        · exact Or.inr (hx ▸ h1)
        · exact Or.inl (hx ▸ h2)
        · exact i1 x hx
    · rw [if_neg hg]
      exact ⟨by simp, hP, rfl⟩

theorem requestPhase_invariant (pw : pieceWork) (P P1 : pieceProgress → Prop)
    (hsend : ∀ s c, P s → s.client.Choked = false → s.backlog < MaxBacklog →
      s.requested < pw.length →
      SendRequest s.client pw.index s.requested (blockSizeFor pw s) = (c, none) →
      P1 { s with client := c, backlog := s.backlog + 1 }
        ∧ P { s with
              client := c, backlog := s.backlog + 1,
              requested := s.requested + blockSizeFor pw s })
    (s : pieceProgress) (hP : P s) :
    (∀ x ∈ (requestPhase pw s).visited, P x ∨ P1 x)
      ∧ P (requestPhase pw s).state
      ∧ (requestPhase pw s).state.downloaded = s.downloaded := by
  unfold requestPhase
  by_cases hch : s.client.Choked = false
  · rw [if_pos (by simp [hch])]
    exact requestLoop_invariant pw P P1 hsend _ s hP hch
  · rw [if_neg (by simpa using hch)]
    exact ⟨by simp, hP, rfl⟩

/-- Induction over a run of the download loop: a predicate `P` that holds at the
start, is kept by every request sent (with `P1` allowed between `backlog++` and
`requested += blockSize`) and by every `readMessage`, holds in all states passed
through and in the last state. -/
theorem downloadLoop_invariant (pw : pieceWork)
    (P P1 : List ReadResult → pieceProgress → Prop)
    (hsend : ∀ cons s c, P cons s → s.client.Choked = false → s.backlog < MaxBacklog →
      s.requested < pw.length →
      SendRequest s.client pw.index s.requested (blockSizeFor pw s) = (c, none) →
      P1 cons { s with client := c, backlog := s.backlog + 1 }
        ∧ P cons { s with
              client := c, backlog := s.backlog + 1,
              requested := s.requested + blockSizeFor pw s })
    (hread : ∀ cons s r, P cons s → s.downloaded < pw.length →
      P (cons ++ [r]) (readMessage s r).1) :
    ∀ (reads cons : List ReadResult) (s : pieceProgress), P cons s →
      (∀ x ∈ (downloadLoop pw reads cons s).visited, P x.consumed x.state ∨ P1 x.consumed x.state)
        ∧ ∃ cons1, P cons1 (downloadLoop pw reads cons s).final := by
  intro reads
  induction reads with
  | nil =>
    intro cons s hP
    obtain ⟨a1, a2, _⟩ := requestPhase_invariant pw (P cons) (P1 cons) (hsend cons) s hP
    unfold downloadLoop
    by_cases hd : s.downloaded < pw.length
    · rw [if_pos hd]
      simp only []
      split
      · exact ⟨by simpa using a1, cons, a2⟩
      · exact ⟨by simpa using a1, cons, a2⟩
    · rw [if_neg hd]
      exact ⟨by simp, cons, hP⟩
  | cons r rest ih =>
    intro cons s hP
    obtain ⟨a1, a2, a3⟩ := requestPhase_invariant pw (P cons) (P1 cons) (hsend cons) s hP
    unfold downloadLoop
    by_cases hd : s.downloaded < pw.length
    · rw [if_pos hd]
      simp only []
      have hr := hread cons (requestPhase pw s).state r a2 (by rw [a3]; exact hd)
      split
      · exact ⟨by simpa using a1, cons, a2⟩
      · split
        · rename_i s1 e heq
          have e1 : (readMessage (requestPhase pw s).state r).1 = s1 := by rw [heq]
          rw [e1] at hr
          refine ⟨?_, cons ++ [r], hr⟩
          intro x hx
          simp only [List.mem_append, List.mem_map, List.mem_singleton] at hx
          rcases hx with ⟨y, hy, rfl⟩ | rfl
          · exact a1 y hy
          · exact Or.inl hr
        · rename_i s1 heq
          have e1 : (readMessage (requestPhase pw s).state r).1 = s1 := by rw [heq]
          rw [e1] at hr
          obtain ⟨b1, b2⟩ := ih (cons ++ [r]) s1 hr
          refine ⟨?_, b2⟩
          intro x hx
          simp only [List.mem_append, List.mem_map, List.mem_cons] at hx
          rcases hx with ⟨y, hy, rfl⟩ | rfl | hx
          · exact a1 y hy
          · exact Or.inl hr
          · exact b1 x hx
    · rw [if_neg hd]
      exact ⟨by simp, cons, hP⟩

/-! ## The piece downloader: effect of one read -/

theorem ParsePiece_err_none_iff (index : Int) (buf : List Byte) (msg : Message) :
    (ParsePiece index buf msg).err = none ↔ ¬ pieceRejected index buf.length msg := by
  constructor
  · intro h hr
    exact (ParsePiece_err index buf msg hr).1 h
  · intro h
    rw [ParsePiece_ok index buf msg h]

theorem acceptedPiece_iff (pw : pieceWork) (s : pieceProgress) (hi : s.index = pw.index)
    (hl : s.buf.length = pw.length.toNat) (msg : Message) :
    acceptedPiece pw (.ok (some msg)) = true ↔ ¬ pieceRejected s.index s.buf.length msg := by
  simp only [acceptedPiece, decide_eq_true_eq]
  rw [ParsePiece_err_none_iff, hi, hl]
  simp [makeBytes]

/-- An accepted Piece block: the block is copied, `downloaded` grows by its
length and `backlog` drops by one. -/
theorem readMessage_accepted (s : pieceProgress) (msg : Message)
    (h : ¬ pieceRejected s.index s.buf.length msg) :
    readMessage s (.ok (some msg))
      = ({ s with
            buf := (ParsePiece s.index s.buf msg).buf
            downloaded := s.downloaded + ((msg.Payload.drop 8).length : Nat)
            backlog := s.backlog - 1 }, none) := by
  have hid : msg.ID = MsgPiece := by
    by_contra hne
    exact h (Or.inl hne)
  have hok := ParsePiece_ok s.index s.buf msg h
  unfold readMessage
  simp only [hid]
  rw [if_neg (by decide), if_neg (by decide), if_neg (by decide), if_pos trivial]
  simp only [hok]

/-- Every other read leaves the counters, the index and the buffer as they were,
and writes nothing to the connection. -/
theorem readMessage_not_accepted (s : pieceProgress) (r : ReadResult)
    (h : ∀ msg, r = .ok (some msg) → pieceRejected s.index s.buf.length msg) :
    (readMessage s r).1.downloaded = s.downloaded
      ∧ (readMessage s r).1.requested = s.requested
      ∧ (readMessage s r).1.backlog = s.backlog
      ∧ (readMessage s r).1.index = s.index
      ∧ (readMessage s r).1.buf = s.buf
      ∧ (readMessage s r).1.client.Conn = s.client.Conn := by
  unfold readMessage
  split
  · split <;> simp
  · simp
  · rename_i msg
    have hrej := h msg rfl
    split
    · simp
    · split
      · simp
      · split
        · split <;> simp
        · split
          · have he := ParsePiece_err s.index s.buf msg hrej
            simp only []
            split
            · simp [he.2.2]
            · rename_i hnone
              exact absurd hnone he.1
          · split <;> simp

theorem ParsePiece_length (index : Int) (buf : List Byte) (msg : Message) :
    (ParsePiece index buf msg).buf.length = buf.length := by
  by_cases h : pieceRejected index buf.length msg
  · rw [(ParsePiece_err index buf msg h).2.2]
  · rw [ParsePiece_ok index buf msg h]
    simp only [pieceRejected, not_or, not_lt, ge_iff_le, gt_iff_lt, not_le] at h
    simp only [List.length_append, List.length_take, List.length_drop]
    have := h.2.2.2.2
    simp only [List.length_drop] at this
    omega

theorem acceptedBlocks_append (pw : pieceWork) (cons : List ReadResult) (r : ReadResult) :
    acceptedBlocks pw (cons ++ [r])
      = acceptedBlocks pw cons + (if acceptedPiece pw r = true then 1 else 0) := by
  unfold acceptedBlocks
  rw [List.filter_append, List.length_append]
  by_cases h : acceptedPiece pw r = true
  · simp [h]
  · simp [h]

/-! ## The piece downloader: the invariant of a run -/

theorem blockSizeFor_bounds (pw : pieceWork) (s : pieceProgress)
    (h : s.requested < pw.length) :
    0 < blockSizeFor pw s ∧ blockSizeFor pw s ≤ MaxBlockSize
      ∧ s.requested + blockSizeFor pw s ≤ pw.length := by
  unfold blockSizeFor MaxBlockSize
  split <;> omega

theorem invariant_send (c : Client) (pw : pieceWork) (cons : List ReadResult)
    (s : pieceProgress) (c1 : Client) (hP : RequestedInvariant c pw cons s)
    (hb : s.backlog < MaxBacklog) (hr : s.requested < pw.length)
    (he : SendRequest s.client pw.index s.requested (blockSizeFor pw s) = (c1, none)) :
    ProgressInvariant c pw cons { s with client := c1, backlog := s.backlog + 1 }
      ∧ RequestedInvariant c pw cons { s with
          client := c1, backlog := s.backlog + 1,
          requested := s.requested + blockSizeFor pw s } := by
  obtain ⟨⟨h1, h2, h3, h4, h5, h6, h7, h8⟩, h9⟩ := hP
  obtain ⟨b1, b2, b3⟩ := blockSizeFor_bounds pw s hr
  have hc1 : c1.Conn.written
      = s.client.Conn.written ++ [⟨pw.index, s.requested, blockSizeFor pw s⟩] := by
    rcases SendRequest_cases s.client pw.index s.requested (blockSizeFor pw s) with hf | hs
    · rw [hf] at he
      simp at he
    · rw [hs] at he
      rw [← (Prod.mk.inj he).1]
  have hiss : ∀ s1 : pieceProgress, s1.client = c1 →
      issuedRequests c s1
        = issuedRequests c s ++ [⟨pw.index, s.requested, blockSizeFor pw s⟩] := by
    intro s1 hs1
    unfold issuedRequests
    rw [hs1, hc1, h8, List.append_assoc, List.drop_left, List.drop_left]
  have hlen : ∀ s1 : pieceProgress, s1.client = c1 →
      ((issuedRequests c s1).length : Int) = (issuedRequests c s).length + 1 := by
    intro s1 hs1
    rw [hiss s1 hs1]
    simp
  have hw : ∀ s1 : pieceProgress, s1.client = c1 →
      s1.client.Conn.written = c.Conn.written ++ issuedRequests c s1 := by
    intro s1 hs1
    rw [hiss s1 hs1, hs1, hc1, h8, List.append_assoc]
  refine ⟨⟨h1, h2, h3, ?_, ?_, h6, h7, hw _ rfl⟩, ⟨h1, ?_, ?_, ?_, ?_, h6, h7, hw _ rfl⟩, ?_⟩
  · show s.backlog + 1 ≤ MaxBacklog
    omega
  · show s.backlog + 1 = _
    rw [hlen _ rfl]
    omega
  · show 0 ≤ s.requested + blockSizeFor pw s
    omega
  · show s.requested + blockSizeFor pw s ≤ pw.length
    omega
  · show s.backlog + 1 ≤ MaxBacklog
    omega
  · show s.backlog + 1 = _
    rw [hlen _ rfl]
    omega
  · show requestedBytes _ = s.requested + blockSizeFor pw s
    rw [hiss _ rfl]
    unfold requestedBytes at h9 ⊢
    rw [List.map_append, List.sum_append, h9]
    simp

theorem invariant_read (c : Client) (pw : pieceWork) (cons : List ReadResult)
    (s : pieceProgress) (r : ReadResult) (hP : RequestedInvariant c pw cons s) :
    RequestedInvariant c pw (cons ++ [r]) (readMessage s r).1 := by
  obtain ⟨⟨h1, h2, h3, h4, h5, h6, h7, h8⟩, h9⟩ := hP
  by_cases hacc : ∃ msg, r = .ok (some msg) ∧ ¬ pieceRejected s.index s.buf.length msg
  · obtain ⟨msg, hr, hnr⟩ := hacc
    subst hr
    have ha : acceptedPiece pw (.ok (some msg)) = true :=
      (acceptedPiece_iff pw s h6 h7 msg).mpr hnr
    rw [readMessage_accepted s msg hnr]
    unfold RequestedInvariant ProgressInvariant
    rw [acceptedBlocks_append, if_pos ha]
    refine ⟨⟨?_, h2, h3, ?_, ?_, h6, ?_, h8⟩, h9⟩
    · show 0 ≤ s.downloaded + ((msg.Payload.drop 8).length : Nat)
      omega
    · show s.backlog - 1 ≤ MaxBacklog
      omega
    · show s.backlog - 1 = ((issuedRequests c s).length : Int) - _
      push_cast
      omega
    · show (ParsePiece s.index s.buf msg).buf.length = _
      rw [ParsePiece_length, h7]
  · have hrej : ∀ msg, r = .ok (some msg) → pieceRejected s.index s.buf.length msg := by
      intro msg hr
      by_contra hn
      exact hacc ⟨msg, hr, hn⟩
    have hna : ¬ acceptedPiece pw r = true := by
      intro ha
      cases r with
      | error e => simp [acceptedPiece] at ha
      | ok o =>
        cases o with
        | none => simp [acceptedPiece] at ha
        | some msg => exact (acceptedPiece_iff pw s h6 h7 msg).mp ha (hrej msg rfl)
    obtain ⟨e1, e2, e3, e4, e5, e6⟩ := readMessage_not_accepted s r hrej
    have hiss : issuedRequests c (readMessage s r).1 = issuedRequests c s := by
      unfold issuedRequests
      rw [e6]
    unfold RequestedInvariant ProgressInvariant
    rw [acceptedBlocks_append, if_neg hna, hiss, e1, e2, e3, e4, e5, e6]
    exact ⟨⟨h1, h2, h3, h4, by simpa using h5, h6, h7, h8⟩, h9⟩

theorem initialProgress_invariant (c : Client) (pw : pieceWork) (h : 0 ≤ pw.length) :
    RequestedInvariant c pw [] (initialProgress c pw) := by
  have hiss : issuedRequests c (initialProgress c pw) = [] := by
    simp [issuedRequests, initialProgress]
  unfold RequestedInvariant ProgressInvariant
  rw [hiss]
  simp [initialProgress, acceptedBlocks, makeBytes, requestedBytes, MaxBacklog, h]

/-- The bound on the iterations of the request loop is never what ends it: with
`MaxBacklog - backlog` iterations allowed, the loop ends on a failed send or with
its condition false. -/
theorem requestLoop_exit (pw : pieceWork) :
    ∀ (fuel : Nat) (s : pieceProgress), (MaxBacklog - s.backlog).toNat ≤ fuel →
      (requestLoop pw fuel s).err = none →
      ¬ ((requestLoop pw fuel s).state.backlog < MaxBacklog
          ∧ (requestLoop pw fuel s).state.requested < pw.length) := by
  intro fuel
  induction fuel with
  | zero =>
    intro s hf _
    simp only [requestLoop]
    omega
  | succ n ih =>
    intro s hf
    unfold requestLoop
    by_cases hg : s.backlog < MaxBacklog ∧ s.requested < pw.length
    · rw [if_pos hg]
      rcases SendRequest_cases s.client pw.index s.requested (blockSizeFor pw s) with he | he
      · simp only [he]
        intro h
        exact absurd h (by simp)
      · simp only [he]
        exact ih _ (by show (MaxBacklog - (s.backlog + 1)).toNat ≤ n; omega)
    · rw [if_neg hg]
      intro _
      exact hg

/-- Every state of a piece attempt satisfies the progress invariant, and at the
end the Request lengths sent add up to `requested`. -/
theorem attempt_invariant (c : Client) (pw : pieceWork) (reads : List ReadResult) :
    (∀ x ∈ (attemptDownloadPiece c pw reads).visited,
        ProgressInvariant c pw x.consumed x.state)
      ∧ (0 ≤ pw.length →
          ∃ cons, RequestedInvariant c pw cons (attemptDownloadPiece c pw reads).final) := by
  unfold attemptDownloadPiece
  by_cases hneg : pw.length < 0
  · rw [if_pos hneg]
    exact ⟨by simp, fun h => absurd hneg (by omega)⟩
  · rw [if_neg hneg]
    have h0 := initialProgress_invariant c pw (by omega)
    obtain ⟨a1, a2⟩ := downloadLoop_invariant pw (RequestedInvariant c pw)
      (ProgressInvariant c pw)
      (fun cons s c1 hP _ hb hr he => invariant_send c pw cons s c1 hP hb hr he)
      (fun cons s r hP _ => invariant_read c pw cons s r hP) reads [] _ h0
    refine ⟨?_, fun _ => a2⟩
    intro x hx
    simp only [List.mem_cons] at hx
    rcases hx with rfl | hx
    · exact h0.1
    · rcases a1 x hx with h | h
      · exact h.1
      · exact h

theorem requestPhase_err_cases (pw : pieceWork) (s : pieceProgress) :
    (requestPhase pw s).err = none ∨ ∃ e, (requestPhase pw s).err = some e := by
  cases (requestPhase pw s).err with
  | none => exact Or.inl rfl
  | some e => exact Or.inr ⟨e, rfl⟩

/-- A run that returns without an error has left the loop by its condition, and
returns the buffer of the last state. -/
theorem downloadLoop_returned (pw : pieceWork) :
    ∀ (reads cons : List ReadResult) (s : pieceProgress) (b : Option (List Byte)),
      (downloadLoop pw reads cons s).result = .returned (b, none) →
      ¬ (downloadLoop pw reads cons s).final.downloaded < pw.length
        ∧ b = some (downloadLoop pw reads cons s).final.buf := by
  intro reads
  induction reads with
  | nil =>
    intro cons s b
    unfold downloadLoop
    by_cases hd : s.downloaded < pw.length
    · rw [if_pos hd]
      simp only []
      split <;> simp
    · rw [if_neg hd]
      intro h
      simp only [Outcome.returned.injEq, Prod.mk.injEq, and_true] at h
      exact ⟨hd, h.symm⟩
  | cons r rest ih =>
    intro cons s b
    unfold downloadLoop
    by_cases hd : s.downloaded < pw.length
    · rw [if_pos hd]
      simp only []
      split
      · simp
      · split
        · simp
        · rename_i s1 _
          exact ih (cons ++ [r]) s1 b
    · rw [if_neg hd]
      intro h
      simp only [Outcome.returned.injEq, Prod.mk.injEq, and_true] at h
      exact ⟨hd, h.symm⟩

theorem attempt_returned (c : Client) (pw : pieceWork) (reads : List ReadResult)
    (b : Option (List Byte))
    (h : (attemptDownloadPiece c pw reads).result = .returned (b, none)) :
    0 ≤ pw.length ∧ ¬ (attemptDownloadPiece c pw reads).final.downloaded < pw.length
      ∧ b = some (attemptDownloadPiece c pw reads).final.buf := by
  unfold attemptDownloadPiece at h ⊢
  by_cases hneg : pw.length < 0
  · rw [if_pos hneg] at h
    simp at h
  · rw [if_neg hneg] at h ⊢
    exact ⟨by omega, downloadLoop_returned pw reads [] _ b h⟩

/-- A buffer returned by `attemptDownloadPiece` has the length of the piece. -/
theorem attempt_returned_length (c : Client) (pw : pieceWork) (reads : List ReadResult)
    (b : Option (List Byte))
    (h : (attemptDownloadPiece c pw reads).result = .returned (b, none)) :
    ∃ buf, b = some buf ∧ (buf.length : Int) = pw.length := by
  obtain ⟨h0, _, hb⟩ := attempt_returned c pw reads b h
  obtain ⟨cons, ⟨_, _, _, _, _, _, h7, _⟩, _⟩ := (attempt_invariant c pw reads).2 h0
  exact ⟨_, hb, by rw [h7]; omega⟩

/-- C8 fails as stated: a choked session that receives an unrequested Piece
message with the whole four-byte piece completes the attempt successfully having
issued no Request at all. -/
theorem C8_unrequested_piece_completes :
    (attemptDownloadPiece chokedClient smallWork [.ok (some wholePiece)]).result
        = .returned (some [1, 2, 3, 4], none)
      ∧ issuedRequests chokedClient
          (attemptDownloadPiece chokedClient smallWork [.ok (some wholePiece)]).final = []
      ∧ requestedBytes (issuedRequests chokedClient
          (attemptDownloadPiece chokedClient smallWork [.ok (some wholePiece)]).final)
          ≠ smallWork.length := by
  refine ⟨by decide, by decide, by decide⟩

/-- C8 as amended: when `attemptDownloadPiece` completes successfully, the
lengths of the Request messages it issued add up to the final `requested`
counter, which is at most the piece size; the sum is the piece size whenever the
bytes accepted do not exceed the bytes requested (`downloaded ≤ requested` at
completion). -/
theorem C8_request_lengths_sum (c : Client) (pw : pieceWork) (reads : List ReadResult)
    (buf : List Byte)
    (h : (attemptDownloadPiece c pw reads).result = .returned (some buf, none)) :
    requestedBytes (issuedRequests c (attemptDownloadPiece c pw reads).final)
        = (attemptDownloadPiece c pw reads).final.requested
      ∧ (attemptDownloadPiece c pw reads).final.requested ≤ pw.length
      ∧ ((attemptDownloadPiece c pw reads).final.downloaded
            ≤ (attemptDownloadPiece c pw reads).final.requested →
          requestedBytes (issuedRequests c (attemptDownloadPiece c pw reads).final)
            = pw.length) := by
  obtain ⟨h0, hd, _⟩ := attempt_returned c pw reads (some buf) h
  obtain ⟨cons, ⟨_, _, h3, _⟩, h9⟩ := (attempt_invariant c pw reads).2 h0
  refine ⟨h9, h3, ?_⟩
  intro hle
  rw [h9]
  omega

/-- C8 as amended, on an unchoked session that requests the four-byte piece and
receives it: one Request of length 4 was issued. -/
theorem C8_request_lengths_sum_witness :
    (attemptDownloadPiece unchokedClient smallWork [.ok (some wholePiece)]).result
        = .returned (some [1, 2, 3, 4], none)
      ∧ issuedRequests unchokedClient
          (attemptDownloadPiece unchokedClient smallWork [.ok (some wholePiece)]).final
          = [⟨0, 0, 4⟩]
      ∧ requestedBytes (issuedRequests unchokedClient
          (attemptDownloadPiece unchokedClient smallWork [.ok (some wholePiece)]).final)
          = smallWork.length := by
  have hres : (attemptDownloadPiece unchokedClient smallWork [.ok (some wholePiece)]).result
      = .returned (some [1, 2, 3, 4], none) := by decide
  exact ⟨hres, by decide,
    (C8_request_lengths_sum unchokedClient smallWork [.ok (some wholePiece)] [1, 2, 3, 4]
      hres).2.2 (by decide)⟩

/-- C9: in every state of `attemptDownloadPiece`, for every piece, every initial
session (choked or not) and every sequence of reads, `backlog` is at most
`MaxBacklog` (5). -/
theorem C9_backlog_bounded (c : Client) (pw : pieceWork) (reads : List ReadResult)
    (x : Snapshot) (hx : x ∈ (attemptDownloadPiece c pw reads).visited) :
    x.state.backlog ≤ MaxBacklog ∧ MaxBacklog = 5 :=
  ⟨((attempt_invariant c pw reads).1 x hx).2.2.2.1, rfl⟩

/-- C9 on an unchoked session and a piece of 100000 bytes: the request loop
stops at a backlog of 5. -/
theorem C9_backlog_bounded_witness :
    ∃ x ∈ (attemptDownloadPiece unchokedClient ⟨0, zeroHash, 100000⟩ [.ok none]).visited,
      x.state.backlog = 5 ∧ x.state.backlog ≤ MaxBacklog ∧ MaxBacklog = 5 := by
  have h : ∃ x ∈ (attemptDownloadPiece unchokedClient ⟨0, zeroHash, 100000⟩
      [.ok none]).visited, x.state.backlog = 5 := by decide
  obtain ⟨x, hx, h5⟩ := h
  exact ⟨x, hx, h5, C9_backlog_bounded _ _ _ x hx⟩

/-- C10 fails as stated: after an unrequested Piece message on a choked session
the attempt is in a state with `downloaded = 4 > requested = 0` and
`backlog = -1`. -/
theorem C10_unrequested_piece_breaks_invariant :
    ∃ x ∈ (attemptDownloadPiece chokedClient smallWork [.ok (some wholePiece)]).visited,
      x.state.downloaded = 4 ∧ x.state.requested = 0 ∧ x.state.backlog = -1
        ∧ ¬ (x.state.downloaded ≤ x.state.requested) ∧ ¬ (0 ≤ x.state.backlog) := by
  decide

/-- C10 as amended: in every state of `attemptDownloadPiece`, `0 ≤ downloaded`,
`0 ≤ requested ≤ length`, and `backlog` is the number of Request messages sent in
the attempt minus the number of Piece blocks accepted. -/
theorem C10_progress_invariant (c : Client) (pw : pieceWork) (reads : List ReadResult)
    (x : Snapshot) (hx : x ∈ (attemptDownloadPiece c pw reads).visited) :
    0 ≤ x.state.downloaded ∧ 0 ≤ x.state.requested ∧ x.state.requested ≤ pw.length
      ∧ x.state.backlog
          = ((issuedRequests c x.state).length : Int) - (acceptedBlocks pw x.consumed : Int) := by
  obtain ⟨h1, h2, h3, _, h5, _⟩ := (attempt_invariant c pw reads).1 x hx
  exact ⟨h1, h2, h3, h5⟩

/-- C10 as amended, on the state reached after a requested block has arrived:
one Request sent, one block accepted, backlog 0. -/
theorem C10_progress_invariant_witness :
    ∃ x ∈ (attemptDownloadPiece unchokedClient smallWork [.ok (some wholePiece)]).visited,
      (x.state.downloaded = 4 ∧ (issuedRequests unchokedClient x.state).length = 1
        ∧ acceptedBlocks smallWork x.consumed = 1)
      ∧ 0 ≤ x.state.downloaded ∧ 0 ≤ x.state.requested
      ∧ x.state.requested ≤ smallWork.length
      ∧ x.state.backlog = ((issuedRequests unchokedClient x.state).length : Int)
          - (acceptedBlocks smallWork x.consumed : Int) := by
  have h : ∃ x ∈ (attemptDownloadPiece unchokedClient smallWork
      [.ok (some wholePiece)]).visited,
      x.state.downloaded = 4 ∧ (issuedRequests unchokedClient x.state).length = 1
        ∧ acceptedBlocks smallWork x.consumed = 1 := by decide
  obtain ⟨x, hx, h4⟩ := h
  exact ⟨x, hx, h4, C10_progress_invariant _ _ _ x hx⟩

/-! ## The dispatcher: every completed download passes the integrity check -/

theorem mem_initialWork (t : Torrent) (pw : pieceWork) (h : pw ∈ initialWork t) :
    ∃ i : Nat, pw.index = i ∧ t.PieceHashes[i]? = some pw.hash
      ∧ pw.length = exactPieceSize t i := by
  unfold initialWork at h
  obtain ⟨⟨i, hsh⟩, hm, rfl⟩ := List.mem_map.mp h
  exact ⟨i, rfl, List.mk_mem_enum_iff_getElem?.mp hm, rfl⟩

theorem initialWork_indices (t : Torrent) :
    (initialWork t).map (fun w => w.index)
      = (List.range t.PieceHashes.length).map Int.ofNat := by
  unfold initialWork
  rw [List.map_map, ← List.enum_map_fst, List.map_map]
  rfl

theorem checkIntegrity_passed (sha1 : List Byte → Hash) (pw : pieceWork) (buf : List Byte)
    (h : ¬ (checkIntegrity sha1 pw buf).isSome = true) : sha1 buf = pw.hash := by
  unfold checkIntegrity at h
  by_contra hne
  rw [if_pos hne] at h
  exact h rfl

/-- A worker publishes a result only for the item it holds, with a buffer of the
item's length that has passed `checkIntegrity`. -/
theorem workerStep_publish (sha1 : List Byte → Hash) (gotBF : Bool) (c : Client)
    (pw : pieceWork) (reads : List ReadResult) (res : pieceResult)
    (h : workerStep sha1 gotBF c pw reads = .publish res) :
    res.index = pw.index ∧ (res.buf.length : Int) = pw.length ∧ sha1 res.buf = pw.hash := by
  unfold workerStep at h
  split at h
  · exact absurd h (by simp)
  · split at h
    · exact absurd h (by simp)
    · exact absurd h (by simp)
    · exact absurd h (by simp)
    · rename_i b heq
      obtain ⟨buf, hb, hlen⟩ := attempt_returned_length c pw reads b heq
      subst hb
      split at h
      · exact absurd h (by simp)
      · rename_i hint
        have hres : res = ⟨pw.index, buf⟩ := by
          simp only [Option.getD_some, WorkerAction.publish.injEq] at h
          exact h.symm
        subst hres
        exact ⟨rfl, hlen, checkIntegrity_passed sha1 pw buf (by simpa using hint)⟩

theorem initialSwarm_invariant (sha1 : List Byte → Hash) (t : Torrent) (h : 0 ≤ t.Length) :
    SwarmInvariant sha1 t (initialSwarm t) := by
  refine ⟨?_, ?_, ?_, ?_, rfl⟩
  · intro pw hpw
    simpa [initialSwarm] using hpw
  · simp only [initialSwarm, List.append_nil, List.map_nil]
    rw [initialWork_indices]
  · intro r hr
    simp [initialSwarm] at hr
  · refine ⟨?_, ?_⟩
    · simp only [initialSwarm, makeBytes, List.length_replicate]
      omega
    · intro r hr
      simp [initialSwarm] at hr

theorem index_in_range (n : Nat) (l : List Int) (h : l.Perm ((List.range n).map Int.ofNat))
    (i : Int) (hi : i ∈ l) : 0 ≤ i ∧ i < n := by
  obtain ⟨k, hk, hke⟩ := List.mem_map.mp (h.mem_iff.mp hi)
  rw [List.mem_range] at hk
  rw [← hke]
  exact ⟨Int.ofNat_nonneg k, Int.ofNat_lt.mpr hk⟩

theorem range_nodup_of_perm (n : Nat) (l : List Int)
    (h : l.Perm ((List.range n).map Int.ofNat)) : l.Nodup :=
  h.nodup_iff.mpr ((List.nodup_range _).map Int.ofNat_injective)

theorem SwarmInvariant_step (sha1 : List Byte → Hash) (t : Torrent)
    (hinv : DescriptorInvariant t) (s s1 : Swarm) (hs : SwarmInvariant sha1 t s)
    (hstep : Step sha1 t s s1) : SwarmInvariant sha1 t s1 := by
  obtain ⟨h1, h2, h3, h4, h5⟩ := hs
  cases hstep with
  | take pw q hq =>
    refine ⟨?_, ?_, h3, h4, h5⟩
    · intro w hw
      apply h1 w
      rw [hq]
      simp only [List.mem_append, List.mem_cons] at hw ⊢
      tauto
    · refine List.Perm.trans ?_ h2
      rw [hq]
      apply List.Perm.append_right
      apply List.Perm.map
      simp only [List.cons_append]
      exact List.perm_middle
  | requeue pw gotBF c reads hmem _ _ _ =>
    have hp : ((s.workQueue ++ [pw]) ++ s.inFlight.erase pw).Perm
        (s.workQueue ++ s.inFlight) := by
      rw [List.append_assoc]
      apply List.Perm.append_left
      exact (List.perm_cons_erase hmem).symm
    refine ⟨?_, ?_, h3, h4, h5⟩
    · intro w hw
      exact h1 w (hp.mem_iff.mp hw)
    · refine List.Perm.trans ?_ h2
      exact List.Perm.append_right _ (hp.map _)
  | publish pw gotBF c reads res buf1 hmem hw hdone hasm =>
    obtain ⟨w1, w2, w3⟩ := workerStep_publish sha1 gotBF c pw reads res hw
    have hp : (pw :: (s.workQueue ++ s.inFlight.erase pw)).Perm
        (s.workQueue ++ s.inFlight) := by
      refine List.Perm.trans List.perm_middle.symm ?_
      apply List.Perm.append_left
      exact (List.perm_cons_erase hmem).symm
    have hperm : (((s.workQueue ++ s.inFlight.erase pw).map (fun w => w.index)
        ++ (s.received ++ [res]).map (fun r => r.index)).Perm
        ((List.range t.PieceHashes.length).map Int.ofNat)) := by
      refine List.Perm.trans ?_ h2
      refine List.Perm.trans ?_ (List.Perm.append_right _ (hp.map _))
      simp only [List.map_append, List.map_cons, List.map_nil, w1, List.cons_append]
      rw [← List.append_assoc]
      exact List.perm_append_singleton _ _
    obtain ⟨i, hi1, hi2, hi3⟩ := mem_initialWork t pw
      (h1 pw (List.mem_append_right _ hmem))
    have hsz : (res.buf.length : Int) = exactPieceSize t res.index := by
      rw [w2, w1, hi1, hi3]
    have hnd := range_nodup_of_perm _ _ hperm
    have hval : ValidResults t (s.received ++ [res]) := by
      refine ⟨hnd.of_append_right, ?_⟩
      intro r hr
      refine ⟨index_in_range _ _ hperm r.index
        (List.mem_append_right _ (List.mem_map_of_mem (fun r => r.index) hr)), ?_⟩
      rcases List.mem_append.mp hr with hr | hr
      · exact (h3 r hr).1
      · have : r = res := by simpa using hr
        rw [this]
        exact hsz
    have hres := hval.2 res (by simp)
    have heq := assembleStep_eq t hinv s.buf h4.1 res hres.1 hres.2
    rw [heq] at hasm
    have hb : buf1 = s.buf.take (res.index * t.PieceLength).toNat ++ res.buf
        ++ s.buf.drop ((res.index * t.PieceLength).toNat + res.buf.length) :=
      (Option.some.inj hasm).symm
    refine ⟨?_, hperm, ?_, ?_, ?_⟩
    · intro w hw1
      exact h1 w (hp.mem_iff.mp (List.mem_cons_of_mem _ hw1))
    · intro r hr
      rcases List.mem_append.mp hr with hr | hr
      · exact h3 r hr
      · have : r = res := by simpa using hr
        rw [this]
        exact ⟨hsz, i, by rw [w1, hi1], by rw [hi2, w3]⟩
    · show Assembled t (s.received ++ [res]) buf1
      rw [hb]
      exact Assembled_step t hinv s.received res s.buf hval h4
    · show s.donePieces + 1 = (s.received ++ [res]).length
      rw [List.length_append, h5]
      rfl
  | close _ _ => exact ⟨h1, h2, h3, h4, h5⟩

theorem Reachable_invariant (sha1 : List Byte → Hash) (t : Torrent)
    (hinv : DescriptorInvariant t) (s : Swarm) (hr : Reachable sha1 t s) :
    SwarmInvariant sha1 t s := by
  induction hr with
  | init h => exact initialSwarm_invariant sha1 t h
  | step s s1 _ hstep ih => exact SwarmInvariant_step sha1 t hinv s s1 ih hstep

/-- Once the assembler has counted `num_pieces` results, nothing is queued or in
flight and the results received are one per piece. -/
theorem completed_results (sha1 : List Byte → Hash) (t : Torrent) (s : Swarm)
    (hs : SwarmInvariant sha1 t s) (hdone : s.donePieces = t.PieceHashes.length) :
    s.workQueue = [] ∧ s.inFlight = []
      ∧ (s.received.map (fun r => r.index)).Perm
          ((List.range t.PieceHashes.length).map Int.ofNat) := by
  obtain ⟨_, h2, _, _, h5⟩ := hs
  have hlen := h2.length_eq
  simp only [List.length_append, List.length_map, List.length_range] at hlen
  have hq : s.workQueue = [] := List.eq_nil_of_length_eq_zero (by omega)
  have hf : s.inFlight = [] := List.eq_nil_of_length_eq_zero (by omega)
  refine ⟨hq, hf, ?_⟩
  rw [hq, hf] at h2
  simpa using h2

/-- C5: under the descriptor invariant, in every state of a download in which the
assembler has counted `num_pieces` results (where `Download` returns its buffer),
the output buffer has `total_length` bytes and, for every piece index `i`, the
SHA-1 of the slice `[i*piece_length, i*piece_length + piece_size(i))` is
`piece_hashes[i]`; every result received passed `checkIntegrity` and lies
unmodified in the slice of its piece. -/
theorem C5_completed_download_integrity (sha1 : List Byte → Hash) (t : Torrent)
    (hinv : DescriptorInvariant t) (s : Swarm) (hr : Reachable sha1 t s)
    (hdone : s.donePieces = t.PieceHashes.length) (i : Nat)
    (hi : i < t.PieceHashes.length) :
    t.PieceHashes[i]?
        = some (sha1 (sliceOf s.buf ((i : Int) * t.PieceLength)
            ((i : Int) * t.PieceLength + exactPieceSize t i)))
      ∧ (s.buf.length : Int) = t.Length
      ∧ ∃ r ∈ s.received, r.index = i
          ∧ sliceOf s.buf ((i : Int) * t.PieceLength)
              ((i : Int) * t.PieceLength + exactPieceSize t i) = r.buf
          ∧ checkIntegrity sha1 ⟨i, t.PieceHashes.get ⟨i, hi⟩, exactPieceSize t i⟩ r.buf
              = none := by
  have hs := Reachable_invariant sha1 t hinv s hr
  obtain ⟨_, _, hperm⟩ := completed_results sha1 t s hs hdone
  obtain ⟨_, _, h3, h4, _⟩ := hs
  have hm : ((i : Nat) : Int) ∈ s.received.map (fun r => r.index) :=
    hperm.mem_iff.mpr (List.mem_map.mpr ⟨i, List.mem_range.mpr hi, rfl⟩)
  obtain ⟨r, hr1, hri⟩ := List.mem_map.mp hm
  have hri : r.index = (i : Int) := hri
  obtain ⟨hsz, j, hj1, hj2⟩ := h3 r hr1
  have hji : j = i := by
    rw [hri] at hj1
    exact_mod_cast hj1.symm
  subst hji
  obtain ⟨_, _, f3, f4, _, _⟩ := bounds_facts t hinv r.index (by omega) (by omega)
  have hslice : sliceOf s.buf ((j : Int) * t.PieceLength)
      ((j : Int) * t.PieceLength + exactPieceSize t j) = r.buf := by
    have hpt := slice_of_pointwise s.buf r.buf _ (h4.2 r hr1)
    rw [hri] at hpt hsz f3
    have he : ((j : Int) * t.PieceLength + exactPieceSize t j).toNat
        = ((j : Int) * t.PieceLength).toNat + r.buf.length := by omega
    unfold sliceOf
    rw [he]
    exact hpt
  have hget : t.PieceHashes.get ⟨j, hi⟩ = sha1 r.buf := by
    have h := List.getElem?_eq_getElem hi
    rw [hj2] at h
    exact (Option.some.inj h).symm
  refine ⟨by rw [hslice, hj2], h4.1, r, hr1, hri, hslice, ?_⟩
  unfold checkIntegrity
  rw [if_neg (by rw [hget]; exact fun h => h rfl)]

/-- C5 on a one-piece content: the queue is filled, a worker takes the item,
downloads the piece from an unchoked session and publishes it. -/
theorem C5_completed_download_integrity_witness :
    DescriptorInvariant onePieceTorrent
      ∧ Reachable constHash onePieceTorrent
          ⟨[], false, [], [1, 2, 3, 4], 1, [⟨0, [1, 2, 3, 4]⟩]⟩
      ∧ onePieceTorrent.PieceHashes[0]?
          = some (constHash (sliceOf [1, 2, 3, 4] ((0 : Nat) * onePieceTorrent.PieceLength)
              ((0 : Nat) * onePieceTorrent.PieceLength
                + exactPieceSize onePieceTorrent (0 : Nat))))
      ∧ sliceOf [1, 2, 3, 4] ((0 : Nat) * onePieceTorrent.PieceLength)
          ((0 : Nat) * onePieceTorrent.PieceLength
            + exactPieceSize onePieceTorrent (0 : Nat)) = [1, 2, 3, 4] := by
  have hinv : DescriptorInvariant onePieceTorrent := ⟨by decide, by decide, by decide⟩
  have r0 : Reachable constHash onePieceTorrent (initialSwarm onePieceTorrent) :=
    Reachable.init (by decide)
  have r1 := Reachable.step _ _ r0
    (Step.take (initialSwarm onePieceTorrent) smallWork [] (by decide))
  have r2 := Reachable.step _ _ r1
    (Step.publish _ smallWork false unchokedClient [.ok (some wholePiece)]
      ⟨0, [1, 2, 3, 4]⟩ [1, 2, 3, 4] (List.mem_cons_self _ _) (by decide) (by decide)
      (by decide))
  have r3 : Reachable constHash onePieceTorrent
      ⟨[], false, [], [1, 2, 3, 4], 1, [⟨0, [1, 2, 3, 4]⟩]⟩ := r2
  exact ⟨hinv, r3,
    (C5_completed_download_integrity constHash onePieceTorrent hinv _ r3 rfl 0
      (by decide)).1, by decide⟩

/-! ## `readMessage`: frames that are ignored, Choke and Unchoke -/

/-- C15: `readMessage` returns no error and leaves the whole state (index, buffer,
`downloaded`, `requested`, `backlog`, choke flag) as it was on a keep-alive, on a
read time-out, on an Extended message (id 20) with any payload, and on every id
other than Choke, Unchoke, Have and Piece; on Unchoke it sets the choke flag to
false, on Choke to true, and changes nothing else. -/
theorem C15_readMessage_frame_effects (s : pieceProgress) :
    readMessage s (.ok none) = (s, none)
      ∧ readMessage s (.error .timeout) = (s, none)
      ∧ (∀ payload, readMessage s (.ok (some ⟨MsgExtended, payload⟩)) = (s, none))
      ∧ (∀ msg : Message, msg.ID ≠ MsgChoke → msg.ID ≠ MsgUnchoke → msg.ID ≠ MsgHave →
          msg.ID ≠ MsgPiece → readMessage s (.ok (some msg)) = (s, none))
      ∧ (∀ payload, readMessage s (.ok (some ⟨MsgUnchoke, payload⟩))
          = ({ s with client := { s.client with Choked := false } }, none))
      ∧ (∀ payload, readMessage s (.ok (some ⟨MsgChoke, payload⟩))
          = ({ s with client := { s.client with Choked := true } }, none)) := by
  refine ⟨rfl, rfl, ?_, ?_, ?_, ?_⟩
  · intro payload
    unfold readMessage
    simp only []
    rw [if_neg (by decide), if_neg (by decide), if_neg (by decide), if_neg (by decide)]
    split <;> rfl
  · intro msg h0 h1 h4 h7
    unfold readMessage
    simp only []
    rw [if_neg h1, if_neg h0, if_neg h4, if_neg h7]
    split <;> rfl
  · intro payload
    unfold readMessage
    simp only []
    rw [if_pos trivial]
  · intro payload
    unfold readMessage
    simp only []
    rw [if_neg (by decide), if_pos trivial]

/-- C15 on a state with two requests outstanding: a Port message (id 9) changes
nothing, a Choke message sets only the choke flag and leaves `backlog` at 2. -/
theorem C15_readMessage_frame_effects_witness :
    readMessage ⟨0, unchokedClient, [0, 0, 0, 0], 0, 4, 2⟩ (.ok (some ⟨MsgPort, [0x1A, 0xE1]⟩))
        = (⟨0, unchokedClient, [0, 0, 0, 0], 0, 4, 2⟩, none)
      ∧ readMessage ⟨0, unchokedClient, [0, 0, 0, 0], 0, 4, 2⟩ (.ok (some ⟨MsgChoke, []⟩))
        = (⟨0, chokedClient, [0, 0, 0, 0], 0, 4, 2⟩, none) :=
  ⟨(C15_readMessage_frame_effects ⟨0, unchokedClient, [0, 0, 0, 0], 0, 4, 2⟩).2.2.2.1
      ⟨MsgPort, [0x1A, 0xE1]⟩ (by decide) (by decide) (by decide) (by decide),
    (C15_readMessage_frame_effects ⟨0, unchokedClient, [0, 0, 0, 0], 0, 4, 2⟩).2.2.2.2.2 []⟩

/-! ## Have messages -/

/-- C17: for `0 ≤ i < 2^32`, `FormatHave(i)` has id 4 and a payload of four bytes
that is the big-endian form of `i`, and `ParseHave` gives `i` back with no error;
`ParseHave` returns an error for every message whose id is not Have or whose
payload is not exactly four bytes long. -/
theorem C17_Have_round_trip :
    (∀ i : Int, 0 ≤ i → i < 4294967296 →
        ParseHave (FormatHave i) = (i, none)
          ∧ (FormatHave i).ID = 4 ∧ (FormatHave i).Payload.length = 4
          ∧ (FormatHave i).Payload = putUint32 i.toNat
          ∧ (Uint32 (FormatHave i).Payload : Int) = i)
      ∧ (∀ msg : Message, msg.ID ≠ MsgHave ∨ msg.Payload.length ≠ 4 →
          (ParseHave msg).2 ≠ none ∧ (ParseHave msg).1 = 0) := by
  constructor
  · intro i h0 h1
    have e : toUint32 i = i.toNat := by unfold toUint32; omega
    have hu : Uint32 (putUint32 i.toNat) = i.toNat := Uint32_putUint32 _ (by omega)
    refine ⟨?_, rfl, rfl, by simp only [FormatHave, e], ?_⟩
    · unfold ParseHave FormatHave
      simp only [e, length_putUint32, hu]
      rw [if_neg (by simp), if_neg (by simp)]
      congr 1
      omega
    · simp only [FormatHave, e, hu]
      omega
  · intro msg h
    unfold ParseHave
    by_cases h1 : msg.ID ≠ MsgHave
    · rw [if_pos h1]
      exact ⟨by simp, rfl⟩
    · rw [if_neg h1]
      have h2 : msg.Payload.length ≠ 4 := by
        rcases h with h | h
        · exact absurd h h1
        · exact h
      rw [if_pos h2]
      exact ⟨by simp, rfl⟩

/-- C17 at piece index 37 and on a Have message with a three-byte payload. -/
theorem C17_Have_round_trip_witness :
    ParseHave (FormatHave 37) = (37, none)
      ∧ (FormatHave 37).Payload = [0, 0, 0, 0x25]
      ∧ (ParseHave ⟨MsgHave, [0, 0, 1]⟩).2 ≠ none :=
  ⟨(C17_Have_round_trip.1 37 (by decide) (by decide)).1,
    (C17_Have_round_trip.1 37 (by decide) (by decide)).2.2.2.1.trans (by decide),
    (C17_Have_round_trip.2 ⟨MsgHave, [0, 0, 1]⟩ (Or.inr (by decide))).1⟩

/-! ## Framing: `Serialize` followed by `Read` -/

/-- For a payload of fewer than `2^32 - 5` bytes, `Read` on `Serialize(m)` followed
by any bytes `rest` returns `m` and leaves exactly `rest` unread; the frame has
`5 + len(m.Payload)` bytes. -/
theorem Read_Serialize_message (m : Message) (rest : List Byte)
    (h : m.Payload.length + 5 < 4294967296) :
    ∃ frame, Serialize (some m) = some frame ∧ frame.length = 5 + m.Payload.length
      ∧ Read (frame ++ rest) = .ok (some m, rest) := by
  refine ⟨putUint32 (m.Payload.length + 1) ++ m.ID :: m.Payload, Serialize_some m h, ?_, ?_⟩
  · simp only [List.length_append, length_putUint32, List.length_cons]
    omega
  · have hr := Read_frame (m.Payload.length + 1) (m.ID :: m.Payload) rest (by omega) (by omega)
      (by simp)
    rw [hr]
    rfl

/-- The keep-alive: `Serialize` of the nil message is four zero bytes, and `Read`
decodes them as a keep-alive, consuming exactly these four bytes. -/
theorem Read_Serialize_keepalive (rest : List Byte) :
    Serialize none = some [0, 0, 0, 0]
      ∧ Read ([0, 0, 0, 0] ++ rest) = .ok (none, rest) := by
  constructor
  · rfl
  · have e1 : ReadFull ([0, 0, 0, 0] ++ rest) 4 = .ok ([0, 0, 0, 0], rest) := by
      simp [ReadFull]
    have e2 : Uint32 [0, 0, 0, 0] = 0 := by decide
    simp only [Read, e1, e2]
    rfl

/-- C18, evaluated at the message with id 0 and a payload of `2^32 - 5` zero bytes
(fewer than `2^32 - 1`): `Serialize` panics, so there is no stream for `Read` to
decode. -/
theorem C18_Serialize_panics_below_bound :
    (List.replicate 4294967291 (0 : Byte)).length < 4294967295
      ∧ Serialize (some { ID := 0, Payload := List.replicate 4294967291 0 }) = none := by
  constructor
  · rw [List.length_replicate]
    omega
  · apply Serialize_panics
    · rw [List.length_replicate]
    · rw [List.length_replicate]; omega

/-! ## The piece intervals tile the content -/

theorem bounds_eq (t : Torrent) (i : Int) :
    (exactBoundsForPiece t i).1 = i * t.PieceLength
      ∧ (exactBoundsForPiece t i).2 = min (i * t.PieceLength + t.PieceLength) t.Length := by
  unfold exactBoundsForPiece
  simp only []
  split
  · exact ⟨rfl, by simp only []; omega⟩
  · exact ⟨rfl, by simp only []; omega⟩

theorem succ_mul_le (pl i j : Int) (hpl : 0 < pl) (h : i < j) : i * pl + pl ≤ j * pl := by
  have h3 : (i + 1) * pl ≤ j * pl := Int.mul_le_mul_of_nonneg_right (by omega) (by omega)
  have h4 : (i + 1) * pl = i * pl + pl := by ring
  omega

theorem pieceSizes_sum (t : Torrent) (hinv : DescriptorInvariant t) :
    ∀ k : Nat, k ≤ t.PieceHashes.length →
      ((List.range k).map (fun i : Nat => exactPieceSize t (i : Int))).sum
        = min ((k : Int) * t.PieceLength) t.Length := by
  obtain ⟨hpl, hL, hdiv⟩ := hinv
  intro k
  induction k with
  | zero =>
    intro _
    simp only [List.range_zero, List.map_nil, List.sum_nil]
    omega
  | succ k ih =>
    intro hk
    rw [List.range_succ, List.map_append, List.sum_append, ih (by omega)]
    have hlt := piece_begin_lt_length t.Length t.PieceLength _ (k : Int) hpl hdiv
      (by omega) (by exact_mod_cast hk)
    obtain ⟨b1, b2⟩ := bounds_eq t (k : Int)
    have hm : ((k + 1 : Nat) : Int) * t.PieceLength
        = (k : Int) * t.PieceLength + t.PieceLength := by
      push_cast; ring
    simp only [List.map_cons, List.map_nil, List.sum_cons, List.sum_nil, exactPieceSize,
      b1, b2, hm]
    omega

/-- In exact arithmetic the piece intervals tile `[0, total_length)`: they are
non-empty, consecutive, pairwise disjoint and cover every offset, the sizes add
up to the total length and the work items have the lengths of their intervals. -/
theorem exact_bounds_tile (t : Torrent) (hinv : DescriptorInvariant t) :
    (∀ i : Nat, i < t.PieceHashes.length →
        0 ≤ (exactBoundsForPiece t i).1
          ∧ (exactBoundsForPiece t i).1 < (exactBoundsForPiece t i).2
          ∧ (exactBoundsForPiece t i).2 ≤ t.Length)
      ∧ (exactBoundsForPiece t (0 : Nat)).1 = 0
      ∧ (∀ i : Nat, i + 1 < t.PieceHashes.length →
          (exactBoundsForPiece t i).2 = (exactBoundsForPiece t (i + 1 : Nat)).1)
      ∧ (∀ i : Nat, i + 1 = t.PieceHashes.length →
          (exactBoundsForPiece t i).2 = t.Length)
      ∧ (∀ i j : Nat, i < j → j < t.PieceHashes.length →
          (exactBoundsForPiece t i).2 ≤ (exactBoundsForPiece t j).1)
      ∧ (∀ x : Int, 0 ≤ x → x < t.Length →
          ∃ i : Nat, i < t.PieceHashes.length
            ∧ (exactBoundsForPiece t i).1 ≤ x ∧ x < (exactBoundsForPiece t i).2)
      ∧ ((List.range t.PieceHashes.length).map
            (fun i : Nat => exactPieceSize t (i : Int))).sum = t.Length
      ∧ (∀ pw ∈ initialWork t,
          pw.length = (exactBoundsForPiece t pw.index).2
            - (exactBoundsForPiece t pw.index).1) := by
  have hpl := hinv.1
  have hL := hinv.2.1
  have hdiv := hinv.2.2
  have hLn := length_le_pieces t.Length t.PieceLength _ hpl (by omega) hdiv
  refine ⟨?_, ?_, ?_, ?_, ?_, ?_, ?_, ?_⟩
  · intro i hi
    obtain ⟨f1, f2, f3, f4, f5, f6⟩ := bounds_facts t hinv (i : Int) (by omega)
      (by exact_mod_cast hi)
    rw [f1, f2]
    omega
  · rw [(bounds_eq t _).1]
    simp
  · intro i hi
    have hlt := piece_begin_lt_length t.Length t.PieceLength _ ((i + 1 : Nat) : Int) hpl hdiv
      (by omega) (by exact_mod_cast hi)
    have hm : ((i + 1 : Nat) : Int) * t.PieceLength
        = (i : Int) * t.PieceLength + t.PieceLength := by
      push_cast; ring
    rw [(bounds_eq t _).2, (bounds_eq t _).1]
    omega
  · intro i hi
    have hm : (t.PieceHashes.length : Int) * t.PieceLength
        = (i : Int) * t.PieceLength + t.PieceLength := by
      rw [← hi]; push_cast; ring
    rw [(bounds_eq t _).2]
    omega
  · intro i j hij hj
    have h := succ_mul_le t.PieceLength (i : Int) (j : Int) hpl (by exact_mod_cast hij)
    rw [(bounds_eq t _).2, (bounds_eq t _).1]
    omega
  · intro x hx0 hxL
    have h1 : x / t.PieceLength * t.PieceLength ≤ x := Int.ediv_mul_le _ (by omega)
    have h2 := Int.lt_ediv_add_one_mul_self x hpl
    have h3 : (x / t.PieceLength + 1) * t.PieceLength
        = x / t.PieceLength * t.PieceLength + t.PieceLength := by ring
    have h4 : 0 ≤ x / t.PieceLength := Int.ediv_nonneg hx0 (by omega)
    obtain ⟨i, hi⟩ : ∃ i : Nat, (i : Int) = x / t.PieceLength :=
      ⟨(x / t.PieceLength).toNat, by omega⟩
    have hin : i < t.PieceHashes.length := by
      by_contra hge
      have h5 : (t.PieceHashes.length : Int) * t.PieceLength ≤ (i : Int) * t.PieceLength :=
        Int.mul_le_mul_of_nonneg_right (by omega) (by omega)
      rw [hi] at h5
      omega
    refine ⟨i, hin, ?_, ?_⟩
    · rw [(bounds_eq t _).1, hi]
      exact h1
    · rw [(bounds_eq t _).2, hi]
      omega
  · rw [pieceSizes_sum t hinv _ (Nat.le_refl _)]
    omega
  · intro pw hpw
    obtain ⟨i, hi1, _, hi3⟩ := mem_initialWork t pw hpw
    rw [hi3, hi1]
    rfl

/-! ## The dispatcher: counting the work items -/

theorem length_initialWork (t : Torrent) : (initialWork t).length = t.PieceHashes.length := by
  simp [initialWork]

/-- In every state of a download the items queued, in flight and completed add up
to the number of pieces, and a closed queue means that all pieces are completed. -/
theorem Reachable_count (sha1 : List Byte → Hash) (t : Torrent) (s : Swarm)
    (hr : Reachable sha1 t s) :
    s.workQueue.length + s.inFlight.length + s.donePieces = t.PieceHashes.length
      ∧ (s.closed = true → s.donePieces = t.PieceHashes.length) := by
  induction hr with
  | init _ =>
    exact ⟨by simp [initialSwarm, length_initialWork], by simp [initialSwarm]⟩
  | step s s1 _ hstep ih =>
    obtain ⟨h1, h2⟩ := ih
    cases hstep with
    | take pw q hq =>
      rw [hq] at h1
      simp only [List.length_cons] at h1 ⊢
      exact ⟨by omega, h2⟩
    | requeue pw gotBF c reads hmem _ _ _ =>
      have hpos : 0 < s.inFlight.length := List.length_pos_of_mem hmem
      simp only [List.length_append, List.length_cons, List.length_nil,
        List.length_erase_of_mem hmem]
      exact ⟨by omega, h2⟩
    | publish pw gotBF c reads res buf1 hmem _ hdone _ =>
      have hpos : 0 < s.inFlight.length := List.length_pos_of_mem hmem
      simp only [List.length_erase_of_mem hmem]
      refine ⟨by omega, ?_⟩
      intro hc
      have := h2 hc
      omega
    | close hnd _ =>
      refine ⟨h1, fun _ => ?_⟩
      show s.donePieces = t.PieceHashes.length
      omega

/-- C16: in every state of the dispatcher, queued + in-flight + completed is
`num_pieces`; hence queued + in-flight is at most `num_pieces`, a worker that
holds an item finds room in the queue (capacity `num_pieces`) to put it back, and
once `num_pieces` results are received, or the queue is closed, no worker holds
an item and nothing is queued. -/
theorem C16_dispatcher_counts (sha1 : List Byte → Hash) (t : Torrent) (s : Swarm)
    (hr : Reachable sha1 t s) :
    s.workQueue.length + s.inFlight.length + s.donePieces = t.PieceHashes.length
      ∧ s.workQueue.length + s.inFlight.length ≤ t.PieceHashes.length
      ∧ (s.inFlight ≠ [] → s.workQueue.length < t.PieceHashes.length)
      ∧ (s.donePieces = t.PieceHashes.length → s.inFlight = [] ∧ s.workQueue = [])
      ∧ (s.closed = true → s.inFlight = [] ∧ s.workQueue = []) := by
  obtain ⟨h1, h2⟩ := Reachable_count sha1 t s hr
  have hdone : s.donePieces = t.PieceHashes.length → s.inFlight = [] ∧ s.workQueue = [] := by
    intro hd
    exact ⟨List.eq_nil_of_length_eq_zero (by omega), List.eq_nil_of_length_eq_zero (by omega)⟩
  refine ⟨h1, by omega, ?_, hdone, fun hc => hdone (h2 hc)⟩
  intro hne
  have hpos : 0 < s.inFlight.length := List.length_pos.mpr hne
  omega

/-- C16 on a one-piece download after a worker has taken the only item: nothing
queued, one item in flight, none completed. -/
theorem C16_dispatcher_counts_witness :
    Reachable constHash onePieceTorrent ⟨[], false, [smallWork], [0, 0, 0, 0], 0, []⟩
      ∧ (0 + 1 + 0 = onePieceTorrent.PieceHashes.length)
      ∧ (([] : List pieceWork).length < onePieceTorrent.PieceHashes.length) := by
  have r0 : Reachable constHash onePieceTorrent (initialSwarm onePieceTorrent) :=
    Reachable.init (by decide)
  have r1 : Reachable constHash onePieceTorrent
      ⟨[], false, [smallWork], [0, 0, 0, 0], 0, []⟩ :=
    Reachable.step _ _ r0 (Step.take (initialSwarm onePieceTorrent) smallWork [] (by decide))
  have h := C16_dispatcher_counts constHash onePieceTorrent _ r1
  exact ⟨r1, h.1, h.2.2.1 (by simp)⟩

/-! ## `dedupPeers` -/

theorem dedupLoop_eq {κ : Type} [DecidableEq κ] (ipString : List Byte → κ) :
    ∀ (l : List Peer) (seen : List κ) (unique : List Peer),
      dedupLoop ipString l seen unique = unique ++ keptFrom ipString l seen := by
  intro l
  induction l with
  | nil => intro seen unique; simp [dedupLoop, keptFrom]
  | cons p rest ih =>
    intro seen unique
    unfold dedupLoop keptFrom
    by_cases h : ipString p.IP ∈ seen
    · rw [if_pos h, if_pos h]
      exact ih seen unique
    · rw [if_neg h, if_neg h, ih]
      simp

theorem dedupPeers_eq {κ : Type} [DecidableEq κ] (ipString : List Byte → κ) (l : List Peer) :
    dedupPeers ipString l = keptFrom ipString l [] := by
  unfold dedupPeers
  rw [dedupLoop_eq]
  rfl

theorem keptFrom_sublist {κ : Type} [DecidableEq κ] (ipString : List Byte → κ) :
    ∀ (l : List Peer) (seen : List κ), (keptFrom ipString l seen).Sublist l := by
  intro l
  induction l with
  | nil => intro seen; simp [keptFrom]
  | cons p rest ih =>
    intro seen
    unfold keptFrom
    split
    · exact (ih seen).cons p
    · exact (ih _).cons₂ p

theorem keptFrom_not_seen {κ : Type} [DecidableEq κ] (ipString : List Byte → κ) :
    ∀ (l : List Peer) (seen : List κ), ∀ q ∈ keptFrom ipString l seen,
      ipString q.IP ∉ seen := by
  intro l
  induction l with
  | nil => intro seen q hq; simp [keptFrom] at hq
  | cons p rest ih =>
    intro seen q hq
    unfold keptFrom at hq
    by_cases h : ipString p.IP ∈ seen
    · rw [if_pos h] at hq
      exact ih seen q hq
    · rw [if_neg h] at hq
      rcases List.mem_cons.mp hq with rfl | hq
      · exact h
      · intro hs
        exact ih _ q hq (List.mem_cons_of_mem _ hs)

theorem keptFrom_nodup {κ : Type} [DecidableEq κ] (ipString : List Byte → κ) :
    ∀ (l : List Peer) (seen : List κ),
      ((keptFrom ipString l seen).map (fun p => ipString p.IP)).Nodup := by
  intro l
  induction l with
  | nil => intro seen; simp [keptFrom]
  | cons p rest ih =>
    intro seen
    unfold keptFrom
    by_cases h : ipString p.IP ∈ seen
    · rw [if_pos h]
      exact ih seen
    · rw [if_neg h, List.map_cons, List.nodup_cons]
      refine ⟨?_, ih _⟩
      intro hm
      obtain ⟨q, hq, hqe⟩ := List.mem_map.mp hm
      exact keptFrom_not_seen ipString rest _ q hq (by rw [hqe]; exact List.mem_cons_self _ _)

theorem keptFrom_complete {κ : Type} [DecidableEq κ] (ipString : List Byte → κ) :
    ∀ (l : List Peer) (seen : List κ), ∀ p ∈ l, ipString p.IP ∉ seen →
      ipString p.IP ∈ (keptFrom ipString l seen).map (fun p => ipString p.IP) := by
  intro l
  induction l with
  | nil => intro seen p hp; simp at hp
  | cons a rest ih =>
    intro seen p hp hns
    unfold keptFrom
    by_cases h : ipString a.IP ∈ seen
    · rw [if_pos h]
      rcases List.mem_cons.mp hp with rfl | hp
      · exact absurd h hns
      · exact ih seen p hp hns
    · rw [if_neg h, List.map_cons]
      by_cases he : ipString p.IP = ipString a.IP
      · rw [he]
        exact List.mem_cons_self _ _
      · rcases List.mem_cons.mp hp with rfl | hp
        · exact absurd rfl he
        · apply List.mem_cons_of_mem
          apply ih _ p hp
          intro hm
          rcases List.mem_cons.mp hm with hm | hm
          · exact he hm
          · exact hns hm

theorem keptFrom_first {κ : Type} [DecidableEq κ] (ipString : List Byte → κ) :
    ∀ (l : List Peer) (seen : List κ), ∀ q ∈ keptFrom ipString l seen,
      l.find? (fun p => decide (ipString p.IP = ipString q.IP)) = some q := by
  intro l
  induction l with
  | nil => intro seen q hq; simp [keptFrom] at hq
  | cons a rest ih =>
    intro seen q hq
    have hnot := keptFrom_not_seen ipString (a :: rest) seen q hq
    unfold keptFrom at hq
    by_cases h : ipString a.IP ∈ seen
    · rw [if_pos h] at hq
      have hne : ¬ ipString a.IP = ipString q.IP := fun he => hnot (he ▸ h)
      rw [List.find?_cons_of_neg _ (by simpa using hne)]
      exact ih seen q hq
    · rw [if_neg h] at hq
      rcases List.mem_cons.mp hq with rfl | hq
      · rw [List.find?_cons_of_pos _ (by simp)]
      · have hq2 := keptFrom_not_seen ipString rest _ q hq
        have hne : ¬ ipString a.IP = ipString q.IP :=
          fun he => hq2 (he ▸ List.mem_cons_self _ _)
        rw [List.find?_cons_of_neg _ (by simpa using hne)]
        exact ih _ q hq

theorem keptFrom_of_nodup {κ : Type} [DecidableEq κ] (ipString : List Byte → κ) :
    ∀ (l : List Peer) (seen : List κ), (l.map (fun p => ipString p.IP)).Nodup →
      (∀ p ∈ l, ipString p.IP ∉ seen) → keptFrom ipString l seen = l := by
  intro l
  induction l with
  | nil => intro seen _ _; simp [keptFrom]
  | cons a rest ih =>
    intro seen hnd hns
    rw [List.map_cons, List.nodup_cons] at hnd
    unfold keptFrom
    rw [if_neg (hns a (List.mem_cons_self _ _))]
    congr 1
    apply ih _ hnd.2
    intro p hp hm
    rcases List.mem_cons.mp hm with hm | hm
    · exact hnd.1 (List.mem_map.mpr ⟨p, hp, hm⟩)
    · exact hns p (List.mem_cons_of_mem _ hp) hm

/-- C20: `dedupPeers` returns a subsequence of its input in which no two entries
have the same IP key, every IP key of the input appears exactly once, and the
entry kept for a key is the first entry of the input with that key (so peers that
differ only in the port are collapsed to the first); `dedupPeers` is idempotent. -/
theorem C20_dedupPeers {κ : Type} [DecidableEq κ] (ipString : List Byte → κ)
    (l : List Peer) :
    (dedupPeers ipString l).Sublist l
      ∧ ((dedupPeers ipString l).map (fun p => ipString p.IP)).Nodup
      ∧ (∀ p ∈ l,
          ((dedupPeers ipString l).map (fun p => ipString p.IP)).count (ipString p.IP) = 1)
      ∧ (∀ q ∈ dedupPeers ipString l,
          l.find? (fun p => decide (ipString p.IP = ipString q.IP)) = some q)
      ∧ dedupPeers ipString (dedupPeers ipString l) = dedupPeers ipString l := by
  have hnd := keptFrom_nodup ipString l []
  rw [dedupPeers_eq, dedupPeers_eq]
  refine ⟨keptFrom_sublist ipString l [], hnd, ?_, keptFrom_first ipString l [], ?_⟩
  · intro p hp
    exact List.count_eq_one_of_mem hnd (keptFrom_complete ipString l [] p hp (by simp))
  · exact keptFrom_of_nodup ipString _ [] hnd (by simp)

/-- C20 on three peers, two of them with the same IP and different ports. -/
theorem C20_dedupPeers_witness :
    dedupPeers id [⟨[10, 0, 0, 1], 6881⟩, ⟨[10, 0, 0, 2], 6881⟩, ⟨[10, 0, 0, 1], 51413⟩]
        = [⟨[10, 0, 0, 1], 6881⟩, ⟨[10, 0, 0, 2], 6881⟩]
      ∧ (dedupPeers id
          [⟨[10, 0, 0, 1], 6881⟩, ⟨[10, 0, 0, 2], 6881⟩, ⟨[10, 0, 0, 1], 51413⟩]).Sublist
          [⟨[10, 0, 0, 1], 6881⟩, ⟨[10, 0, 0, 2], 6881⟩, ⟨[10, 0, 0, 1], 51413⟩]
      ∧ ((dedupPeers id
          [⟨[10, 0, 0, 1], 6881⟩, ⟨[10, 0, 0, 2], 6881⟩, ⟨[10, 0, 0, 1], 51413⟩]).map
            (fun p => id p.IP)).count [10, 0, 0, 1] = 1 :=
  ⟨by decide,
    (C20_dedupPeers id
      [⟨[10, 0, 0, 1], 6881⟩, ⟨[10, 0, 0, 2], 6881⟩, ⟨[10, 0, 0, 1], 51413⟩]).1,
    (C20_dedupPeers id
      [⟨[10, 0, 0, 1], 6881⟩, ⟨[10, 0, 0, 2], 6881⟩, ⟨[10, 0, 0, 1], 51413⟩]).2.2.1
      ⟨[10, 0, 0, 1], 51413⟩ (by decide)⟩

/-! ## The piece downloader: induction with restricted reads -/

/-- Induction over a run of the download loop whose reads all satisfy `allowed`:
as `downloadLoop_invariant`, with `readMessage` considered on allowed reads only,
and with the reads consumed at the end a beginning of the reads given. -/
theorem downloadLoop_induction (pw : pieceWork)
    (P P1 : List ReadResult → pieceProgress → Prop) (allowed : ReadResult → Prop)
    (hsend : ∀ cons s c, P cons s → s.client.Choked = false → s.backlog < MaxBacklog →
      s.requested < pw.length →
      SendRequest s.client pw.index s.requested (blockSizeFor pw s) = (c, none) →
      P1 cons { s with client := c, backlog := s.backlog + 1 }
        ∧ P cons { s with
              client := c, backlog := s.backlog + 1,
              requested := s.requested + blockSizeFor pw s })
    (hread : ∀ cons s r, allowed r → P cons s → s.downloaded < pw.length →
      P (cons ++ [r]) (readMessage s r).1) :
    ∀ (reads cons : List ReadResult) (s : pieceProgress), (∀ r ∈ reads, allowed r) →
      P cons s →
      (∀ x ∈ (downloadLoop pw reads cons s).visited, P x.consumed x.state ∨ P1 x.consumed x.state)
        ∧ ∃ k, k ≤ reads.length ∧ P (cons ++ reads.take k) (downloadLoop pw reads cons s).final := by
  intro reads
  induction reads with
  | nil =>
    intro cons s _ hP
    obtain ⟨a1, a2, _⟩ := requestPhase_invariant pw (P cons) (P1 cons) (hsend cons) s hP
    unfold downloadLoop
    by_cases hd : s.downloaded < pw.length
    · rw [if_pos hd]
      simp only []
      split
      · exact ⟨by simpa using a1, 0, Nat.le_refl _, by simpa using a2⟩
      · exact ⟨by simpa using a1, 0, Nat.le_refl _, by simpa using a2⟩
    · rw [if_neg hd]
      exact ⟨by simp, 0, Nat.le_refl _, by simpa using hP⟩
  | cons r rest ih =>
    intro cons s hall hP
    obtain ⟨a1, a2, a3⟩ := requestPhase_invariant pw (P cons) (P1 cons) (hsend cons) s hP
    unfold downloadLoop
    by_cases hd : s.downloaded < pw.length
    · rw [if_pos hd]
      simp only []
      have hr := hread cons (requestPhase pw s).state r (hall r (List.mem_cons_self _ _)) a2
        (by rw [a3]; exact hd)
      split
      · exact ⟨by simpa using a1, 0, Nat.zero_le _, by simpa using a2⟩
      · split
        · rename_i s1 e heq
          have e1 : (readMessage (requestPhase pw s).state r).1 = s1 := by rw [heq]
          rw [e1] at hr
          refine ⟨?_, 1, by simp, by simpa using hr⟩
          intro x hx
          simp only [List.mem_append, List.mem_map, List.mem_singleton] at hx
          rcases hx with ⟨y, hy, rfl⟩ | rfl
          · exact a1 y hy
          · exact Or.inl hr
        · rename_i s1 heq
          have e1 : (readMessage (requestPhase pw s).state r).1 = s1 := by rw [heq]
          rw [e1] at hr
          obtain ⟨b1, k, hk, b2⟩ := ih (cons ++ [r]) s1
            (fun r1 h1 => hall r1 (List.mem_cons_of_mem _ h1)) hr
          refine ⟨?_, k + 1, by simp only [List.length_cons]; omega, ?_⟩
          · intro x hx
            simp only [List.mem_append, List.mem_map, List.mem_cons] at hx
            rcases hx with ⟨y, hy, rfl⟩ | rfl | hx
            · exact a1 y hy
            · exact Or.inl hr
            · exact b1 x hx
          · simpa using b2
    · rw [if_neg hd]
      exact ⟨by simp, 0, Nat.zero_le _, by simpa using hP⟩

/-! ## The piece downloader: nothing is requested while choked -/

theorem requestPhase_choked (pw : pieceWork) (s : pieceProgress)
    (h : s.client.Choked = true) : requestPhase pw s = ⟨[], s, none⟩ := by
  unfold requestPhase
  rw [if_neg (by simp [h])]

theorem readMessage_while_choked (s : pieceProgress) (r : ReadResult) (hr : NotUnchoke r)
    (hch : s.client.Choked = true) :
    (readMessage s r).1.client.Choked = true
      ∧ (readMessage s r).1.client.Conn = s.client.Conn
      ∧ (readMessage s r).1.requested = s.requested
      ∧ (readMessage s r).1.backlog ≤ s.backlog := by
  unfold readMessage
  split
  · split <;> simp [hch]
  · simp [hch]
  · rename_i msg
    have hne := hr msg rfl
    rw [if_neg hne]
    split
    · simp
    · split
      · split <;> simp [hch]
      · split
        · simp only []
          split
          · simp [hch]
          · simp only [hch, true_and]
            omega
        · split <;> simp [hch]

theorem choked_run (pw : pieceWork) (reads cons : List ReadResult) (s : pieceProgress)
    (hch : s.client.Choked = true) (hno : ∀ r ∈ reads, NotUnchoke r) :
    (∀ x ∈ (downloadLoop pw reads cons s).visited,
        x.state.client.Choked = true ∧ x.state.client.Conn = s.client.Conn
          ∧ x.state.requested = s.requested ∧ x.state.backlog ≤ s.backlog)
      ∧ (downloadLoop pw reads cons s).final.client.Choked = true
      ∧ (downloadLoop pw reads cons s).final.client.Conn = s.client.Conn
      ∧ (downloadLoop pw reads cons s).final.requested = s.requested
      ∧ (downloadLoop pw reads cons s).final.backlog ≤ s.backlog := by
  have h := downloadLoop_induction pw
    (fun _ x => x.client.Choked = true ∧ x.client.Conn = s.client.Conn
      ∧ x.requested = s.requested ∧ x.backlog ≤ s.backlog)
    (fun _ x => x.client.Choked = true ∧ x.client.Conn = s.client.Conn
      ∧ x.requested = s.requested ∧ x.backlog ≤ s.backlog)
    NotUnchoke
    (fun _ x _ hP hf _ _ _ => by rw [hP.1] at hf; exact absurd hf (by simp))
    (fun _ x r hr hP _ => by
      obtain ⟨h1, h2, h3, h4⟩ := readMessage_while_choked x r hr hP.1
      exact ⟨h1, h2.trans hP.2.1, h3.trans hP.2.2.1, Int.le_trans h4 hP.2.2.2⟩)
    reads cons s hno ⟨hch, rfl, rfl, Int.le_refl _⟩
  obtain ⟨h1, _, _, h2⟩ := h
  refine ⟨?_, h2⟩
  intro x hx
  rcases h1 x hx with h | h <;> exact h

/-- C14: in an iteration of `attemptDownloadPiece` that starts with the session
choked the request step sends nothing and changes nothing; a Choke frame sets the
choke flag; and from a choked state on, as long as no Unchoke frame is read, no
Request is written, `requested` stays and `backlog` does not grow. -/
theorem C14_no_request_while_choked (pw : pieceWork) :
    (∀ s : pieceProgress, s.client.Choked = true → requestPhase pw s = ⟨[], s, none⟩)
      ∧ (∀ (s : pieceProgress) (payload : List Byte),
          (readMessage s (.ok (some ⟨MsgChoke, payload⟩))).1.client.Choked = true
            ∧ (readMessage s (.ok (some ⟨MsgChoke, payload⟩))).2 = none)
      ∧ (∀ (reads cons : List ReadResult) (s : pieceProgress), s.client.Choked = true →
          (∀ r ∈ reads, NotUnchoke r) →
          (∀ x ∈ (downloadLoop pw reads cons s).visited,
              x.state.client.Conn.written = s.client.Conn.written
                ∧ x.state.requested = s.requested ∧ x.state.backlog ≤ s.backlog
                ∧ x.state.client.Choked = true)
            ∧ (downloadLoop pw reads cons s).final.client.Conn.written
                = s.client.Conn.written)
      ∧ (∀ (c : Client) (reads : List ReadResult), c.Choked = true →
          (∀ r ∈ reads, NotUnchoke r) →
          issuedRequests c (attemptDownloadPiece c pw reads).final = []) := by
  refine ⟨requestPhase_choked pw, ?_, ?_, ?_⟩
  · intro s payload
    unfold readMessage
    simp only []
    rw [if_neg (by decide), if_pos trivial]
    exact ⟨rfl, rfl⟩
  · intro reads cons s hch hno
    obtain ⟨h1, _, h3, _⟩ := choked_run pw reads cons s hch hno
    refine ⟨?_, by rw [h3]⟩
    intro x hx
    obtain ⟨a1, a2, a3, a4⟩ := h1 x hx
    exact ⟨by rw [a2], a3, a4, a1⟩
  · intro c reads hch hno
    unfold attemptDownloadPiece issuedRequests
    by_cases hneg : pw.length < 0
    · rw [if_pos hneg]
      simp [initialProgress]
    · rw [if_neg hneg]
      obtain ⟨_, _, h3, _⟩ := choked_run pw reads [] (initialProgress c pw) hch hno
      simp only [h3]
      simp [initialProgress]

/-- C14 on a choked session that reads a keep-alive, a Choke frame and then the
whole piece unasked: the attempt ends with no Request issued. -/
theorem C14_no_request_while_choked_witness :
    chokedClient.Choked = true
      ∧ (∀ r ∈ ([.ok none, .ok (some ⟨MsgChoke, []⟩), .ok (some wholePiece)] :
          List ReadResult), NotUnchoke r)
      ∧ issuedRequests chokedClient (attemptDownloadPiece chokedClient smallWork
          [.ok none, .ok (some ⟨MsgChoke, []⟩), .ok (some wholePiece)]).final = [] := by
  have hno : ∀ r ∈ ([.ok none, .ok (some ⟨MsgChoke, []⟩), .ok (some wholePiece)] :
      List ReadResult), NotUnchoke r := by
    intro r hr msg hm
    simp only [List.mem_cons, List.mem_singleton, List.not_mem_nil, or_false] at hr
    rcases hr with rfl | rfl | rfl
    · exact absurd hm (by simp)
    · have : msg = ⟨MsgChoke, []⟩ := by
        injection hm with h1
        injection h1 with h2
        exact h2.symm
      rw [this]
      decide
    · have : msg = wholePiece := by
        injection hm with h1
        injection h1 with h2
        exact h2.symm
      rw [this]
      decide
  exact ⟨rfl, hno, (C14_no_request_while_choked smallWork).2.2.2 chokedClient _ rfl hno⟩

/-! ## The piece downloader: the shape of the requests -/

theorem issuedRequests_send (c : Client) (pw : pieceWork) (s s1 : pieceProgress)
    (c1 : Client) (h8 : s.client.Conn.written = c.Conn.written ++ issuedRequests c s)
    (he : SendRequest s.client pw.index s.requested (blockSizeFor pw s) = (c1, none))
    (hs1 : s1.client = c1) :
    issuedRequests c s1
      = issuedRequests c s ++ [⟨pw.index, s.requested, blockSizeFor pw s⟩] := by
  have hc1 : c1.Conn.written
      = s.client.Conn.written ++ [⟨pw.index, s.requested, blockSizeFor pw s⟩] := by
    rcases SendRequest_cases s.client pw.index s.requested (blockSizeFor pw s) with hf | hs
    · rw [hf] at he
      simp at he
    · rw [hs] at he
      rw [← (Prod.mk.inj he).1]
  unfold issuedRequests
  rw [hs1, hc1, h8, List.append_assoc, List.drop_left, List.drop_left]

theorem readMessage_conn (s : pieceProgress) (r : ReadResult) :
    (readMessage s r).1.client.Conn = s.client.Conn := by
  unfold readMessage
  split
  · split <;> rfl
  · rfl
  · split
    · rfl
    · split
      · rfl
      · split
        · split <;> rfl
        · split
          · simp only []
            split <;> rfl
          · split <;> rfl

theorem issuedRequests_read (c : Client) (s : pieceProgress) (r : ReadResult) :
    issuedRequests c (readMessage s r).1 = issuedRequests c s := by
  unfold issuedRequests
  rw [readMessage_conn]

theorem RequestShape_append (pw : pieceWork) (issued : List Request) (q : Request)
    (h : RequestShape pw issued)
    (hlt : MaxBlockSize * (issued.length : Int) < pw.length)
    (hq : q = ⟨pw.index, MaxBlockSize * (issued.length : Int),
      min MaxBlockSize (pw.length - MaxBlockSize * (issued.length : Int))⟩) :
    RequestShape pw (issued ++ [q]) := by
  intro i q1 hi
  by_cases hlen : i < issued.length
  · rw [List.getElem?_append_left hlen] at hi
    exact h i q1 hi
  · by_cases heq : i = issued.length
    · subst heq
      rw [List.getElem?_append_right (Nat.le_refl _)] at hi
      simp only [Nat.sub_self, List.getElem?_cons_zero, Option.some.injEq] at hi
      rw [← hi]
      exact ⟨hlt, hq⟩
    · have hout : (issued ++ [q]).length ≤ i := by
        simp only [List.length_append, List.length_cons, List.length_nil]
        omega
      rw [List.getElem?_eq_none hout] at hi
      exact absurd hi (by simp)

theorem shape_send (c : Client) (pw : pieceWork) (cons : List ReadResult)
    (s : pieceProgress) (c1 : Client) (hP : ShapeInvariant c pw cons s)
    (hb : s.backlog < MaxBacklog) (hr : s.requested < pw.length)
    (he : SendRequest s.client pw.index s.requested (blockSizeFor pw s) = (c1, none)) :
    ShapeMid c pw cons { s with client := c1, backlog := s.backlog + 1 }
      ∧ ShapeInvariant c pw cons { s with
          client := c1, backlog := s.backlog + 1,
          requested := s.requested + blockSizeFor pw s } := by
  obtain ⟨hR, hS, hreq⟩ := hP
  obtain ⟨i1, i2⟩ := invariant_send c pw cons s c1 hR hb hr he
  have h8 := hR.1.2.2.2.2.2.2.2
  have hrq := hreq hr
  have hblock : blockSizeFor pw s
      = min MaxBlockSize (pw.length - MaxBlockSize * ((issuedRequests c s).length : Int)) := by
    unfold blockSizeFor
    rw [← hrq]
    split <;> omega
  have hshape : RequestShape pw
      (issuedRequests c s ++ [⟨pw.index, s.requested, blockSizeFor pw s⟩]) := by
    apply RequestShape_append pw _ _ hS (by rw [← hrq]; exact hr)
    rw [hblock, hrq]
  have e1 := issuedRequests_send c pw s { s with client := c1, backlog := s.backlog + 1 }
    c1 h8 he rfl
  have e2 := issuedRequests_send c pw s { s with
      client := c1, backlog := s.backlog + 1,
      requested := s.requested + blockSizeFor pw s } c1 h8 he rfl
  refine ⟨⟨i1, by rw [e1]; exact hshape⟩, i2, by rw [e2]; exact hshape, ?_⟩
  intro hlt
  rw [e2]
  have hlt2 : s.requested + blockSizeFor pw s < pw.length := hlt
  show s.requested + blockSizeFor pw s = _
  simp only [List.length_append, List.length_cons, List.length_nil]
  push_cast
  rw [hblock] at hlt2 ⊢
  unfold MaxBlockSize at hlt2 hrq ⊢
  omega

theorem shape_read (c : Client) (pw : pieceWork) (cons : List ReadResult)
    (s : pieceProgress) (r : ReadResult) (hP : ShapeInvariant c pw cons s) :
    ShapeInvariant c pw (cons ++ [r]) (readMessage s r).1 := by
  obtain ⟨hR, hS, hreq⟩ := hP
  have i1 := invariant_read c pw cons s r hR
  have hrq : (readMessage s r).1.requested = s.requested := by
    have h1 := i1.2
    have h2 := hR.2
    rw [issuedRequests_read] at h1
    rw [← h1, h2]
  refine ⟨i1, by rw [issuedRequests_read]; exact hS, ?_⟩
  rw [issuedRequests_read, hrq]
  exact hreq

/-- Every state of a piece attempt has sent requests of the shape above. -/
theorem attempt_shape (c : Client) (pw : pieceWork) (reads : List ReadResult) :
    (∀ x ∈ (attemptDownloadPiece c pw reads).visited,
        RequestShape pw (issuedRequests c x.state))
      ∧ RequestShape pw (issuedRequests c (attemptDownloadPiece c pw reads).final) := by
  have hinit : RequestShape pw (issuedRequests c (initialProgress c pw)) := by
    intro i q hi
    simp [issuedRequests, initialProgress] at hi
  unfold attemptDownloadPiece
  by_cases hneg : pw.length < 0
  · rw [if_pos hneg]
    exact ⟨by simp, hinit⟩
  · rw [if_neg hneg]
    have h0 : ShapeInvariant c pw [] (initialProgress c pw) := by
      refine ⟨initialProgress_invariant c pw (by omega), hinit, ?_⟩
      intro _
      simp [issuedRequests, initialProgress]
    obtain ⟨a1, cons1, a2⟩ := downloadLoop_invariant pw (ShapeInvariant c pw)
      (ShapeMid c pw)
      (fun cons s c1 hP _ hb hr he => shape_send c pw cons s c1 hP hb hr he)
      (fun cons s r hP _ => shape_read c pw cons s r hP) reads [] _ h0
    refine ⟨?_, a2.2.1⟩
    intro x hx
    simp only [List.mem_cons] at hx
    rcases hx with rfl | hx
    · exact hinit
    · rcases a1 x hx with h | h
      · exact h.2.1
      · exact h.2

theorem shape_sum (pw : pieceWork) (issued : List Request) (h : RequestShape pw issued) :
    ∀ i : Nat, i < issued.length →
      requestedBytes (issued.take i) = MaxBlockSize * (i : Int) := by
  intro i
  induction i with
  | zero =>
    intro _
    simp [requestedBytes]
  | succ i ih =>
    intro hi
    have hi0 : i < issued.length := by omega
    obtain ⟨_, hq⟩ := h i _ (List.getElem?_eq_getElem hi0)
    obtain ⟨hlt, _⟩ := h (i + 1) _ (List.getElem?_eq_getElem hi)
    have hsum := ih hi0
    unfold requestedBytes at hsum ⊢
    rw [List.take_succ, List.getElem?_eq_getElem hi0, List.map_append, List.sum_append, hsum,
      hq]
    simp only [Option.toList, List.map_cons, List.map_nil, List.sum_cons, List.sum_nil]
    push_cast at hlt ⊢
    unfold MaxBlockSize at hlt ⊢
    omega

theorem shape_total (pw : pieceWork) (issued : List Request) (h : RequestShape pw issued)
    (hne : issued ≠ []) : requestedBytes issued ≤ pw.length := by
  obtain ⟨n, hn⟩ : ∃ n, issued.length = n + 1 :=
    ⟨issued.length - 1, by have := List.length_pos.mpr hne; omega⟩
  have hlast : n < issued.length := by omega
  obtain ⟨hlt, hq⟩ := h n _ (List.getElem?_eq_getElem hlast)
  have hsum := shape_sum pw issued h n hlast
  have hall : issued.take (n + 1) = issued := List.take_of_length_le (by omega)
  have hsplit := List.take_succ (l := issued) (n := n)
  rw [hall, List.getElem?_eq_getElem hlast] at hsplit
  unfold requestedBytes at hsum ⊢
  rw [hsplit, List.map_append, List.sum_append, hsum, hq]
  simp only [Option.toList, List.map_cons, List.map_nil, List.sum_cons, List.sum_nil]
  unfold MaxBlockSize at hlt ⊢
  omega

theorem shape_facts (pw : pieceWork) (issued : List Request) (h : RequestShape pw issued)
    (i : Nat) (q : Request) (hq : issued[i]? = some q) :
    q.index = pw.index
      ∧ q.begin = requestedBytes (issued.take i)
      ∧ q.length = min MaxBlockSize (pw.length - q.begin)
      ∧ 1 ≤ q.length ∧ q.length ≤ MaxBlockSize
      ∧ q.begin + q.length ≤ pw.length
      ∧ (∀ q1, issued[i + 1]? = some q1 →
          q1.begin = q.begin + q.length ∧ q.length = MaxBlockSize)
      ∧ (q.length < MaxBlockSize →
          i + 1 = issued.length ∧ q.length = pw.length % MaxBlockSize
            ∧ q.begin + q.length = pw.length)
      ∧ requestedBytes issued ≤ pw.length := by
  have hi : i < issued.length := by
    by_contra hge
    rw [List.getElem?_eq_none (by omega)] at hq
    exact absurd hq (by simp)
  obtain ⟨hlt, hqe⟩ := h i q hq
  have hsum := shape_sum pw issued h i hi
  have hne : issued ≠ [] := by
    intro he
    rw [he] at hi
    simp at hi
  have hb : q.begin = MaxBlockSize * (i : Int) := by rw [hqe]
  have hl : q.length = min MaxBlockSize (pw.length - MaxBlockSize * (i : Int)) := by rw [hqe]
  refine ⟨by rw [hqe], by rw [hsum, hb], by rw [hl, hb], ?_, ?_, ?_, ?_, ?_,
    shape_total pw issued h hne⟩
  · rw [hl]
    unfold MaxBlockSize at hlt ⊢
    omega
  · rw [hl]
    unfold MaxBlockSize
    omega
  · rw [hl, hb]
    unfold MaxBlockSize at hlt ⊢
    omega
  · intro q1 hq1
    obtain ⟨hlt1, hq1e⟩ := h (i + 1) q1 hq1
    have hb1 : q1.begin = MaxBlockSize * ((i + 1 : Nat) : Int) := by rw [hq1e]
    rw [hb1, hl, hb]
    push_cast at hlt1 ⊢
    unfold MaxBlockSize at hlt1 ⊢
    omega
  · intro hshort
    rw [hl] at hshort
    have hlast : i + 1 = issued.length := by
      by_contra hne1
      have hi1 : i + 1 < issued.length := by omega
      obtain ⟨hlt1, _⟩ := h (i + 1) _ (List.getElem?_eq_getElem hi1)
      push_cast at hlt1
      unfold MaxBlockSize at hlt1 hshort
      omega
    refine ⟨hlast, ?_, ?_⟩
    · rw [hl]
      unfold MaxBlockSize at hlt hshort ⊢
      omega
    · rw [hl, hb]
      unfold MaxBlockSize at hlt hshort ⊢
      omega

/-- C13: in every state of `attemptDownloadPiece` on a piece of length `L`, and at
its end, each Request issued carries the piece index, has `begin` equal to the sum
of the lengths of the requests issued before it and length
`min(16384, L - begin)`; so its length is between 1 and `MaxBlockSize`, it ends
within the piece, the next request starts where it ends, the requests issued
never add up to more than `L`, and a request shorter than `MaxBlockSize` is the
last one and has the remainder `L mod 16384` as its length. -/
theorem C13_request_shape (c : Client) (pw : pieceWork) (reads : List ReadResult)
    (issued : List Request)
    (hst : issued = issuedRequests c (attemptDownloadPiece c pw reads).final
      ∨ ∃ x ∈ (attemptDownloadPiece c pw reads).visited, issued = issuedRequests c x.state)
    (i : Nat) (q : Request) (hq : issued[i]? = some q) :
    q.index = pw.index
      ∧ q.begin = requestedBytes (issued.take i)
      ∧ q.length = min MaxBlockSize (pw.length - q.begin)
      ∧ 1 ≤ q.length ∧ q.length ≤ MaxBlockSize
      ∧ q.begin + q.length ≤ pw.length
      ∧ (∀ q1, issued[i + 1]? = some q1 →
          q1.begin = q.begin + q.length ∧ q.length = MaxBlockSize)
      ∧ (q.length < MaxBlockSize →
          i + 1 = issued.length ∧ q.length = pw.length % MaxBlockSize
            ∧ q.begin + q.length = pw.length)
      ∧ requestedBytes issued ≤ pw.length
      ∧ MaxBlockSize = 16384 := by
  have hshape : RequestShape pw issued := by
    rcases hst with h | ⟨x, hx, h⟩
    · rw [h]
      exact (attempt_shape c pw reads).2
    · rw [h]
      exact (attempt_shape c pw reads).1 x hx
  obtain ⟨h1, h2, h3, h4, h5, h6, h7, h8, h9⟩ := shape_facts pw issued hshape i q hq
  exact ⟨h1, h2, h3, h4, h5, h6, h7, h8, h9, rfl⟩

/-- C13 on a piece of 40000 bytes requested from an unchoked session: three
requests, of lengths 16384, 16384 and the remainder 7232. -/
theorem C13_request_shape_witness :
    issuedRequests unchokedClient
        (attemptDownloadPiece unchokedClient ⟨0, zeroHash, 40000⟩ [.ok none]).final
        = [⟨0, 0, 16384⟩, ⟨0, 16384, 16384⟩, ⟨0, 32768, 7232⟩]
      ∧ ((7232 : Int) < MaxBlockSize →
          2 + 1 = ([⟨0, 0, 16384⟩, ⟨0, 16384, 16384⟩, ⟨0, 32768, 7232⟩] : List Request).length
            ∧ (7232 : Int) = 40000 % MaxBlockSize ∧ (32768 : Int) + 7232 = 40000) := by
  have hiss : issuedRequests unchokedClient
      (attemptDownloadPiece unchokedClient ⟨0, zeroHash, 40000⟩ [.ok none]).final
      = [⟨0, 0, 16384⟩, ⟨0, 16384, 16384⟩, ⟨0, 32768, 7232⟩] := by decide
  have h := C13_request_shape unchokedClient ⟨0, zeroHash, 40000⟩ [.ok none]
    [⟨0, 0, 16384⟩, ⟨0, 16384, 16384⟩, ⟨0, 32768, 7232⟩] (Or.inl hiss.symm) 2
    ⟨0, 32768, 7232⟩ rfl
  exact ⟨hiss, h.2.2.2.2.2.2.2.1⟩

/-! ## The piece downloader: what the returned buffer holds -/

theorem mem_coverSet (l : List (Nat × Nat)) (j : Nat) : j ∈ coverSet l ↔ coveredBy l j := by
  induction l with
  | nil => simp [coverSet, coveredBy]
  | cons r l ih =>
    simp only [coverSet, Finset.mem_union, Finset.mem_Ico, ih, coveredBy, List.mem_cons,
      exists_eq_or_imp]

theorem card_coverSet (l : List (Nat × Nat)) (h : RangesDisjoint l) :
    (coverSet l).card = blockBytes l := by
  induction l with
  | nil => simp [coverSet, blockBytes]
  | cons r l ih =>
    obtain ⟨h1, h2⟩ := List.pairwise_cons.mp h
    have hdis : Disjoint (Finset.Ico r.1 (r.1 + r.2)) (coverSet l) := by
      rw [Finset.disjoint_left]
      intro x hx hc
      rw [Finset.mem_Ico] at hx
      obtain ⟨b, hb, hb1, hb2⟩ := (mem_coverSet l x).mp hc
      rcases h1 b hb with h | h <;> omega
    simp only [coverSet, blockBytes, List.map_cons, List.sum_cons]
    rw [Finset.card_union_of_disjoint hdis, Nat.card_Ico, ih h2]
    simp only [blockBytes]
    omega

/-- Ranges within `[0, L)` that do not overlap and whose lengths add up to at
least `L` cover every offset below `L`. -/
theorem disjoint_ranges_cover (l : List (Nat × Nat)) (L : Nat)
    (hin : ∀ r ∈ l, r.1 + r.2 ≤ L) (hd : RangesDisjoint l) (hsum : L ≤ blockBytes l) :
    ∀ j, j < L → coveredBy l j := by
  have hsub : coverSet l ⊆ Finset.range L := by
    intro x hx
    obtain ⟨b, hb, _, hb2⟩ := (mem_coverSet l x).mp hx
    have := hin b hb
    rw [Finset.mem_range]
    omega
  have heq : coverSet l = Finset.range L :=
    Finset.eq_of_subset_of_card_le hsub (by rw [Finset.card_range, card_coverSet l hd]; exact hsum)
  intro j hj
  rw [← mem_coverSet, heq, Finset.mem_range]
  exact hj

theorem acceptedRanges_append (pw : pieceWork) (cons : List ReadResult) (r : ReadResult) :
    acceptedRanges pw (cons ++ [r])
      = acceptedRanges pw cons ++ (acceptedRange pw r).toList := by
  unfold acceptedRanges
  rw [List.filterMap_append]
  congr 1

theorem cover_read (c : Client) (pw : pieceWork) (cons : List ReadResult)
    (s : pieceProgress) (r : ReadResult) (hP : CoverInvariant c pw cons s) :
    CoverInvariant c pw (cons ++ [r]) (readMessage s r).1 := by
  obtain ⟨hR, hd, hin⟩ := hP
  have h6 := hR.1.2.2.2.2.2.1
  have h7 := hR.1.2.2.2.2.2.2.1
  refine ⟨invariant_read c pw cons s r hR, ?_, ?_⟩
  · by_cases hacc : ∃ msg, r = .ok (some msg) ∧ ¬ pieceRejected s.index s.buf.length msg
    · obtain ⟨msg, hr, hnr⟩ := hacc
      subst hr
      have ha : acceptedPiece pw (.ok (some msg)) = true :=
        (acceptedPiece_iff pw s h6 h7 msg).mpr hnr
      rw [readMessage_accepted s msg hnr, acceptedRanges_append]
      simp only [acceptedRange, ha, if_true, Option.toList, blockBytes, List.map_append,
        List.sum_append, List.map_cons, List.map_nil, List.sum_cons, List.sum_nil]
      rw [hd]
      simp only [blockBytes]
      push_cast
      omega
    · have hrej : ∀ msg, r = .ok (some msg) → pieceRejected s.index s.buf.length msg := by
        intro msg hr
        by_contra hn
        exact hacc ⟨msg, hr, hn⟩
      have hnone : acceptedRange pw r = none := by
        cases r with
        | error e => rfl
        | ok o =>
          cases o with
          | none => rfl
          | some msg =>
            have hna : ¬ acceptedPiece pw (.ok (some msg)) = true :=
              fun ha => (acceptedPiece_iff pw s h6 h7 msg).mp ha (hrej msg rfl)
            simp only [acceptedRange, hna, if_false]
            rfl
      rw [acceptedRanges_append, hnone]
      simp only [Option.toList, List.append_nil]
      rw [(readMessage_not_accepted s r hrej).1]
      exact hd
  · intro b hb
    rw [acceptedRanges_append] at hb
    rcases List.mem_append.mp hb with hb | hb
    · exact hin b hb
    · cases r with
      | error e => simp [acceptedRange] at hb
      | ok o =>
        cases o with
        | none => simp [acceptedRange] at hb
        | some msg =>
          by_cases ha : acceptedPiece pw (.ok (some msg)) = true
          · simp only [acceptedRange, ha, if_true, Option.toList, List.mem_singleton] at hb
            have hnr := (acceptedPiece_iff pw s h6 h7 msg).mp ha
            simp only [pieceRejected, not_or, not_lt, ge_iff_le, gt_iff_lt, not_le] at hnr
            rw [hb]
            have := hnr.2.2.2.2
            rw [h7] at this
            exact this
          · simp [acceptedRange, ha] at hb

theorem cover_send (c : Client) (pw : pieceWork) (cons : List ReadResult)
    (s : pieceProgress) (c1 : Client) (hP : CoverInvariant c pw cons s)
    (hb : s.backlog < MaxBacklog) (hr : s.requested < pw.length)
    (he : SendRequest s.client pw.index s.requested (blockSizeFor pw s) = (c1, none)) :
    CoverInvariant c pw cons { s with
        client := c1, backlog := s.backlog + 1,
        requested := s.requested + blockSizeFor pw s } :=
  ⟨(invariant_send c pw cons s c1 hP.1 hb hr he).2, hP.2.1, hP.2.2⟩

/-- C12 fails as stated: a peer that sends the first two bytes of a four-byte
piece twice completes the attempt; the buffer returned has the piece length, but
offsets 2 and 3 were written by no accepted block. -/
theorem C12_duplicate_block_leaves_gap :
    (attemptDownloadPiece chokedClient smallWork
        [.ok (some halfPiece), .ok (some halfPiece)]).result
        = .returned (some [1, 2, 0, 0], none)
      ∧ acceptedRanges smallWork [.ok (some halfPiece), .ok (some halfPiece)]
        = [(0, 2), (0, 2)]
      ∧ ¬ coveredBy (acceptedRanges smallWork [.ok (some halfPiece), .ok (some halfPiece)]) 2
      ∧ ¬ coveredBy (acceptedRanges smallWork [.ok (some halfPiece), .ok (some halfPiece)]) 3 := by
  have hr : acceptedRanges smallWork [.ok (some halfPiece), .ok (some halfPiece)]
      = [(0, 2), (0, 2)] := by decide
  refine ⟨by decide, hr, ?_, ?_⟩
  · rw [hr]
    unfold coveredBy
    decide
  · rw [hr]
    unfold coveredBy
    decide

/-! ## A peer that lacks the piece -/

theorem workerIteration_action (sha1 : List Byte → Hash) (gotBF : Bool) (c : Client)
    (pw : pieceWork) (reads : List ReadResult) :
    (workerIteration sha1 gotBF c pw reads).1 = workerStep sha1 gotBF c pw reads := by
  unfold workerIteration workerStep
  split
  · rfl
  · split
    · rfl
    · rfl
    · rfl
    · split <;> rfl

/-- A Bitfield frame read by the readiness loop, followed by Unchoke: the worker
enters its work loop with that bitfield and `gotBF` set, and for a work item whose
bit is clear it puts the item back and writes nothing to the connection. -/
theorem worker_skips_missing_piece (sha1 : List Byte → Hash) (c : Client) (g : Bool)
    (bf payload : List Byte) (rest reads : List ReadResult) (pw : pieceWork)
    (hbit : HasPiece bf pw.index = false) :
    readinessLoop (.ok (some ⟨MsgBitfield, bf⟩) :: .ok (some ⟨MsgUnchoke, payload⟩) :: rest)
        c g
        = .returned (some ⟨{ c with Bitfield := bf, Choked := false }, true, rest⟩)
      ∧ workerIteration sha1 true { c with Bitfield := bf, Choked := false } pw reads
        = (.requeueContinue, { c with Bitfield := bf, Choked := false }) := by
  constructor
  · simp only [readinessLoop]
    rw [if_neg (by decide), if_pos trivial, if_pos trivial]
  · unfold workerIteration
    rw [if_pos (by simp [hbit])]

/-- C11, evaluated on a one-piece torrent and a peer whose first frame after the
handshake is a Bitfield with bit 0 clear, followed by Unchoke: `New` reads the
Bitfield frame, the worker then zeroes the bitfield and enters its work loop with
`gotBF = false`, and for work item 0 it does not put the item back but sends
`Request(0, 0, 4)` to that peer. -/
theorem C11_bitfield_read_by_New_is_dropped :
    (recvBitfield (.ok (some ⟨MsgBitfield, [0]⟩))).1 = some [0]
      ∧ HasPiece [0] smallWork.index = false
      ∧ workerReadiness onePieceTorrent ⟨[], none⟩ (.ok (some ⟨MsgBitfield, [0]⟩))
          [.ok (some ⟨MsgUnchoke, []⟩), .ok (some wholePiece)]
        = .returned (some ⟨⟨⟨[], none⟩, false, [0]⟩, false, [.ok (some wholePiece)]⟩)
      ∧ workerIteration constHash false ⟨⟨[], none⟩, false, [0]⟩ smallWork
          [.ok (some wholePiece)]
        = (.publish ⟨0, [1, 2, 3, 4]⟩, ⟨⟨[⟨0, 0, 4⟩], none⟩, false, [0]⟩) := by
  refine ⟨by decide, by decide, ?_, by decide⟩
  simp only [workerReadiness, readinessLoop]
  rw [if_pos (by decide)]
  rfl

/-! ## Piece bounds in Go `int` arithmetic -/

theorem wrapInt_of_range (x : Int) (h1 : -9223372036854775808 ≤ x)
    (h2 : x < 9223372036854775808) : wrapInt x = x := by
  unfold wrapInt
  omega

/-- As long as `Length + PieceLength` fits in an `int`, the bounds and the size of
every piece of the torrent are computed without overflow. -/
theorem calculateBoundsForPiece_eq_exact (t : Torrent) (i : Int) (hpl : 0 < t.PieceLength)
    (hfit : FitsInt t)
    (hdiv : Int.tdiv (t.Length + t.PieceLength - 1) t.PieceLength = t.PieceHashes.length)
    (hi0 : 0 ≤ i) (hin : i < t.PieceHashes.length) :
    calculateBoundsForPiece t i = exactBoundsForPiece t i
      ∧ calculatePieceSize t i = exactPieceSize t i := by
  have hlt := piece_begin_lt_length t.Length t.PieceLength _ i hpl hdiv hi0 hin
  have hnn : 0 ≤ i * t.PieceLength := Int.mul_nonneg hi0 (by omega)
  unfold FitsInt at hfit
  have w1 : wrapInt (i * t.PieceLength) = i * t.PieceLength :=
    wrapInt_of_range _ (by omega) (by omega)
  have w2 : wrapInt (i * t.PieceLength + t.PieceLength) = i * t.PieceLength + t.PieceLength :=
    wrapInt_of_range _ (by omega) (by omega)
  have hb : calculateBoundsForPiece t i = exactBoundsForPiece t i := by
    unfold calculateBoundsForPiece exactBoundsForPiece
    simp only [w1, w2]
  refine ⟨hb, ?_⟩
  obtain ⟨s1, s2⟩ := pieceSize_formula t i hpl hdiv hi0 hin
  unfold calculatePieceSize
  rw [hb]
  exact wrapInt_of_range _ (by unfold exactPieceSize at s1 s2; omega)
    (by unfold exactPieceSize at s1 s2; omega)

/-- C6 fails as stated: for two pieces of `2^62` bytes and a content of `2^63 - 1`
bytes the hypotheses hold, but for the last piece the `int` sum
`begin + PieceLength` overflows and `calculatePieceSize(1)` is `2^62`, not
`min(piece_length, total_length - piece_length) = 2^62 - 1`. -/
theorem C6_size_overflows_at_int_limit :
    0 < hugeTorrent.PieceLength
      ∧ Int.tdiv (hugeTorrent.Length + hugeTorrent.PieceLength - 1) hugeTorrent.PieceLength
          = hugeTorrent.PieceHashes.length
      ∧ ((0 : Int) ≤ 1 ∧ (1 : Int) < hugeTorrent.PieceHashes.length)
      ∧ calculateBoundsForPiece hugeTorrent 1 = (4611686018427387904, -9223372036854775808)
      ∧ calculatePieceSize hugeTorrent 1 = 4611686018427387904
      ∧ min hugeTorrent.PieceLength (hugeTorrent.Length - 1 * hugeTorrent.PieceLength)
          = 4611686018427387903
      ∧ calculatePieceSize hugeTorrent 1
          ≠ min hugeTorrent.PieceLength (hugeTorrent.Length - 1 * hugeTorrent.PieceLength) := by
  refine ⟨by decide, by decide, by decide, by decide, by decide, by decide, by decide⟩

/-- C6 as amended: with a positive piece length, `total_length + piece_length`
below `2^63` and `(total_length + piece_length - 1) / piece_length = num_pieces`,
`calculatePieceSize(i)` is `min(piece_length, total_length - i*piece_length)` and is
strictly positive for every `0 ≤ i < num_pieces`. -/
theorem C6_calculatePieceSize (t : Torrent) (i : Int) (hpl : 0 < t.PieceLength)
    (hfit : t.Length + t.PieceLength < 9223372036854775808)
    (hdiv : Int.tdiv (t.Length + t.PieceLength - 1) t.PieceLength = t.PieceHashes.length)
    (hi0 : 0 ≤ i) (hin : i < t.PieceHashes.length) :
    calculatePieceSize t i = min t.PieceLength (t.Length - i * t.PieceLength)
      ∧ 0 < calculatePieceSize t i := by
  rw [(calculateBoundsForPiece_eq_exact t i hpl hfit hdiv hi0 hin).2]
  exact pieceSize_formula t i hpl hdiv hi0 hin

/-- C6 as amended, on the specification's scenario: piece length 32768 and total
length 81920 give three pieces of sizes 32768, 32768 and 16384. -/
theorem C6_calculatePieceSize_witness :
    (calculatePieceSize scenarioTorrent 2 = min 32768 (81920 - 2 * 32768)
      ∧ 0 < calculatePieceSize scenarioTorrent 2)
      ∧ calculatePieceSize scenarioTorrent 0 = 32768
      ∧ calculatePieceSize scenarioTorrent 1 = 32768
      ∧ calculatePieceSize scenarioTorrent 2 = 16384 :=
  ⟨C6_calculatePieceSize scenarioTorrent 2 (by decide) (by decide) (by decide) (by decide)
      (by decide),
    by decide, by decide, by decide⟩

theorem mem_queuedWork (t : Torrent) (pw : pieceWork) (h : pw ∈ queuedWork t) :
    ∃ i : Nat, pw.index = i ∧ t.PieceHashes[i]? = some pw.hash
      ∧ pw.length = calculatePieceSize t i := by
  unfold queuedWork at h
  obtain ⟨⟨i, hsh⟩, hm, rfl⟩ := List.mem_map.mp h
  exact ⟨i, rfl, List.mk_mem_enum_iff_getElem?.mp hm, rfl⟩

/-- The work items of `Download` are those of the dispatcher model when no piece
bound overflows. -/
theorem queuedWork_eq_initialWork (t : Torrent) (hinv : DescriptorInvariant t)
    (hfit : FitsInt t) : queuedWork t = initialWork t := by
  unfold queuedWork initialWork
  apply List.map_congr_left
  intro ih hm
  have hsome : t.PieceHashes[ih.1]? = some ih.2 := List.mk_mem_enum_iff_getElem?.mp hm
  have hi : ih.1 < t.PieceHashes.length := by
    by_contra hge
    rw [List.getElem?_eq_none (by omega)] at hsome
    exact absurd hsome (by simp)
  rw [(calculateBoundsForPiece_eq_exact t ih.1 hinv.1 hfit hinv.2.2 (by omega)
    (by exact_mod_cast hi)).2]

/-- C19 fails as stated: for two pieces of `2^62` bytes and a content of
`2^63 - 1` bytes the hypotheses hold, but the interval of the last piece is
`[2^62, -2^63)`: it is empty, does not end at `total_length`, and the piece sizes
add up to `2^63`. -/
theorem C19_bounds_overflow_at_int_limit :
    DescriptorInvariant hugeTorrent
      ∧ calculateBoundsForPiece hugeTorrent (1 : Nat)
          = (4611686018427387904, -9223372036854775808)
      ∧ ¬ ((calculateBoundsForPiece hugeTorrent (1 : Nat)).1
            < (calculateBoundsForPiece hugeTorrent (1 : Nat)).2)
      ∧ (calculateBoundsForPiece hugeTorrent (1 : Nat)).2 ≠ hugeTorrent.Length
      ∧ ((List.range hugeTorrent.PieceHashes.length).map
            (fun i : Nat => calculatePieceSize hugeTorrent (i : Int))).sum
          ≠ hugeTorrent.Length := by
  refine ⟨⟨by decide, by decide, by decide⟩, by decide, by decide, by decide, by decide⟩

/-- C19 as amended: with positive piece length and total length,
`total_length + piece_length` below `2^63` and
`num_pieces = (total_length + piece_length - 1) / piece_length`, the intervals
`[begin_i, end_i)` of `calculateBoundsForPiece` for `i = 0 .. num_pieces - 1` are
non-empty, lie in `[0, total_length)`, start at 0, are consecutive
(`end_i = begin_{i+1}`), end at `total_length`, are pairwise disjoint and cover
every offset of `[0, total_length)`; the piece sizes of `calculatePieceSize` add up
to `total_length`, and every work item put on the queue by `Download` has the
length of the interval of its piece. -/
theorem C19_piece_bounds_tile (t : Torrent) (hinv : DescriptorInvariant t)
    (hfit : t.Length + t.PieceLength < 9223372036854775808) :
    (∀ i : Nat, i < t.PieceHashes.length →
        0 ≤ (calculateBoundsForPiece t i).1
          ∧ (calculateBoundsForPiece t i).1 < (calculateBoundsForPiece t i).2
          ∧ (calculateBoundsForPiece t i).2 ≤ t.Length)
      ∧ (calculateBoundsForPiece t (0 : Nat)).1 = 0
      ∧ (∀ i : Nat, i + 1 < t.PieceHashes.length →
          (calculateBoundsForPiece t i).2 = (calculateBoundsForPiece t (i + 1 : Nat)).1)
      ∧ (∀ i : Nat, i + 1 = t.PieceHashes.length →
          (calculateBoundsForPiece t i).2 = t.Length)
      ∧ (∀ i j : Nat, i < j → j < t.PieceHashes.length →
          (calculateBoundsForPiece t i).2 ≤ (calculateBoundsForPiece t j).1)
      ∧ (∀ x : Int, 0 ≤ x → x < t.Length →
          ∃ i : Nat, i < t.PieceHashes.length
            ∧ (calculateBoundsForPiece t i).1 ≤ x ∧ x < (calculateBoundsForPiece t i).2)
      ∧ ((List.range t.PieceHashes.length).map
            (fun i : Nat => calculatePieceSize t (i : Int))).sum = t.Length
      ∧ (∀ pw ∈ queuedWork t,
          pw.length = (calculateBoundsForPiece t pw.index).2
            - (calculateBoundsForPiece t pw.index).1) := by
  have hb : ∀ i : Nat, i < t.PieceHashes.length →
      calculateBoundsForPiece t (i : Int) = exactBoundsForPiece t (i : Int) :=
    fun i hi => (calculateBoundsForPiece_eq_exact t i hinv.1 hfit hinv.2.2 (by omega)
      (by exact_mod_cast hi)).1
  have hs : ∀ i : Nat, i < t.PieceHashes.length →
      calculatePieceSize t (i : Int) = exactPieceSize t (i : Int) :=
    fun i hi => (calculateBoundsForPiece_eq_exact t i hinv.1 hfit hinv.2.2 (by omega)
      (by exact_mod_cast hi)).2
  obtain ⟨e1, _, e3, e4, e5, e6, e7, _⟩ := exact_bounds_tile t hinv
  refine ⟨?_, ?_, ?_, ?_, ?_, ?_, ?_, ?_⟩
  · intro i hi
    rw [hb i hi]
    exact e1 i hi
  · simp only [calculateBoundsForPiece]
    split <;> simp [wrapInt]
  · intro i hi
    rw [hb i (by omega), hb (i + 1) hi]
    exact e3 i hi
  · intro i hi
    rw [hb i (by omega)]
    exact e4 i hi
  · intro i j hij hj
    rw [hb i (by omega), hb j hj]
    exact e5 i j hij hj
  · intro x hx0 hxL
    obtain ⟨i, hi, h1, h2⟩ := e6 x hx0 hxL
    exact ⟨i, hi, by rw [hb i hi]; exact h1, by rw [hb i hi]; exact h2⟩
  · rw [← e7]
    congr 1
    apply List.map_congr_left
    intro i hi
    exact hs i (List.mem_range.mp hi)
  · intro pw hpw
    obtain ⟨i, hi1, hi2, hi3⟩ := mem_queuedWork t pw hpw
    have hi : i < t.PieceHashes.length := by
      by_contra hge
      rw [List.getElem?_eq_none (by omega)] at hi2
      exact absurd hi2 (by simp)
    rw [hi1, hi3, hs i hi, hb i hi]
    rfl

/-- C19 as amended, on the specification's scenario: piece length 32768, total
length 81920, three pieces. -/
theorem C19_piece_bounds_tile_witness :
    DescriptorInvariant scenarioTorrent
      ∧ scenarioTorrent.Length + scenarioTorrent.PieceLength < 9223372036854775808
      ∧ (List.map (fun i : Nat => calculateBoundsForPiece scenarioTorrent (i : Int))
          [0, 1, 2]) = [(0, 32768), (32768, 65536), (65536, 81920)]
      ∧ (queuedWork scenarioTorrent).map (fun pw => pw.length) = [32768, 32768, 16384]
      ∧ ((List.range scenarioTorrent.PieceHashes.length).map
            (fun i : Nat => calculatePieceSize scenarioTorrent (i : Int))).sum
          = scenarioTorrent.Length :=
  ⟨⟨by decide, by decide, by decide⟩, by decide, by decide, by decide,
    (C19_piece_bounds_tile scenarioTorrent ⟨by decide, by decide, by decide⟩
      (by decide)).2.2.2.2.2.2.1⟩

/-! ## The piece downloader: the reads consumed by a run -/

theorem getLast?_append_cons_eq {α : Type} (l : List α) (y : α) (rv : List α) :
    (l ++ y :: rv).getLast? = (y :: rv).getLast? := by
  rw [List.getLast?_append, List.getLast?_eq_getLast _ (List.cons_ne_nil y rv)]
  rfl

theorem requestLoop_last (pw : pieceWork) :
    ∀ (fuel : Nat) (s : pieceProgress),
      (s :: (requestLoop pw fuel s).visited).getLast? = some (requestLoop pw fuel s).state := by
  intro fuel
  induction fuel with
  | zero => intro s; rfl
  | succ n ih =>
    intro s
    unfold requestLoop
    by_cases hg : s.backlog < MaxBacklog ∧ s.requested < pw.length
    · rw [if_pos hg]
      rcases SendRequest_cases s.client pw.index s.requested (blockSizeFor pw s) with he | he
      · simp only [he]
        rfl
      · simp only [he, List.getLast?_cons_cons]
        exact ih _
    · rw [if_neg hg]
      rfl

theorem requestPhase_last (pw : pieceWork) (s : pieceProgress) :
    (s :: (requestPhase pw s).visited).getLast? = some (requestPhase pw s).state := by
  unfold requestPhase
  split
  · exact requestLoop_last pw _ s
  · rfl

theorem seen_last (pw : pieceWork) (cons : List ReadResult) (s : pieceProgress) :
    (Snapshot.mk cons s :: (requestPhase pw s).visited.map (fun x => Snapshot.mk cons x)).getLast?
      = some ⟨cons, (requestPhase pw s).state⟩ := by
  have h := requestPhase_last pw s
  have e : Snapshot.mk cons s :: (requestPhase pw s).visited.map (fun x => Snapshot.mk cons x)
      = (s :: (requestPhase pw s).visited).map (fun x => Snapshot.mk cons x) := rfl
  rw [e, List.getLast?_map, h]
  rfl

theorem downloadLoop_stop (pw : pieceWork) (reads cons : List ReadResult) (s : pieceProgress)
    (hd : ¬ s.downloaded < pw.length) :
    downloadLoop pw reads cons s = ⟨[], s, .returned (some s.buf, none)⟩ := by
  rw [downloadLoop, if_neg hd]

theorem downloadLoop_send_failed (pw : pieceWork) (reads cons : List ReadResult)
    (s : pieceProgress) (e : Failure) (hd : s.downloaded < pw.length)
    (he : (requestPhase pw s).err = some e) :
    downloadLoop pw reads cons s
      = ⟨(requestPhase pw s).visited.map (fun x => Snapshot.mk cons x),
          (requestPhase pw s).state, .returned (none, some e)⟩ := by
  rw [downloadLoop, if_pos hd]
  simp only [he]

theorem downloadLoop_no_reads (pw : pieceWork) (cons : List ReadResult)
    (s : pieceProgress) (hd : s.downloaded < pw.length)
    (he : (requestPhase pw s).err = none) :
    downloadLoop pw [] cons s
      = ⟨(requestPhase pw s).visited.map (fun x => Snapshot.mk cons x),
          (requestPhase pw s).state, .blocked⟩ := by
  rw [downloadLoop, if_pos hd]
  simp only [he]

theorem downloadLoop_read_failed (pw : pieceWork) (r : ReadResult)
    (rest cons : List ReadResult) (s s1 : pieceProgress) (e : Failure)
    (hd : s.downloaded < pw.length) (he : (requestPhase pw s).err = none)
    (hr : readMessage (requestPhase pw s).state r = (s1, some e)) :
    downloadLoop pw (r :: rest) cons s
      = ⟨(requestPhase pw s).visited.map (fun x => Snapshot.mk cons x)
            ++ [⟨cons ++ [r], s1⟩], s1, .returned (none, some e)⟩ := by
  rw [downloadLoop, if_pos hd]
  simp only [he, hr]

theorem downloadLoop_read (pw : pieceWork) (r : ReadResult)
    (rest cons : List ReadResult) (s s1 : pieceProgress)
    (hd : s.downloaded < pw.length) (he : (requestPhase pw s).err = none)
    (hr : readMessage (requestPhase pw s).state r = (s1, none)) :
    downloadLoop pw (r :: rest) cons s
      = ⟨(requestPhase pw s).visited.map (fun x => Snapshot.mk cons x)
            ++ ⟨cons ++ [r], s1⟩ :: (downloadLoop pw rest (cons ++ [r]) s1).visited,
          (downloadLoop pw rest (cons ++ [r]) s1).final,
          (downloadLoop pw rest (cons ++ [r]) s1).result⟩ := by
  rw [downloadLoop, if_pos hd]
  simp only [he, hr]

/-- The reads consumed by a run of the download loop are a beginning of the reads
given, of some length `k`: the last snapshot holds them with the last state, the
run on these `k` reads alone is the same run, and on fewer reads the loop blocks
in a read. -/
theorem downloadLoop_consumed (pw : pieceWork) :
    ∀ (reads cons : List ReadResult) (s : pieceProgress),
      ∃ k, k ≤ reads.length
        ∧ (Snapshot.mk cons s :: (downloadLoop pw reads cons s).visited).getLast?
          = some ⟨cons ++ reads.take k, (downloadLoop pw reads cons s).final⟩
        ∧ downloadLoop pw (reads.take k) cons s = downloadLoop pw reads cons s
        ∧ ∀ k1, k1 < k → (downloadLoop pw (reads.take k1) cons s).result = .blocked := by
  intro reads
  induction reads with
  | nil =>
    intro cons s
    refine ⟨0, Nat.le_refl _, ?_, rfl, fun k1 h1 => absurd h1 (Nat.not_lt_zero _)⟩
    by_cases hd : s.downloaded < pw.length
    · rcases requestPhase_err_cases pw s with he | ⟨e, he⟩
      · rw [downloadLoop_no_reads pw cons s hd he]
        simpa using seen_last pw cons s
      · rw [downloadLoop_send_failed pw [] cons s e hd he]
        simpa using seen_last pw cons s
    · rw [downloadLoop_stop pw [] cons s hd]
      simp
  | cons r rest ih =>
    intro cons s
    by_cases hd : s.downloaded < pw.length
    · rcases requestPhase_err_cases pw s with he | ⟨e, he⟩
      · cases hrm : readMessage (requestPhase pw s).state r with
        | mk s1 oe =>
          cases oe with
          | some e =>
            refine ⟨1, by simp, ?_, ?_, ?_⟩
            · rw [downloadLoop_read_failed pw r rest cons s s1 e hd he hrm]
              show (Snapshot.mk cons s :: (_ ++ [_])).getLast? = _
              rw [← List.cons_append, List.getLast?_concat]
              simp
            · show downloadLoop pw [r] cons s = _
              rw [downloadLoop_read_failed pw r rest cons s s1 e hd he hrm,
                downloadLoop_read_failed pw r [] cons s s1 e hd he hrm]
            · intro k1 h1
              have : k1 = 0 := by omega
              subst this
              show (downloadLoop pw [] cons s).result = _
              rw [downloadLoop_no_reads pw cons s hd he]
          | none =>
            obtain ⟨k, hk, hl, heq, hb⟩ := ih (cons ++ [r]) s1
            refine ⟨k + 1, by simp only [List.length_cons]; omega, ?_, ?_, ?_⟩
            · rw [downloadLoop_read pw r rest cons s s1 hd he hrm]
              show (Snapshot.mk cons s :: (_ ++ _ :: _)).getLast? = _
              rw [← List.cons_append, getLast?_append_cons_eq, hl]
              simp
            · show downloadLoop pw (r :: rest.take k) cons s = _
              rw [downloadLoop_read pw r rest cons s s1 hd he hrm,
                downloadLoop_read pw r (rest.take k) cons s s1 hd he hrm, heq]
            · intro k1 h1
              cases k1 with
              | zero =>
                show (downloadLoop pw [] cons s).result = _
                rw [downloadLoop_no_reads pw cons s hd he]
              | succ k2 =>
                show (downloadLoop pw (r :: rest.take k2) cons s).result = _
                rw [downloadLoop_read pw r (rest.take k2) cons s s1 hd he hrm]
                exact hb k2 (by omega)
      · refine ⟨0, Nat.zero_le _, ?_, ?_, fun k1 h1 => absurd h1 (Nat.not_lt_zero _)⟩
        · rw [downloadLoop_send_failed pw _ cons s e hd he]
          simpa using seen_last pw cons s
        · rw [downloadLoop_send_failed pw _ cons s e hd he,
            downloadLoop_send_failed pw _ cons s e hd he]
    · refine ⟨0, Nat.zero_le _, ?_, ?_, fun k1 h1 => absurd h1 (Nat.not_lt_zero _)⟩
      · rw [downloadLoop_stop pw _ cons s hd]
        simp
      · rw [downloadLoop_stop pw _ cons s hd, downloadLoop_stop pw _ cons s hd]

/-- The reads consumed by a piece attempt that does not panic. -/
theorem attempt_consumed (c : Client) (pw : pieceWork) (reads : List ReadResult)
    (h0 : 0 ≤ pw.length) :
    ∃ k, k ≤ reads.length
      ∧ (attemptDownloadPiece c pw reads).visited.getLast?
        = some ⟨reads.take k, (attemptDownloadPiece c pw reads).final⟩
      ∧ attemptDownloadPiece c pw (reads.take k) = attemptDownloadPiece c pw reads
      ∧ ∀ k1, k1 < k → (attemptDownloadPiece c pw (reads.take k1)).result = .blocked := by
  obtain ⟨k, hk, hl, heq, hb⟩ := downloadLoop_consumed pw reads [] (initialProgress c pw)
  refine ⟨k, hk, ?_, ?_, ?_⟩
  · unfold attemptDownloadPiece
    rw [if_neg (by omega)]
    simpa using hl
  · unfold attemptDownloadPiece
    rw [if_neg (by omega), if_neg (by omega), heq]
  · intro k1 h1
    unfold attemptDownloadPiece
    rw [if_neg (by omega)]
    exact hb k1 h1

/-! ## The piece downloader: the bytes of the returned buffer -/

theorem acceptedRange_eq_map (pw : pieceWork) (r : ReadResult) :
    acceptedRange pw r = (acceptedBlock pw r).map (fun b => (b.1, b.2.length)) := by
  cases r with
  | error e => rfl
  | ok o =>
    cases o with
    | none => rfl
    | some msg =>
      by_cases ha : acceptedPiece pw (.ok (some msg)) = true
      · simp [acceptedRange, acceptedBlock, ha]
      · simp [acceptedRange, acceptedBlock, ha]

theorem acceptedRanges_eq_map (pw : pieceWork) (cons : List ReadResult) :
    acceptedRanges pw cons
      = (acceptedBlockList pw cons).map (fun b => (b.1, b.2.length)) := by
  unfold acceptedRanges acceptedBlockList
  rw [List.map_filterMap]
  congr 1
  funext r
  exact acceptedRange_eq_map pw r

theorem acceptedBlockList_append (pw : pieceWork) (cons : List ReadResult) (r : ReadResult) :
    acceptedBlockList pw (cons ++ [r])
      = acceptedBlockList pw cons ++ (acceptedBlock pw r).toList := by
  unfold acceptedBlockList
  rw [List.filterMap_append]
  congr 1

theorem length_writeBlock (buf : List Byte) (b : Nat × List Byte)
    (h : b.1 + b.2.length ≤ buf.length) : (writeBlock buf b).length = buf.length := by
  simp only [writeBlock, List.length_append, List.length_take, List.length_drop]
  omega

theorem replayBlocks_append (l : List (Nat × List Byte)) (b : Nat × List Byte)
    (buf : List Byte) :
    replayBlocks (l ++ [b]) buf = writeBlock (replayBlocks l buf) b := by
  simp [replayBlocks, List.foldl_append]

/-- Offsets that no block covers keep their byte. -/
theorem replay_outside :
    ∀ (l : List (Nat × List Byte)) (buf : List Byte) (j : Nat),
      (∀ b ∈ l, b.1 + b.2.length ≤ buf.length) →
      (∀ b ∈ l, j < b.1 ∨ b.1 + b.2.length ≤ j) →
      (replayBlocks l buf)[j]? = buf[j]? := by
  intro l
  induction l with
  | nil => intro buf j _ _; rfl
  | cons b l ih =>
    intro buf j hfit hout
    have hb := hfit b (List.mem_cons_self _ _)
    show (replayBlocks l (writeBlock buf b))[j]? = buf[j]?
    rw [ih (writeBlock buf b) j
      (fun b1 h1 => by rw [length_writeBlock buf b hb]; exact hfit b1 (List.mem_cons_of_mem _ h1))
      (fun b1 h1 => hout b1 (List.mem_cons_of_mem _ h1))]
    exact getElem?_splice_outside buf b.2 b.1 j hb (hout b (List.mem_cons_self _ _))

/-- With blocks that do not overlap, an offset covered by a block holds the byte
that block carries for it. -/
theorem replay_inside :
    ∀ (l : List (Nat × List Byte)) (buf : List Byte) (j : Nat) (blk : Nat × List Byte),
      (∀ b ∈ l, b.1 + b.2.length ≤ buf.length) →
      l.Pairwise (fun a b => a.1 + a.2.length ≤ b.1 ∨ b.1 + b.2.length ≤ a.1) →
      blk ∈ l → blk.1 ≤ j → j < blk.1 + blk.2.length →
      (replayBlocks l buf)[j]? = blk.2[j - blk.1]? := by
  intro l
  induction l with
  | nil => intro buf j blk _ _ hm; simp at hm
  | cons b l ih =>
    intro buf j blk hfit hd hm h1 h2
    have hb := hfit b (List.mem_cons_self _ _)
    obtain ⟨hd1, hd2⟩ := List.pairwise_cons.mp hd
    have hfit1 : ∀ b1 ∈ l, b1.1 + b1.2.length ≤ (writeBlock buf b).length := fun b1 hb1 => by
      rw [length_writeBlock buf b hb]; exact hfit b1 (List.mem_cons_of_mem _ hb1)
    show (replayBlocks l (writeBlock buf b))[j]? = blk.2[j - blk.1]?
    rcases List.mem_cons.mp hm with rfl | hm1
    · rw [replay_outside l (writeBlock buf blk) j hfit1
        (fun b1 hb1 => by rcases hd1 b1 hb1 with h | h <;> omega)]
      have hl : (buf.take blk.1).length = blk.1 := by
        rw [List.length_take]; omega
      have hj : j = (buf.take blk.1).length + (j - blk.1) := by omega
      unfold writeBlock
      nth_rewrite 1 [hj]
      exact getElem?_splice_inside _ _ _ _ (by omega)
    · exact ih (writeBlock buf b) j blk hfit1 hd2 hm1 h1 h2

theorem buffer_read (c : Client) (pw : pieceWork) (cons : List ReadResult)
    (s : pieceProgress) (r : ReadResult) (hP : BufferHead c pw cons s) :
    BufferHead c pw (cons ++ [r]) (readMessage s r).1 := by
  obtain ⟨hC, hbuf⟩ := hP
  have h6 := hC.1.1.2.2.2.2.2.1
  have h7 := hC.1.1.2.2.2.2.2.2.1
  refine ⟨cover_read c pw cons s r hC, ?_⟩
  by_cases hacc : ∃ msg, r = .ok (some msg) ∧ ¬ pieceRejected s.index s.buf.length msg
  · obtain ⟨msg, hr, hnr⟩ := hacc
    subst hr
    have ha : acceptedPiece pw (.ok (some msg)) = true :=
      (acceptedPiece_iff pw s h6 h7 msg).mpr hnr
    rw [readMessage_accepted s msg hnr, acceptedBlockList_append]
    simp only [acceptedBlock, ha, if_true, Option.toList]
    rw [replayBlocks_append, ← hbuf, ParsePiece_ok s.index s.buf msg hnr]
    rfl
  · have hrej : ∀ msg, r = .ok (some msg) → pieceRejected s.index s.buf.length msg := by
      intro msg hr
      by_contra hn
      exact hacc ⟨msg, hr, hn⟩
    have hnone : acceptedBlock pw r = none := by
      cases r with
      | error e => rfl
      | ok o =>
        cases o with
        | none => rfl
        | some msg =>
          have hna : ¬ acceptedPiece pw (.ok (some msg)) = true :=
            fun ha => (acceptedPiece_iff pw s h6 h7 msg).mp ha (hrej msg rfl)
          simp only [acceptedBlock, hna, if_false]
          rfl
    rw [acceptedBlockList_append, hnone]
    simp only [Option.toList, List.append_nil]
    rw [(readMessage_not_accepted s r hrej).2.2.2.2.1]
    exact hbuf

theorem buffer_send (c : Client) (pw : pieceWork) (cons : List ReadResult)
    (s : pieceProgress) (c1 : Client) (hP : BufferHead c pw cons s)
    (hb : s.backlog < MaxBacklog) (hr : s.requested < pw.length)
    (he : SendRequest s.client pw.index s.requested (blockSizeFor pw s) = (c1, none)) :
    BufferInvariant c pw cons { s with client := c1, backlog := s.backlog + 1 }
      ∧ BufferHead c pw cons { s with
          client := c1, backlog := s.backlog + 1,
          requested := s.requested + blockSizeFor pw s } :=
  ⟨⟨(invariant_send c pw cons s c1 hP.1.1 hb hr he).1, hP.1.2.1, hP.1.2.2, hP.2⟩,
    cover_send c pw cons s c1 hP.1 hb hr he, hP.2⟩

/-- In every state of a piece attempt the buffer is the zeroed buffer overwritten
by the blocks accepted so far. -/
theorem attempt_buffer (c : Client) (pw : pieceWork) (reads : List ReadResult)
    (h0 : 0 ≤ pw.length) :
    ∀ x ∈ (attemptDownloadPiece c pw reads).visited,
      BufferInvariant c pw x.consumed x.state := by
  unfold attemptDownloadPiece
  rw [if_neg (by omega)]
  have hinit : BufferHead c pw [] (initialProgress c pw) := by
    refine ⟨⟨initialProgress_invariant c pw h0, ?_, ?_⟩, rfl⟩
    · simp [initialProgress, acceptedRanges, blockBytes]
    · intro r hr
      simp [acceptedRanges] at hr
  have hweak : ∀ cons s, BufferHead c pw cons s → BufferInvariant c pw cons s :=
    fun cons s hP => ⟨hP.1.1.1, hP.1.2.1, hP.1.2.2, hP.2⟩
  obtain ⟨a1, _⟩ := downloadLoop_invariant pw (BufferHead c pw) (BufferInvariant c pw)
    (fun cons s c1 hP _ hb hr he => buffer_send c pw cons s c1 hP hb hr he)
    (fun cons s r hP _ => buffer_read c pw cons s r hP) reads [] _ hinit
  intro x hx
  simp only [List.mem_cons] at hx
  rcases hx with rfl | hx
  · exact hweak _ _ hinit
  · rcases a1 x hx with h | h
    · exact hweak _ _ h
    · exact h

/-- C12 as amended: when `attemptDownloadPiece` returns successfully, the buffer
returned has the piece length and is the zeroed buffer overwritten, in the order
received, by the Piece blocks accepted among the reads the attempt consumed (the
first `k` reads: on fewer the attempt blocks in a read, on these it returns the
same buffer). Every accepted block lies within the buffer and the block lengths
add up to at least the piece length. An offset that no accepted block covers
still holds zero; whenever the accepted blocks do not overlap, every offset of
the buffer is covered by an accepted block and holds the byte that block carries
for it. -/
theorem C12_returned_buffer (c : Client) (pw : pieceWork) (reads : List ReadResult)
    (buf : List Byte)
    (h : (attemptDownloadPiece c pw reads).result = .returned (some buf, none)) :
    (buf.length : Int) = pw.length
      ∧ ∃ k, k ≤ reads.length
        ∧ (∀ k1, k1 < k → (attemptDownloadPiece c pw (reads.take k1)).result = .blocked)
        ∧ (attemptDownloadPiece c pw (reads.take k)).result = .returned (some buf, none)
        ∧ (attemptDownloadPiece c pw reads).visited.getLast?
            = some ⟨reads.take k, (attemptDownloadPiece c pw reads).final⟩
        ∧ (attemptDownloadPiece c pw reads).final.buf = buf
        ∧ buf = replayBlocks (acceptedBlockList pw (reads.take k)) (makeBytes pw.length.toNat)
        ∧ acceptedRanges pw (reads.take k)
            = (acceptedBlockList pw (reads.take k)).map (fun b => (b.1, b.2.length))
        ∧ pw.length ≤ (blockBytes (acceptedRanges pw (reads.take k)) : Int)
        ∧ (∀ b ∈ acceptedBlockList pw (reads.take k), b.1 + b.2.length ≤ buf.length)
        ∧ (∀ j, j < buf.length → ¬ coveredBy (acceptedRanges pw (reads.take k)) j →
            buf[j]? = some 0)
        ∧ (RangesDisjoint (acceptedRanges pw (reads.take k)) →
            ∀ j, j < buf.length → ∃ b ∈ acceptedBlockList pw (reads.take k),
              b.1 ≤ j ∧ j < b.1 + b.2.length ∧ buf[j]? = b.2[j - b.1]?) := by
  obtain ⟨h0, hd, hb⟩ := attempt_returned c pw reads (some buf) h
  obtain ⟨k, hk, hl, heq, hblk⟩ := attempt_consumed c pw reads h0
  obtain ⟨hPI, hdl, hin, hrep⟩ :=
    attempt_buffer c pw reads h0 _ (List.mem_of_getLast?_eq_some hl)
  have h7 : (attemptDownloadPiece c pw reads).final.buf.length = pw.length.toNat :=
    hPI.2.2.2.2.2.2.1
  have hbuf : buf = (attemptDownloadPiece c pw reads).final.buf := Option.some.inj hb
  have hlen : buf.length = pw.length.toNat := by rw [hbuf, h7]
  have hmap := acceptedRanges_eq_map pw (reads.take k)
  have hfit : ∀ b ∈ acceptedBlockList pw (reads.take k), b.1 + b.2.length ≤ buf.length := by
    intro b hb1
    rw [hlen]
    apply hin (b.1, b.2.length)
    rw [hmap]
    exact List.mem_map_of_mem (fun b => (b.1, b.2.length)) hb1
  have hfit0 : ∀ b ∈ acceptedBlockList pw (reads.take k),
      b.1 + b.2.length ≤ (makeBytes pw.length.toNat).length := by
    intro b hb1
    have := hfit b hb1
    simp only [makeBytes, List.length_replicate]
    omega
  have hrep1 : buf = replayBlocks (acceptedBlockList pw (reads.take k))
      (makeBytes pw.length.toNat) := by rw [hbuf]; exact hrep
  have hsum : pw.length ≤ (blockBytes (acceptedRanges pw (reads.take k)) : Int) := by
    have hdl1 : (attemptDownloadPiece c pw reads).final.downloaded
        = (blockBytes (acceptedRanges pw (reads.take k)) : Int) := hdl
    omega
  refine ⟨by rw [hlen]; omega, k, hk, hblk, by rw [heq]; exact h, hl, hbuf.symm, hrep1, hmap,
    hsum, hfit, ?_, ?_⟩
  · intro j hj hnc
    rw [hrep1, replay_outside _ _ j hfit0]
    · simp only [makeBytes]
      rw [List.getElem?_replicate, if_pos (by omega)]
    · intro b hb1
      by_contra hcon
      apply hnc
      refine ⟨(b.1, b.2.length), ?_, ?_⟩
      · rw [hmap]
        exact List.mem_map_of_mem (fun b => (b.1, b.2.length)) hb1
      · show b.1 ≤ j ∧ j < b.1 + b.2.length
        omega
  · intro hdis j hj
    have hin2 : ∀ r ∈ acceptedRanges pw (reads.take k), r.1 + r.2 ≤ buf.length := by
      intro r hr
      rw [hlen]
      exact hin r hr
    obtain ⟨r, hr, hr1, hr2⟩ :=
      disjoint_ranges_cover _ buf.length hin2 hdis (by omega) j hj
    rw [hmap] at hr
    obtain ⟨b, hb1, rfl⟩ := List.mem_map.mp hr
    refine ⟨b, hb1, hr1, hr2, ?_⟩
    have hpw : (acceptedBlockList pw (reads.take k)).Pairwise
        (fun a b => a.1 + a.2.length ≤ b.1 ∨ b.1 + b.2.length ≤ a.1) := by
      unfold RangesDisjoint at hdis
      rw [hmap, List.pairwise_map] at hdis
      exact hdis
    rw [hrep1]
    exact replay_inside _ _ j b hfit0 hpw hb1 hr1 hr2

/-- C12 as amended, on an unchoked session that requests the four-byte piece and
receives it in one block: the one read is consumed, the accepted block is
`(0, [1, 2, 3, 4])`, and every offset of the buffer holds the byte of that block. -/
theorem C12_returned_buffer_witness :
    (attemptDownloadPiece unchokedClient smallWork [.ok (some wholePiece)]).result
        = .returned (some [1, 2, 3, 4], none)
      ∧ (([1, 2, 3, 4] : List Byte).length : Int) = smallWork.length
      ∧ acceptedBlockList smallWork [.ok (some wholePiece)] = [(0, [1, 2, 3, 4])]
      ∧ ([1, 2, 3, 4] : List Byte)
          = replayBlocks (acceptedBlockList smallWork [.ok (some wholePiece)])
              (makeBytes smallWork.length.toNat)
      ∧ ∀ j, j < 4 → ∃ b ∈ acceptedBlockList smallWork [.ok (some wholePiece)],
          b.1 ≤ j ∧ j < b.1 + b.2.length ∧ ([1, 2, 3, 4] : List Byte)[j]? = b.2[j - b.1]? := by
  have hres : (attemptDownloadPiece unchokedClient smallWork [.ok (some wholePiece)]).result
      = .returned (some [1, 2, 3, 4], none) := by decide
  obtain ⟨hlen, k, hk, _, hresk, _, _, hrep, _, _, _, _, hcov⟩ :=
    C12_returned_buffer unchokedClient smallWork [.ok (some wholePiece)] [1, 2, 3, 4] hres
  have hk1 : k ≤ 1 := hk
  have hk0 : k ≠ 0 := by
    intro hz
    rw [hz] at hresk
    revert hresk
    decide
  have hk2 : k = 1 := by omega
  subst hk2
  refine ⟨hres, hlen, by decide, hrep, ?_⟩
  apply hcov
  unfold RangesDisjoint
  decide

end TinyTorrent
